import Mathlib

/-!
# Closest pair of points: brute force and divide and conquer

A shallow embedding of `regmi_a_321.cpp`.

* A `double` is an element of a linearly ordered field `α` (the theorems take `α := ℝ`), the
  library function `sqrt` is a parameter of the definitions, and `DBL_MAX` is the exact value
  `(2^53 - 1) * 2^971` of the largest finite double.  The arithmetic is exact: it has neither
  the rounding nor the overflow of doubles.  In the code `dx*dx + dy*dy` is `+inf` once it
  exceeds `DBL_MAX`, so what is said of a result compared with `DBL_MAX` is said for inputs whose
  closest pair has a squared distance of at most `DBL_MAX` (`PairInRange`), and of a pair beyond
  that range only that its distance is above `DBL_MAX`.  The rounding of `sqrt` is looked at on
  its own, with `sqrt_double`.
* A `vector<pair<double,double>>` is a `List (α × α)`; `v.at(i)` is `vector_at`, which reports
  `Fault.out_of_range` where the C++ call throws.
* A `uint` is a `Nat` below `2^32`: every `uint` addition, subtraction and conversion is written
  with an explicit `% UINT_MOD`.  A `size_t` (the result of `size()`) is wider than a `uint` and
  is a `Nat`: a vector can hold `2^32` points or more, and a `uint` compared with a `size_t` is
  compared as a number.  The two `size_t` subtractions (`p.size() / 2 - 1`, `s.size() - 1`) are
  reached only with a positive left side.
* `for` and `while` loops over `uint` counters are run by `while_loop`, which takes a bound on the
  number of condition checks and reports `Fault.out_of_fuel` when the bound is reached.  The
  range-based `for` over `q` visits each element once and is a `List.filter`.
* `count_ops` is passed in and returned next to the distance.
-/

namespace ClosestPair

/-! ## Machine model -/

/-- Number of values of the 32-bit `unsigned int` (`typedef unsigned int uint`). -/
def UINT_MOD : Nat := 2 ^ 32

/-- How a run can fail to return: `at` throws `std::out_of_range`, or a loop or the recursion is
still running when the step bound is used up. -/
inductive Fault where
  | out_of_range
  | out_of_fuel
  deriving DecidableEq, Repr

/-- The bounds-checked access `v.at(i)`. -/
def vector_at {β : Type} (v : List β) (i : Nat) : Except Fault β :=
  match v[i]? with
  | some x => .ok x
  | none => .error .out_of_range

/-- A `while (cond) body` loop (also `for (init; cond; step) body`, with `step` at the end of
`body`), run for at most `fuel` checks of the condition. -/
def while_loop {σ : Type} (cond : σ → Except Fault Bool) (body : σ → Except Fault σ) :
    Nat → σ → Except Fault σ
  | 0, _ => .error .out_of_fuel
  | fuel + 1, s =>
    match cond s with
    | .error e => .error e
    | .ok false => .ok s
    | .ok true =>
      match body s with
      | .error e => .error e
      | .ok s' => while_loop cond body fuel s'

section Numeric

variable {α : Type} [LinearOrderedField α]

/-- The constant `DBL_MAX` of `<cfloat>`: the largest finite double, `(2^53 - 1) * 2^971`. -/
def DBL_MAX : α := (2 ^ 53 - 1) * 2 ^ 971

/-- The library function `std::min(a, b)`: `b` when `b < a`, else `a`. -/
def std_min (a b : α) : α := if b < a then b else a

/-- The library function `std::sort(first, last, comp)` for a comparator `comp` that is a strict
total order: the sorted rearrangement, in which no element is `comp`-less than an earlier one. -/
def std_sort {β : Type} (comp : β → β → Bool) (v : List β) : List β :=
  v.mergeSort (fun a b => !comp b a)

/-- `SortFirst::operator()`: ascending by the first element, ties by the second. -/
def SortFirst (left right : α × α) : Bool :=
  if left.1 = right.1 then decide (left.2 < right.2)
  else decide (left.1 < right.1)

/-- `SortSecond::operator()`: ascending by the second element, ties by the first. -/
def SortSecond (left right : α × α) : Bool :=
  if left.2 = right.2 then decide (left.1 < right.1)
  else decide (left.2 < right.2)

/-- The function `distance`: Cartesian distance between two points, in the exact arithmetic of
`α`. -/
def distance (sqrt : α → α) (p1 p2 : α × α) : α :=
  let diff_xs := p1.1 - p2.1
  let diff_ys := p1.2 - p2.2
  sqrt (diff_xs * diff_xs + diff_ys * diff_ys)

/-- State of the inner loop of `bf_close_pair_dist`: `j`, `dmin`, `count_ops`. -/
structure BfInner (α : Type) where
  j : Nat
  dmin : α
  count_ops : Nat

/-- State of the outer loop of `bf_close_pair_dist`: `i`, `dmin`, `count_ops`. -/
structure BfOuter (α : Type) where
  i : Nat
  dmin : α
  count_ops : Nat

/-- Condition `j < size` of the inner loop (line 161). -/
def bf_inner_cond (size : Nat) (s : BfInner α) : Except Fault Bool :=
  pure (decide (s.j < size))

/-- Condition `i < (size - 1)` of the outer loop (line 159), the subtraction in `uint`. -/
def bf_outer_cond (size : Nat) (s : BfOuter α) : Except Fault Bool :=
  pure (decide (s.i < (size + UINT_MOD - 1) % UINT_MOD))

/-- Body of the inner loop (lines 163-164) followed by `j++`. -/
def bf_inner_body (sqrt : α → α) (p : List (α × α)) (i : Nat) (s : BfInner α) :
    Except Fault (BfInner α) := do
  let count_ops := (s.count_ops + 1) % UINT_MOD
  let pi ← vector_at p i
  let pj ← vector_at p s.j
  let dmin := std_min s.dmin (distance sqrt pi pj)
  pure ⟨(s.j + 1) % UINT_MOD, dmin, count_ops⟩

/-- Body of the outer loop (lines 161-165) followed by `i++`. -/
def bf_outer_body (sqrt : α → α) (p : List (α × α)) (size fuel : Nat) (s : BfOuter α) :
    Except Fault (BfOuter α) := do
  let r ← while_loop (bf_inner_cond size) (bf_inner_body sqrt p s.i) fuel
    ⟨(s.i + 1) % UINT_MOD, s.dmin, s.count_ops⟩
  pure ⟨(s.i + 1) % UINT_MOD, r.dmin, r.count_ops⟩

/-- The function `bf_close_pair_dist` (lines 152-168); returns `dmin` and the new `count_ops`. -/
def bf_close_pair_dist (sqrt : α → α) (fuel : Nat) (p _q : List (α × α)) (count_ops : Nat) :
    Except Fault (α × Nat) := do
  let dmin : α := DBL_MAX
  let size : Nat := p.length % UINT_MOD
  let r ← while_loop (bf_outer_cond size) (bf_outer_body sqrt p size fuel) fuel
    ⟨0, dmin, count_ops⟩
  pure (r.dmin, r.count_ops)

/-! ## Divide and conquer -/

/-- State of the two copying loops of `dc_close_pair_dist`: the counter `i`, the two vectors
being filled (`pl`, `ql` or `pr`, `qr`) and `count_ops`. -/
structure Split (α : Type) where
  i : Nat
  px : List (α × α)
  qx : List (α × α)
  count_ops : Nat

/-- Condition `i < bound` of the copying loops (lines 89 and 96), `bound` a `size_t`. -/
def split_cond (bound : Nat) (s : Split α) : Except Fault Bool :=
  pure (decide (s.i < bound))

/-- Body of the copying loops (lines 91-93 and 98-100) followed by `i++`. -/
def split_body (p : List (α × α)) (s : Split α) : Except Fault (Split α) := do
  let count_ops := (s.count_ops + 1) % UINT_MOD
  let a ← vector_at p s.i
  let b ← vector_at p s.i
  pure ⟨(s.i + 1) % UINT_MOD, s.px ++ [a], s.qx ++ [b], count_ops⟩

/-- State of the inner loop of the strip scan: `k`, `dminsq`, `count_ops`. -/
structure ScanInner (α : Type) where
  k : Nat
  dminsq : α
  count_ops : Nat

/-- State of the outer loop of the strip scan: `i`, `dminsq`, `count_ops`. -/
structure ScanOuter (α : Type) where
  i : Nat
  dminsq : α
  count_ops : Nat

/-- Condition of the inner `while` (lines 131-132); `&&` evaluates its right side only when
`k < s.size()`. -/
def scan_inner_cond (s : List (α × α)) (i : Nat) (t : ScanInner α) : Except Fault Bool :=
  if t.k < s.length then do
    let sk ← vector_at s t.k
    let si ← vector_at s i
    pure (decide ((sk.2 - si.2) ^ 2 < t.dminsq))
  else pure false

/-- Body of the inner `while` (lines 134-138). -/
def scan_inner_body (s : List (α × α)) (i : Nat) (t : ScanInner α) :
    Except Fault (ScanInner α) := do
  let count_ops := (t.count_ops + 1) % UINT_MOD
  let sk ← vector_at s t.k
  let si ← vector_at s i
  let sk' ← vector_at s t.k
  let si' ← vector_at s i
  let dminsq := std_min ((sk.1 - si.1) ^ 2 + (sk'.2 - si'.2) ^ 2) t.dminsq
  pure ⟨(t.k + 1) % UINT_MOD, dminsq, count_ops⟩

/-- Condition `i < s.size() - 1` of the outer `for` of the strip scan (line 128); it is only
reached with `s` non-empty, so the `size_t` subtraction does not wrap. -/
def scan_outer_cond (s : List (α × α)) (t : ScanOuter α) : Except Fault Bool :=
  pure (decide (t.i < s.length - 1))

/-- Body of the outer `for` of the strip scan (lines 130-139) followed by `i++`. -/
def scan_outer_body (s : List (α × α)) (fuel : Nat) (t : ScanOuter α) :
    Except Fault (ScanOuter α) := do
  let r ← while_loop (scan_inner_cond s t.i) (scan_inner_body s t.i) fuel
    ⟨(t.i + 1) % UINT_MOD, t.dminsq, t.count_ops⟩
  pure ⟨(t.i + 1) % UINT_MOD, r.dminsq, r.count_ops⟩

/-- The function `dc_close_pair_dist` (lines 67-142); returns the distance and the new
`count_ops`.  The three base cases need no fuel; a level of recursion uses one unit of `fuel`,
and every loop of that level may check its condition as often as the fuel that is left. -/
def dc_close_pair_dist (sqrt : α → α) (fuel : Nat) (p q : List (α × α)) (count_ops : Nat) :
    Except Fault (α × Nat) :=
  if p.length < 2 then
    pure (0, count_ops)
  else if p.length = 2 then do
    let p0 ← vector_at p 0
    let p1 ← vector_at p 1
    pure (distance sqrt p0 p1, count_ops)
  else if p.length = 3 then do
    let p0 ← vector_at p 0
    let p1 ← vector_at p 1
    let dist01 := distance sqrt p0 p1
    let p0' ← vector_at p 0
    let p2 ← vector_at p 2
    let dist02 := distance sqrt p0' p2
    let p1' ← vector_at p 1
    let p2' ← vector_at p 2
    let dist12 := distance sqrt p1' p2'
    let min01 := if dist01 < dist02 then dist01 else dist02
    pure (if min01 < dist12 then min01 else dist12, count_ops)
  else
    match fuel with
    | 0 => .error .out_of_fuel
    | fuel + 1 => do
      let l ← while_loop (split_cond (p.length / 2)) (split_body p) fuel ⟨0, [], [], count_ops⟩
      let r ← while_loop (split_cond p.length) (split_body p) fuel
        ⟨(p.length / 2) % UINT_MOD, [], [], l.count_ops⟩
      let pl := l.px
      let pr := r.px
      let ql := std_sort SortSecond l.qx
      let qr := std_sort SortSecond r.qx
      let (dl, count_ops) ← dc_close_pair_dist sqrt fuel pl ql r.count_ops
      let (dr, count_ops) ← dc_close_pair_dist sqrt fuel pr qr count_ops
      let d := std_min dl dr
      let pm ← vector_at p (p.length / 2 - 1)
      let m := pm.1
      let s := q.filter (fun point => decide (|point.1 - m| < d))
      let dminsq := d * d
      if s.length = 0 then
        pure (sqrt dminsq, count_ops)
      else do
        let t ← while_loop (scan_outer_cond s) (scan_outer_body s fuel) fuel
          ⟨0, dminsq, count_ops⟩
        pure (sqrt t.dminsq, t.count_ops)

/-- The part of `main` after parsing (lines 187-194) that yields `mindist`: both copies of the
input are sorted and passed to `dc_close_pair_dist` with `count_dc = 0`. -/
def solve (sqrt : α → α) (fuel : Nat) (pts : List (α × α)) : Except Fault (α × Nat) :=
  let p := std_sort SortFirst pts
  let q := std_sort SortSecond pts
  dc_close_pair_dist sqrt fuel p q 0

/-! ## The recursive case in two parts -/

/-- What the recursive case has computed when it reaches line 109: the four vectors, the results
of the two recursive calls and `count_ops`. -/
structure Divided (α : Type) where
  pl : List (α × α)
  ql : List (α × α)
  pr : List (α × α)
  qr : List (α × α)
  dl : α
  dr : α
  count_ops : Nat

/-- Lines 84-108 of `dc_close_pair_dist`: the copying loops, the two sorts and the two recursive
calls. -/
def dc_divide (sqrt : α → α) (fuel : Nat) (p : List (α × α)) (count_ops : Nat) :
    Except Fault (Divided α) := do
  let l ← while_loop (split_cond (p.length / 2)) (split_body p) fuel ⟨0, [], [], count_ops⟩
  let r ← while_loop (split_cond p.length) (split_body p) fuel
    ⟨(p.length / 2) % UINT_MOD, [], [], l.count_ops⟩
  let pl := l.px
  let pr := r.px
  let ql := std_sort SortSecond l.qx
  let qr := std_sort SortSecond r.qx
  let (dl, count_ops) ← dc_close_pair_dist sqrt fuel pl ql r.count_ops
  let (dr, count_ops) ← dc_close_pair_dist sqrt fuel pr qr count_ops
  pure ⟨pl, ql, pr, qr, dl, dr, count_ops⟩

/-- The strip `s` of lines 112-120, for the dividing point `pm = p.at(p.size()/2 - 1)`. -/
def strip (pm : α × α) (q : List (α × α)) (d : α) : List (α × α) :=
  q.filter (fun point => decide (|point.1 - pm.1| < d))

/-- Lines 109-141 of `dc_close_pair_dist`: the strip and its scan. -/
def dc_conquer (sqrt : α → α) (fuel : Nat) (p q : List (α × α)) (dl dr : α) (count_ops : Nat) :
    Except Fault (α × Nat) := do
  let d := std_min dl dr
  let pm ← vector_at p (p.length / 2 - 1)
  let m := pm.1
  let s := q.filter (fun point => decide (|point.1 - m| < d))
  let dminsq := d * d
  if s.length = 0 then
    pure (sqrt dminsq, count_ops)
  else do
    let t ← while_loop (scan_outer_cond s) (scan_outer_body s fuel) fuel ⟨0, dminsq, count_ops⟩
    pure (sqrt t.dminsq, t.count_ops)

/-- The number of times a `while` loop runs its body (to the end or to a fault) within `fuel`
checks of its condition. -/
def while_count {σ : Type} (cond : σ → Except Fault Bool) (body : σ → Except Fault σ) :
    Nat → σ → Nat
  | 0, _ => 0
  | fuel + 1, s =>
    match cond s with
    | .error _ => 0
    | .ok false => 0
    | .ok true =>
      match body s with
      | .error _ => 1
      | .ok s' => 1 + while_count cond body fuel s'

/-! ## What the loops compute -/

/-- One `count_ops++` on a `uint`. -/
def incr (c : Nat) : Nat := (c + 1) % UINT_MOD

/-- What the nested loops of `bf_close_pair_dist` compute on the points they visit: every point
is compared with the points after it, in order. -/
def bf_rows (sqrt : α → α) : List (α × α) → α → Nat → α × Nat
  | [], dmin, c => (dmin, c)
  | a :: rest, dmin, c =>
    bf_rows sqrt rest (rest.foldl (fun d b => std_min d (distance sqrt a b)) dmin)
      (incr^[rest.length] c)

/-- The squared distance of lines 135-136, with `a = s.at(i)` and `b = s.at(k)`. -/
def sq_dist (a b : α × α) : α := (b.1 - a.1) ^ 2 + (b.2 - a.2) ^ 2

/-- What the inner `while` of the strip scan computes for the point `a = s.at(i)` on the points
that follow it in the strip. -/
def scan_row (a : α × α) : List (α × α) → α → Nat → α × Nat
  | [], dminsq, c => (dminsq, c)
  | b :: rest, dminsq, c =>
    if (b.2 - a.2) ^ 2 < dminsq then scan_row a rest (std_min (sq_dist a b) dminsq) (incr c)
    else (dminsq, c)

/-- What the strip scan computes on the strip. -/
def scan_strip : List (α × α) → α → Nat → α × Nat
  | [], dminsq, c => (dminsq, c)
  | a :: rest, dminsq, c =>
    scan_strip rest (scan_row a rest dminsq c).1 (scan_row a rest dminsq c).2

/-- What lines 109-141 of `dc_close_pair_dist` compute from the point `pm = p.at(p.size()/2 - 1)`,
the vector `q`, the results `dl`, `dr` of the recursive calls and the `count_ops` they leave. -/
def merge_step (sqrt : α → α) (pm : α × α) (q : List (α × α)) (dl dr : α) (c : Nat) : α × Nat :=
  let d := std_min dl dr
  let s := q.filter (fun point => decide (|point.1 - pm.1| < d))
  (sqrt (scan_strip s (d * d) c).1, (scan_strip s (d * d) c).2)

/-! ## Tallies of a run -/

/-- The number of times the inner `while` of the strip scan runs its body for the point
`a = s.at(i)` on the points that follow it in the strip. -/
def row_comparisons (a : α × α) : List (α × α) → α → Nat
  | [], _ => 0
  | b :: rest, dminsq =>
    if (b.2 - a.2) ^ 2 < dminsq then
      1 + row_comparisons a rest (std_min (sq_dist a b) dminsq)
    else 0

/-- The number of times the strip scan runs the body of its inner `while`, over all rows. -/
def strip_comparisons : List (α × α) → α → Nat
  | [], _ => 0
  | a :: rest, dminsq =>
    row_comparisons a rest dminsq + strip_comparisons rest (scan_row a rest dminsq 0).1

/-- What the base cases of `dc_close_pair_dist` return (lines 71-82). -/
def dc_base_value (sqrt : α → α) : List (α × α) → α
  | [a, b] => distance sqrt a b
  | [a, b, e] =>
    let dist01 := distance sqrt a b
    let dist02 := distance sqrt a e
    let dist12 := distance sqrt b e
    let min01 := if dist01 < dist02 then dist01 else dist02
    if min01 < dist12 then min01 else dist12
  | _ => 0

/-- Tallies over a whole run of `dc_close_pair_dist`: the distance it returns, the number of
points copied by the copying loops and the number of comparisons of the strip scans. -/
structure Tally (α : Type) where
  dist : α
  copies : Nat
  comparisons : Nat

/-- The tallies of `dc_close_pair_dist` on `p` and `q`, over all levels of the recursion that
`fuel` allows: a recursive case on `n` points copies `n` points, makes its two recursive calls
and scans its strip. -/
def dc_tally (sqrt : α → α) : Nat → List (α × α) → List (α × α) → Tally α
  | 0, p, _ => ⟨dc_base_value sqrt p, 0, 0⟩
  | fuel + 1, p, q =>
    if p.length < 4 then ⟨dc_base_value sqrt p, 0, 0⟩
    else
      let pl := p.take (p.length / 2)
      let pr := p.drop (p.length / 2)
      let tl := dc_tally sqrt fuel pl (std_sort SortSecond pl)
      let tr := dc_tally sqrt fuel pr (std_sort SortSecond pr)
      let d := std_min tl.dist tr.dist
      match p[p.length / 2 - 1]? with
      | none => ⟨0, 0, 0⟩
      | some pm =>
        let s := strip pm q d
        ⟨sqrt (scan_strip s (d * d) 0).1, p.length + tl.copies + tr.copies,
          tl.comparisons + tr.comparisons + strip_comparisons s (d * d)⟩

/-! ## Vocabulary of the claims -/

/-- The vector `v` is sorted by the comparator `comp`: no element is `comp`-less than an element
before it. -/
def SortedBy {β : Type} (comp : β → β → Bool) (v : List β) : Prop :=
  v.Pairwise (fun a b => comp b a = false)

/-- The precondition of `dc_close_pair_dist`: `p` is sorted by `SortFirst`, `q` is sorted by
`SortSecond`, and the two hold the same multiset of points. -/
def ValidInput (p q : List (α × α)) : Prop :=
  SortedBy SortFirst p ∧ SortedBy SortSecond q ∧ q.Perm p

/-- The value `v` is the distance of some pair of points at positions `i < j` of `p`. -/
def IsPairDist (sqrt : α → α) (p : List (α × α)) (v : α) : Prop :=
  ∃ (i j : Nat) (a b : α × α), i < j ∧ p[i]? = some a ∧ p[j]? = some b ∧ v = distance sqrt a b

/-- The value `v` is at most the distance of every pair of points at positions `i < j` of `p`. -/
def IsLowerBound (sqrt : α → α) (p : List (α × α)) (v : α) : Prop :=
  ∀ (i j : Nat) (a b : α × α), i < j → p[i]? = some a → p[j]? = some b → v ≤ distance sqrt a b

/-- The value `v` is the minimum, over all index pairs `i < j`, of `distance(p[i], p[j])`. -/
def IsMinPairDist (sqrt : α → α) (p : List (α × α)) (v : α) : Prop :=
  IsPairDist sqrt p v ∧ IsLowerBound sqrt p v

/-- The point `pt` moved by the vector `t`. -/
def translate (t pt : α × α) : α × α := (pt.1 + t.1, pt.2 + t.2)

/-- The point `pt` turned about the origin by the angle whose cosine and sine are `co` and
`si`. -/
def rotate (co si : α) (pt : α × α) : α × α := (pt.1 * co - pt.2 * si, pt.1 * si + pt.2 * co)

/-- The distance a run returns, without its operation count. -/
def result_dist (r : Except Fault (α × Nat)) : Except Fault α :=
  match r with
  | .ok v => .ok v.1
  | .error e => .error e

/-- The origin, `2^32` times. -/
def origin_copies : List (α × α) := List.replicate UINT_MOD (0, 0)

/-- Four points on a line. -/
def collinear : List (α × α) := [(0, 0), (1, 1), (2, 2), (3, 3)]

/-- Four points on the x axis, one apart. -/
def line4 : List (α × α) := [(0, 0), (1, 0), (2, 0), (3, 0)]

/-- The point `(1,0)`, `2^32 + 1` times. -/
def many_copies : List (α × α) := List.replicate (UINT_MOD + 1) (1, 0)

/-- Two points, each twice. -/
def dup4 : List (α × α) := [(0, 0), (0, 0), (1, 0), (1, 0)]

end Numeric

/-! ## The loops, run with enough fuel -/

theorem vector_at_lt {β : Type} (v : List β) (i : Nat) (h : i < v.length) :
    vector_at v i = .ok v[i] := by
  simp [vector_at, List.getElem?_eq_getElem h]

theorem while_loop_zero {σ : Type} (cond : σ → Except Fault Bool) (body : σ → Except Fault σ)
    (s : σ) : while_loop cond body 0 s = .error .out_of_fuel := rfl

theorem while_loop_stop {σ : Type} (cond : σ → Except Fault Bool) (body : σ → Except Fault σ)
    (fuel : Nat) (s : σ) (h : cond s = .ok false) :
    while_loop cond body (fuel + 1) s = .ok s := by
  simp [while_loop, h]

theorem while_loop_step {σ : Type} (cond : σ → Except Fault Bool) (body : σ → Except Fault σ)
    (fuel : Nat) (s s' : σ) (h : cond s = .ok true) (hb : body s = .ok s') :
    while_loop cond body (fuel + 1) s = while_loop cond body fuel s' := by
  simp [while_loop, h, hb]

theorem split_body_lt {α : Type} (p : List (α × α)) (i : Nat) (px qx : List (α × α)) (c : Nat)
    (h : i < p.length) :
    split_body p ⟨i, px, qx, c⟩
      = .ok ⟨(i + 1) % UINT_MOD, px ++ [p[i]], qx ++ [p[i]], incr c⟩ := by
  simp [split_body, vector_at_lt p i h, incr, bind, Except.bind, pure, Except.pure]

theorem split_loop {α : Type} (p : List (α × α)) (bound : Nat) (hb : bound ≤ p.length)
    (hM : bound < UINT_MOD) :
    ∀ (k i fuel : Nat) (px qx : List (α × α)) (c : Nat), i + k = bound → k < fuel →
      while_loop (split_cond bound) (split_body p) fuel ⟨i, px, qx, c⟩
        = .ok ⟨bound, px ++ (p.drop i).take k, qx ++ (p.drop i).take k, incr^[k] c⟩ := by
  intro k
  induction k with
  | zero =>
    intro i fuel px qx c hi hf
    obtain ⟨f, rfl⟩ : ∃ f, fuel = f + 1 := ⟨fuel - 1, by omega⟩
    have : i = bound := by omega
    subst this
    have hc : split_cond i (⟨i, px, qx, c⟩ : Split α) = .ok false := by
      simp [split_cond, pure, Except.pure]
    rw [while_loop_stop _ _ _ _ hc]
    simp
  | succ k ih =>
    intro i fuel px qx c hi hf
    obtain ⟨f, rfl⟩ : ∃ f, fuel = f + 1 := ⟨fuel - 1, by omega⟩
    have hlt : i < p.length := by omega
    have hmod : (i + 1) % UINT_MOD = i + 1 := Nat.mod_eq_of_lt (by omega)
    have hc : split_cond bound (⟨i, px, qx, c⟩ : Split α) = .ok true := by
      have : i < bound := by omega
      simp [split_cond, this, pure, Except.pure]
    rw [while_loop_step _ _ _ _ _ hc (split_body_lt p i px qx c hlt), hmod,
      ih (i + 1) f _ _ _ (by omega) (by omega)]
    have hd : List.drop i p = p[i] :: List.drop (i + 1) p := (List.drop_eq_getElem_cons hlt)
    rw [hd, List.take_succ_cons, Function.iterate_succ_apply, List.append_assoc,
      List.append_assoc, List.singleton_append]

section Loops

variable {α : Type} [LinearOrderedField α]

theorem bf_inner_body_lt (sqrt : α → α) (p : List (α × α)) (i j : Nat) (dmin : α) (c : Nat)
    (hi : i < p.length) (hj : j < p.length) :
    bf_inner_body sqrt p i ⟨j, dmin, c⟩
      = .ok ⟨(j + 1) % UINT_MOD, std_min dmin (distance sqrt p[i] p[j]), incr c⟩ := by
  simp [bf_inner_body, vector_at_lt p i hi, vector_at_lt p j hj, incr, bind, Except.bind, pure,
    Except.pure]

theorem bf_inner_loop (sqrt : α → α) (p : List (α × α)) (size i : Nat) (hi : i < p.length)
    (hs : size ≤ p.length) (hM : size < UINT_MOD) :
    ∀ (k j fuel : Nat) (dmin : α) (c : Nat), j + k = size → k < fuel →
      while_loop (bf_inner_cond size) (bf_inner_body sqrt p i) fuel ⟨j, dmin, c⟩
        = .ok ⟨size, ((p.drop j).take k).foldl (fun d b => std_min d (distance sqrt p[i] b)) dmin,
            incr^[k] c⟩ := by
  intro k
  induction k with
  | zero =>
    intro j fuel dmin c hj hf
    obtain ⟨f, rfl⟩ : ∃ f, fuel = f + 1 := ⟨fuel - 1, by omega⟩
    have : j = size := by omega
    subst this
    have hc : bf_inner_cond j (⟨j, dmin, c⟩ : BfInner α) = .ok false := by
      simp [bf_inner_cond, pure, Except.pure]
    rw [while_loop_stop _ _ _ _ hc]
    simp
  | succ k ih =>
    intro j fuel dmin c hj hf
    obtain ⟨f, rfl⟩ : ∃ f, fuel = f + 1 := ⟨fuel - 1, by omega⟩
    have hlt : j < p.length := by omega
    have hmod : (j + 1) % UINT_MOD = j + 1 := Nat.mod_eq_of_lt (by omega)
    have hc : bf_inner_cond size (⟨j, dmin, c⟩ : BfInner α) = .ok true := by
      have : j < size := by omega
      simp [bf_inner_cond, this, pure, Except.pure]
    rw [while_loop_step _ _ _ _ _ hc (bf_inner_body_lt sqrt p i j dmin c hi hlt), hmod,
      ih (j + 1) f _ _ (by omega) (by omega)]
    have hd : List.drop j p = p[j] :: List.drop (j + 1) p := (List.drop_eq_getElem_cons hlt)
    rw [hd, List.take_succ_cons, Function.iterate_succ_apply, List.foldl_cons]

theorem bf_inner_loop_skip (sqrt : α → α) (p : List (α × α)) (size i j fuel : Nat) (dmin : α)
    (c : Nat) (h : size ≤ j) :
    while_loop (bf_inner_cond size) (bf_inner_body sqrt p i) (fuel + 1) ⟨j, dmin, c⟩
      = .ok ⟨j, dmin, c⟩ := by
  have hc : bf_inner_cond size (⟨j, dmin, c⟩ : BfInner α) = .ok false := by
    have : ¬ j < size := by omega
    simp [bf_inner_cond, this, pure, Except.pure]
  rw [while_loop_stop _ _ _ _ hc]

/-- The outer loop on a non-empty prefix of `size` points. -/
theorem bf_outer_loop (sqrt : α → α) (p : List (α × α)) (size fi : Nat) (hs : size ≤ p.length)
    (hM : size < UINT_MOD) (hfi : size ≤ fi) :
    ∀ (k i fuel : Nat) (dmin : α) (c : Nat), i + k + 1 = size → k < fuel →
      while_loop (bf_outer_cond size) (bf_outer_body sqrt p size fi) fuel ⟨i, dmin, c⟩
        = .ok ⟨size - 1, (bf_rows sqrt ((p.drop i).take (k + 1)) dmin c).1,
            (bf_rows sqrt ((p.drop i).take (k + 1)) dmin c).2⟩ := by
  have hB : (size + UINT_MOD - 1) % UINT_MOD = size - 1 ∨ size = 0 := by
    rcases Nat.eq_zero_or_pos size with h | h
    · exact Or.inr h
    · left
      have : size + UINT_MOD - 1 = (size - 1) + UINT_MOD := by omega
      rw [this, Nat.add_mod_right, Nat.mod_eq_of_lt (by omega)]
  intro k
  induction k with
  | zero =>
    intro i fuel dmin c hi hf
    obtain ⟨f, rfl⟩ : ∃ f, fuel = f + 1 := ⟨fuel - 1, by omega⟩
    have hB' : (size + UINT_MOD - 1) % UINT_MOD = size - 1 := by
      rcases hB with h | h
      · exact h
      · omega
    have hc : bf_outer_cond size (⟨i, dmin, c⟩ : BfOuter α) = .ok false := by
      have : ¬ i < size - 1 := by omega
      simp [bf_outer_cond, hB', this, pure, Except.pure]
    rw [while_loop_stop _ _ _ _ hc]
    have hlt : i < p.length := by omega
    have hd : List.drop i p = p[i] :: List.drop (i + 1) p := (List.drop_eq_getElem_cons hlt)
    have hi' : size - 1 = i := by omega
    rw [hi', hd, List.take_succ_cons, List.take_zero]
    simp [bf_rows]
  | succ k ih =>
    intro i fuel dmin c hi hf
    obtain ⟨f, rfl⟩ : ∃ f, fuel = f + 1 := ⟨fuel - 1, by omega⟩
    obtain ⟨g, rfl⟩ : ∃ g, fi = g + 1 := ⟨fi - 1, by omega⟩
    have hB' : (size + UINT_MOD - 1) % UINT_MOD = size - 1 := by
      rcases hB with h | h
      · exact h
      · omega
    have hlt : i < p.length := by omega
    have hmod : (i + 1) % UINT_MOD = i + 1 := Nat.mod_eq_of_lt (by omega)
    have hc : bf_outer_cond size (⟨i, dmin, c⟩ : BfOuter α) = .ok true := by
      have : i < size - 1 := by omega
      simp [bf_outer_cond, hB', this, pure, Except.pure]
    have hb : bf_outer_body sqrt p size (g + 1) ⟨i, dmin, c⟩
        = .ok ⟨i + 1,
            ((p.drop (i + 1)).take (k + 1)).foldl (fun d b => std_min d (distance sqrt p[i] b)) dmin,
            incr^[k + 1] c⟩ := by
      simp only [bf_outer_body, hmod]
      rw [bf_inner_loop sqrt p size i hlt hs hM (k + 1) (i + 1) (g + 1) dmin c (by omega) (by omega)]
      rfl
    rw [while_loop_step _ _ _ _ _ hc hb, ih (i + 1) f _ _ (by omega) (by omega)]
    have hd : List.drop i p = p[i] :: List.drop (i + 1) p := (List.drop_eq_getElem_cons hlt)
    have hlen : ((p.drop (i + 1)).take (k + 1)).length = k + 1 := by
      rw [List.length_take, List.length_drop]; omega
    rw [hd, List.take_succ_cons, bf_rows, hlen]

/-- The outer loop when `size` is `0`: `size - 1` wraps to `2^32 - 1` and every pass finds the
inner loop finished at once. -/
theorem bf_outer_loop_zero (sqrt : α → α) (p : List (α × α)) (fi : Nat) :
    ∀ (k i fuel : Nat) (dmin : α) (c : Nat), i + k + 1 = UINT_MOD → k < fuel →
      while_loop (bf_outer_cond 0) (bf_outer_body sqrt p 0 (fi + 1)) fuel ⟨i, dmin, c⟩
        = .ok ⟨UINT_MOD - 1, dmin, c⟩ := by
  have hB : (0 + UINT_MOD - 1) % UINT_MOD = UINT_MOD - 1 := by
    rw [Nat.zero_add]; exact Nat.mod_eq_of_lt (by simp [UINT_MOD])
  intro k
  induction k with
  | zero =>
    intro i fuel dmin c hi hf
    obtain ⟨f, rfl⟩ : ∃ f, fuel = f + 1 := ⟨fuel - 1, by omega⟩
    have hc : bf_outer_cond 0 (⟨i, dmin, c⟩ : BfOuter α) = .ok false := by
      have : ¬ i < UINT_MOD - 1 := by omega
      simp only [bf_outer_cond, hB]
      simp [this, pure, Except.pure]
    rw [while_loop_stop _ _ _ _ hc]
    have : i = UINT_MOD - 1 := by omega
    rw [this]
  | succ k ih =>
    intro i fuel dmin c hi hf
    obtain ⟨f, rfl⟩ : ∃ f, fuel = f + 1 := ⟨fuel - 1, by omega⟩
    have hmod : (i + 1) % UINT_MOD = i + 1 := Nat.mod_eq_of_lt (by omega)
    have hc : bf_outer_cond 0 (⟨i, dmin, c⟩ : BfOuter α) = .ok true := by
      have : i < UINT_MOD - 1 := by omega
      simp only [bf_outer_cond, hB]
      simp [this, pure, Except.pure]
    have hb : bf_outer_body sqrt p 0 (fi + 1) ⟨i, dmin, c⟩ = .ok ⟨i + 1, dmin, c⟩ := by
      simp only [bf_outer_body, hmod]
      rw [bf_inner_loop_skip sqrt p 0 i (i + 1) fi dmin c (Nat.zero_le _)]
      rfl
    rw [while_loop_step _ _ _ _ _ hc hb, ih (i + 1) f _ _ (by omega) (by omega)]

/-- `bf_close_pair_dist` returns once `fuel` covers the loop bounds: it has compared the first
`p.size() mod 2^32` points with one another. -/
theorem bf_close_pair_dist_eq (sqrt : α → α) (fuel : Nat) (p q : List (α × α)) (c : Nat)
    (hf : (if p.length % UINT_MOD = 0 then UINT_MOD else p.length % UINT_MOD) ≤ fuel) :
    bf_close_pair_dist sqrt fuel p q c
      = .ok (bf_rows sqrt (p.take (p.length % UINT_MOD)) DBL_MAX c) := by
  have hpos : 0 < UINT_MOD := by simp [UINT_MOD]
  have hM : p.length % UINT_MOD < UINT_MOD := Nat.mod_lt _ hpos
  have hs : p.length % UINT_MOD ≤ p.length := Nat.mod_le _ _
  by_cases h0 : p.length % UINT_MOD = 0
  · rw [if_pos h0] at hf
    obtain ⟨f, rfl⟩ : ∃ f, fuel = f + 1 := ⟨fuel - 1, by omega⟩
    simp only [bf_close_pair_dist, h0]
    rw [bf_outer_loop_zero sqrt p f (UINT_MOD - 1) 0 (f + 1) DBL_MAX c (by omega) (by omega)]
    simp [bf_rows]
  · rw [if_neg h0] at hf
    simp only [bf_close_pair_dist]
    rw [bf_outer_loop sqrt p _ fuel hs hM hf (p.length % UINT_MOD - 1) 0 fuel DBL_MAX c (by omega)
      (by omega)]
    have : p.length % UINT_MOD - 1 + 1 = p.length % UINT_MOD := by omega
    simp [this]

theorem std_min_eq (a b : α) : std_min a b = min a b := by
  unfold std_min
  split_ifs with h
  · exact (min_eq_right h.le).symm
  · exact (min_eq_left (not_lt.mp h)).symm

theorem scan_inner_cond_lt (s : List (α × α)) (i k : Nat) (d : α) (c : Nat) (hi : i < s.length)
    (hk : k < s.length) :
    scan_inner_cond s i ⟨k, d, c⟩ = .ok (decide ((s[k].2 - s[i].2) ^ 2 < d)) := by
  simp [scan_inner_cond, hk, vector_at_lt s i hi, vector_at_lt s k hk, bind, Except.bind, pure,
    Except.pure]

theorem scan_inner_cond_ge (s : List (α × α)) (i k : Nat) (d : α) (c : Nat)
    (hk : s.length ≤ k) : scan_inner_cond s i ⟨k, d, c⟩ = .ok false := by
  have : ¬ k < s.length := by omega
  simp [scan_inner_cond, this, pure, Except.pure]

theorem scan_inner_body_lt (s : List (α × α)) (i k : Nat) (d : α) (c : Nat) (hi : i < s.length)
    (hk : k < s.length) :
    scan_inner_body s i ⟨k, d, c⟩
      = .ok ⟨(k + 1) % UINT_MOD, std_min (sq_dist s[i] s[k]) d, incr c⟩ := by
  simp [scan_inner_body, vector_at_lt s i hi, vector_at_lt s k hk, bind, Except.bind, pure,
    Except.pure, sq_dist, incr]

/-- The inner `while` of the strip scan, from position `k` on. -/
theorem scan_inner_loop (s : List (α × α)) (i : Nat) (hi : i < s.length)
    (hM : s.length < UINT_MOD) :
    ∀ (n k fuel : Nat) (d : α) (c : Nat), k + n = s.length → n < fuel →
      ∃ k', while_loop (scan_inner_cond s i) (scan_inner_body s i) fuel ⟨k, d, c⟩
        = .ok ⟨k', (scan_row s[i] (s.drop k) d c).1, (scan_row s[i] (s.drop k) d c).2⟩ := by
  intro n
  induction n with
  | zero =>
    intro k fuel d c hk hf
    obtain ⟨f, rfl⟩ : ∃ f, fuel = f + 1 := ⟨fuel - 1, by omega⟩
    refine ⟨k, ?_⟩
    rw [while_loop_stop _ _ _ _ (scan_inner_cond_ge s i k d c (by omega)),
      List.drop_of_length_le (by omega)]
    simp [scan_row]
  | succ n ih =>
    intro k fuel d c hk hf
    obtain ⟨f, rfl⟩ : ∃ f, fuel = f + 1 := ⟨fuel - 1, by omega⟩
    have hlt : k < s.length := by omega
    have hmod : (k + 1) % UINT_MOD = k + 1 := Nat.mod_eq_of_lt (by omega)
    have hd : List.drop k s = s[k] :: List.drop (k + 1) s := (List.drop_eq_getElem_cons hlt)
    by_cases hy : (s[k].2 - s[i].2) ^ 2 < d
    · have hc : scan_inner_cond s i ⟨k, d, c⟩ = .ok true := by
        rw [scan_inner_cond_lt s i k d c hi hlt]; simp [hy]
      obtain ⟨k', hk'⟩ := ih (k + 1) f (std_min (sq_dist s[i] s[k]) d) (incr c) (by omega)
        (by omega)
      refine ⟨k', ?_⟩
      rw [while_loop_step _ _ _ _ _ hc (scan_inner_body_lt s i k d c hi hlt), hmod, hk', hd,
        scan_row, if_pos hy]
    · have hc : scan_inner_cond s i ⟨k, d, c⟩ = .ok false := by
        rw [scan_inner_cond_lt s i k d c hi hlt]; simp [hy]
      refine ⟨k, ?_⟩
      rw [while_loop_stop _ _ _ _ hc, hd, scan_row, if_neg hy]

/-- The outer `for` of the strip scan, from position `i` on. -/
theorem scan_outer_loop (s : List (α × α)) (fi : Nat) (hM : s.length < UINT_MOD)
    (hfi : s.length ≤ fi) :
    ∀ (n i fuel : Nat) (d : α) (c : Nat), i + n + 1 = s.length → n < fuel →
      while_loop (scan_outer_cond s) (scan_outer_body s fi) fuel ⟨i, d, c⟩
        = .ok ⟨s.length - 1, (scan_strip (s.drop i) d c).1, (scan_strip (s.drop i) d c).2⟩ := by
  intro n
  induction n with
  | zero =>
    intro i fuel d c hi hf
    obtain ⟨f, rfl⟩ : ∃ f, fuel = f + 1 := ⟨fuel - 1, by omega⟩
    have hc : scan_outer_cond s (⟨i, d, c⟩ : ScanOuter α) = .ok false := by
      have : ¬ i < s.length - 1 := by omega
      simp [scan_outer_cond, this, pure, Except.pure]
    have hlt : i < s.length := by omega
    have hd : List.drop i s = s[i] :: List.drop (i + 1) s := (List.drop_eq_getElem_cons hlt)
    have hi' : s.length - 1 = i := by omega
    rw [while_loop_stop _ _ _ _ hc, hd, List.drop_of_length_le (by omega), hi']
    simp [scan_strip, scan_row]
  | succ n ih =>
    intro i fuel d c hi hf
    obtain ⟨f, rfl⟩ : ∃ f, fuel = f + 1 := ⟨fuel - 1, by omega⟩
    have hlt : i < s.length := by omega
    have hmod : (i + 1) % UINT_MOD = i + 1 := Nat.mod_eq_of_lt (by omega)
    have hd : List.drop i s = s[i] :: List.drop (i + 1) s := (List.drop_eq_getElem_cons hlt)
    have hc : scan_outer_cond s (⟨i, d, c⟩ : ScanOuter α) = .ok true := by
      have : i < s.length - 1 := by omega
      simp [scan_outer_cond, this, pure, Except.pure]
    obtain ⟨k', hk'⟩ := scan_inner_loop s i hlt hM (n + 1) (i + 1) fi d c (by omega) (by omega)
    have hb : scan_outer_body s fi ⟨i, d, c⟩
        = .ok ⟨i + 1, (scan_row s[i] (s.drop (i + 1)) d c).1,
            (scan_row s[i] (s.drop (i + 1)) d c).2⟩ := by
      simp only [scan_outer_body, hmod]
      rw [hk']
      rfl
    rw [while_loop_step _ _ _ _ _ hc hb, ih (i + 1) f _ _ (by omega) (by omega), hd, scan_strip]

/-- One level of the recursion of `dc_close_pair_dist`, for `4 ≤ p.size() < 2^32`: the copying
loops cut `p` at `p.size() / 2` and count `p.size()` operations, and the strip scan runs on the
results of the two recursive calls. -/
theorem dc_step (sqrt : α → α) (fuel : Nat) (p q : List (α × α)) (c : Nat) (pm : α × α)
    (h4 : 4 ≤ p.length) (hM : p.length < UINT_MOD) (hq : q.length < UINT_MOD)
    (hf : p.length ≤ fuel) (hfq : q.length ≤ fuel) (hpm : p[p.length / 2 - 1]? = some pm)
    (dl dr : α) (c1 c2 : Nat)
    (hl : dc_close_pair_dist sqrt fuel (p.take (p.length / 2))
      (std_sort SortSecond (p.take (p.length / 2))) (incr^[p.length] c) = .ok (dl, c1))
    (hr : dc_close_pair_dist sqrt fuel (p.drop (p.length / 2))
      (std_sort SortSecond (p.drop (p.length / 2))) c1 = .ok (dr, c2)) :
    dc_close_pair_dist sqrt (fuel + 1) p q c = .ok (merge_step sqrt pm q dl dr c2) := by
  have hloop1 := split_loop p (p.length / 2) (Nat.div_le_self _ _) (by omega) (p.length / 2) 0 fuel
    [] [] c (by omega) (by omega)
  have hloop2 := split_loop p p.length (le_refl _) hM (p.length - p.length / 2) (p.length / 2) fuel
    [] [] (incr^[p.length / 2] c) (by omega) (by omega)
  have hmod : (p.length / 2) % UINT_MOD = p.length / 2 := Nat.mod_eq_of_lt (by omega)
  have htake : List.take (p.length - p.length / 2) (List.drop (p.length / 2) p)
      = List.drop (p.length / 2) p := by
    apply List.take_of_length_le
    rw [List.length_drop]
  have hcount : incr^[p.length - p.length / 2] (incr^[p.length / 2] c) = incr^[p.length] c := by
    rw [← Function.iterate_add_apply]
    congr 1
    omega
  rw [List.drop_zero, List.nil_append] at hloop1
  rw [List.nil_append, htake, hcount] at hloop2
  have hat : vector_at p (p.length / 2 - 1) = .ok pm := by
    simp [vector_at, hpm]
  rw [dc_close_pair_dist, if_neg (by omega), if_neg (by omega), if_neg (by omega)]
  simp only [hloop1, hmod, hloop2, bind, Except.bind, hl, hr, hat, pure, Except.pure]
  split_ifs with hs
  · have hs' : q.filter (fun point => decide (|point.1 - pm.1| < std_min dl dr)) = [] :=
      List.length_eq_zero.mp hs
    simp [merge_step, hs', scan_strip]
  · have hlen : (q.filter (fun point => decide (|point.1 - pm.1| < std_min dl dr))).length
        ≤ q.length := List.length_filter_le _ _
    rw [scan_outer_loop _ fuel (by omega) (by omega)
      ((q.filter (fun point => decide (|point.1 - pm.1| < std_min dl dr))).length - 1) 0 fuel _ _
      (by omega) (by omega)]
    simp [merge_step]

end Loops

section Pure

variable {α : Type} [LinearOrderedField α]

/-! ## The strip scan finds the least squared distance of a strip sorted by `y` -/

theorem scan_row_le (a : α × α) (rest : List (α × α)) (d : α) (c : Nat) :
    (scan_row a rest d c).1 ≤ d := by
  induction rest generalizing d c with
  | nil => simp [scan_row]
  | cons b rest ih =>
    rw [scan_row]
    split_ifs with h
    · exact (ih _ _).trans (by rw [std_min_eq]; exact min_le_right _ _)
    · exact le_refl _

theorem scan_row_attained (a : α × α) (rest : List (α × α)) (d : α) (c : Nat) :
    (scan_row a rest d c).1 = d ∨ ∃ b ∈ rest, (scan_row a rest d c).1 = sq_dist a b := by
  induction rest generalizing d c with
  | nil => simp [scan_row]
  | cons b rest ih =>
    rw [scan_row]
    split_ifs with h
    · rcases ih (std_min (sq_dist a b) d) (incr c) with h1 | ⟨b', hb', h1⟩
      · rw [h1, std_min_eq]
        rcases min_choice (sq_dist a b) d with h2 | h2
        · exact Or.inr ⟨b, List.mem_cons_self _ _, h2⟩
        · exact Or.inl h2
      · exact Or.inr ⟨b', List.mem_cons_of_mem _ hb', h1⟩
    · exact Or.inl rfl

theorem sq_le_sq_dist (a b : α × α) : (b.2 - a.2) ^ 2 ≤ sq_dist a b := by
  unfold sq_dist
  nlinarith [sq_nonneg (b.1 - a.1)]

theorem scan_row_lower (a : α × α) (rest : List (α × α)) (d : α) (c : Nat)
    (hy : ∀ b ∈ rest, a.2 ≤ b.2) (hs : rest.Pairwise (fun b b' => b.2 ≤ b'.2)) :
    ∀ b ∈ rest, (scan_row a rest d c).1 ≤ sq_dist a b := by
  induction rest generalizing d c with
  | nil => simp
  | cons b rest ih =>
    rw [List.pairwise_cons] at hs
    intro b' hb'
    rw [scan_row]
    split_ifs with h
    · rcases List.mem_cons.mp hb' with rfl | hmem
      · exact (scan_row_le a rest _ _).trans (by rw [std_min_eq]; exact min_le_left _ _)
      · exact ih _ _ (fun x hx => hy x (List.mem_cons_of_mem _ hx)) hs.2 b' hmem
    · have h1 : d ≤ (b.2 - a.2) ^ 2 := not_lt.mp h
      have hab : a.2 ≤ b.2 := hy b (List.mem_cons_self _ _)
      have hbb' : b.2 ≤ b'.2 := by
        rcases List.mem_cons.mp hb' with rfl | hmem
        · exact le_refl _
        · exact hs.1 b' hmem
      have h2 : (b.2 - a.2) ^ 2 ≤ (b'.2 - a.2) ^ 2 := by
        exact pow_le_pow_left₀ (by linarith) (by linarith) 2
      exact h1.trans (h2.trans (sq_le_sq_dist a b'))

theorem scan_strip_le (s : List (α × α)) (d : α) (c : Nat) : (scan_strip s d c).1 ≤ d := by
  induction s generalizing d c with
  | nil => simp [scan_strip]
  | cons a rest ih =>
    rw [scan_strip]
    exact (ih _ _).trans (scan_row_le a rest d c)

theorem scan_strip_attained (s : List (α × α)) (d : α) (c : Nat) :
    (scan_strip s d c).1 = d ∨ ∃ a b, List.Sublist [a, b] s ∧ (scan_strip s d c).1 = sq_dist a b := by
  induction s generalizing d c with
  | nil => simp [scan_strip]
  | cons a rest ih =>
    rw [scan_strip]
    rcases ih (scan_row a rest d c).1 (scan_row a rest d c).2 with h | ⟨x, y, hxy, h⟩
    · rcases scan_row_attained a rest d c with h1 | ⟨b, hb, h1⟩
      · exact Or.inl (h.trans h1)
      · refine Or.inr ⟨a, b, ?_, h.trans h1⟩
        exact List.Sublist.cons₂ a (List.singleton_sublist.mpr hb)
    · exact Or.inr ⟨x, y, List.Sublist.cons a hxy, h⟩

theorem scan_strip_lower (s : List (α × α)) (d : α) (c : Nat)
    (hs : s.Pairwise (fun a b => a.2 ≤ b.2)) :
    s.Pairwise (fun a b => (scan_strip s d c).1 ≤ sq_dist a b) := by
  induction s generalizing d c with
  | nil => simp
  | cons a rest ih =>
    rw [List.pairwise_cons] at hs
    rw [scan_strip, List.pairwise_cons]
    refine ⟨fun b hb => ?_, ih _ _ hs.2⟩
    exact (scan_strip_le rest _ _).trans (scan_row_lower a rest d c hs.1 hs.2 b hb)

/-! ## The brute-force loops find the least distance, capped by the initial `dmin` -/

end Pure

section Order

variable {α : Type} [LinearOrderedField α]

/-! ## The comparators and `std::sort` -/

theorem SortFirst_eq_false_iff (a b : α × α) :
    SortFirst b a = false ↔ a.1 < b.1 ∨ (a.1 = b.1 ∧ a.2 ≤ b.2) := by
  unfold SortFirst
  split_ifs with h
  · simp only [decide_eq_false_iff_not, not_lt]
    constructor
    · intro h2; exact Or.inr ⟨h.symm, h2⟩
    · rintro (h2 | ⟨_, h2⟩)
      · exact absurd h.symm (ne_of_lt h2)
      · exact h2
  · simp only [decide_eq_false_iff_not, not_lt]
    constructor
    · intro h2; exact Or.inl (lt_of_le_of_ne h2 (fun e => h e.symm))
    · rintro (h2 | ⟨h2, _⟩)
      · exact h2.le
      · exact absurd h2.symm h

theorem SortSecond_eq_false_iff (a b : α × α) :
    SortSecond b a = false ↔ a.2 < b.2 ∨ (a.2 = b.2 ∧ a.1 ≤ b.1) := by
  unfold SortSecond
  split_ifs with h
  · simp only [decide_eq_false_iff_not, not_lt]
    constructor
    · intro h2; exact Or.inr ⟨h.symm, h2⟩
    · rintro (h2 | ⟨_, h2⟩)
      · exact absurd h.symm (ne_of_lt h2)
      · exact h2
  · simp only [decide_eq_false_iff_not, not_lt]
    constructor
    · intro h2; exact Or.inl (lt_of_le_of_ne h2 (fun e => h e.symm))
    · rintro (h2 | ⟨h2, _⟩)
      · exact h2.le
      · exact absurd h2.symm h

theorem std_sort_perm {β : Type} (comp : β → β → Bool) (v : List β) :
    (std_sort comp v).Perm v :=
  List.mergeSort_perm v _

theorem std_sort_SortFirst (v : List (α × α)) : SortedBy SortFirst (std_sort SortFirst v) := by
  have h := @List.sorted_mergeSort (α × α) (fun a b => !SortFirst b a)
    (by
      intro a b c hab hbc
      simp only [Bool.not_eq_true', SortFirst_eq_false_iff] at hab hbc ⊢
      rcases hab with h1 | ⟨h1, h1'⟩ <;> rcases hbc with h2 | ⟨h2, h2'⟩
      · exact Or.inl (h1.trans h2)
      · exact Or.inl (h2 ▸ h1)
      · exact Or.inl (h1 ▸ h2)
      · exact Or.inr ⟨h1.trans h2, h1'.trans h2'⟩)
    (by
      intro a b
      simp only [Bool.or_eq_true, Bool.not_eq_true', SortFirst_eq_false_iff]
      rcases lt_trichotomy a.1 b.1 with h | h | h
      · exact Or.inl (Or.inl h)
      · rcases le_total a.2 b.2 with h' | h'
        · exact Or.inl (Or.inr ⟨h, h'⟩)
        · exact Or.inr (Or.inr ⟨h.symm, h'⟩)
      · exact Or.inr (Or.inl h)) v
  exact h.imp (by intro a b hab; simpa using hab)

theorem std_sort_SortSecond (v : List (α × α)) : SortedBy SortSecond (std_sort SortSecond v) := by
  have h := @List.sorted_mergeSort (α × α) (fun a b => !SortSecond b a)
    (by
      intro a b c hab hbc
      simp only [Bool.not_eq_true', SortSecond_eq_false_iff] at hab hbc ⊢
      rcases hab with h1 | ⟨h1, h1'⟩ <;> rcases hbc with h2 | ⟨h2, h2'⟩
      · exact Or.inl (h1.trans h2)
      · exact Or.inl (h2 ▸ h1)
      · exact Or.inl (h1 ▸ h2)
      · exact Or.inr ⟨h1.trans h2, h1'.trans h2'⟩)
    (by
      intro a b
      simp only [Bool.or_eq_true, Bool.not_eq_true', SortSecond_eq_false_iff]
      rcases lt_trichotomy a.2 b.2 with h | h | h
      · exact Or.inl (Or.inl h)
      · rcases le_total a.1 b.1 with h' | h'
        · exact Or.inl (Or.inr ⟨h, h'⟩)
        · exact Or.inr (Or.inr ⟨h.symm, h'⟩)
      · exact Or.inr (Or.inl h)) v
  exact h.imp (by intro a b hab; simpa using hab)

/-- A vector sorted by `SortFirst` has non-decreasing `x`. -/
theorem sortedBy_fst_le {p : List (α × α)} (h : SortedBy SortFirst p) :
    p.Pairwise (fun a b => a.1 ≤ b.1) := by
  refine List.Pairwise.imp ?_ h
  intro a b hab
  rcases (SortFirst_eq_false_iff a b).mp hab with h1 | ⟨h1, _⟩
  · exact h1.le
  · exact h1.le

/-- A vector sorted by `SortSecond` has non-decreasing `y`. -/
theorem sortedBy_snd_le {q : List (α × α)} (h : SortedBy SortSecond q) :
    q.Pairwise (fun a b => a.2 ≤ b.2) := by
  refine List.Pairwise.imp ?_ h
  intro a b hab
  rcases (SortSecond_eq_false_iff a b).mp hab with h1 | ⟨h1, _⟩
  · exact h1.le
  · exact h1.le

/-- Two vectors sorted by `SortFirst` that hold the same points are the same vector. -/
theorem sortedBy_eq_of_perm_first {l₁ l₂ : List (α × α)} (hp : l₁.Perm l₂)
    (h₁ : SortedBy SortFirst l₁) (h₂ : SortedBy SortFirst l₂) : l₁ = l₂ := by
  haveI : IsAntisymm (α × α) (fun a b => SortFirst b a = false) := ⟨by
    intro a b hab hba
    rcases (SortFirst_eq_false_iff a b).mp hab with h1 | ⟨h1, h1'⟩ <;>
      rcases (SortFirst_eq_false_iff b a).mp hba with h2 | ⟨h2, h2'⟩
    · exact absurd h1 (lt_asymm h2)
    · exact absurd h2.symm (ne_of_lt h1)
    · exact absurd h1.symm (ne_of_lt h2)
    · exact Prod.ext h1 (le_antisymm h1' h2')⟩
  exact List.eq_of_perm_of_sorted hp h₁ h₂

/-- Two vectors sorted by `SortSecond` that hold the same points are the same vector. -/
theorem sortedBy_eq_of_perm_second {l₁ l₂ : List (α × α)} (hp : l₁.Perm l₂)
    (h₁ : SortedBy SortSecond l₁) (h₂ : SortedBy SortSecond l₂) : l₁ = l₂ := by
  haveI : IsAntisymm (α × α) (fun a b => SortSecond b a = false) := ⟨by
    intro a b hab hba
    rcases (SortSecond_eq_false_iff a b).mp hab with h1 | ⟨h1, h1'⟩ <;>
      rcases (SortSecond_eq_false_iff b a).mp hba with h2 | ⟨h2, h2'⟩
    · exact absurd h1 (lt_asymm h2)
    · exact absurd h2.symm (ne_of_lt h1)
    · exact absurd h1.symm (ne_of_lt h2)
    · exact Prod.ext (le_antisymm h1' h2') h1⟩
  exact List.eq_of_perm_of_sorted hp h₁ h₂

end Order

section MinDist

variable {α : Type} [LinearOrderedField α]

/-! ## Pairs of positions -/

theorem distance_comm (sqrt : α → α) (a b : α × α) : distance sqrt a b = distance sqrt b a := by
  simp only [distance]
  congr 1
  ring

theorem sq_dist_comm (a b : α × α) : sq_dist a b = sq_dist b a := by
  unfold sq_dist
  ring

theorem isLowerBound_iff (sqrt : α → α) (p : List (α × α)) (v : α) :
    IsLowerBound sqrt p v ↔ p.Pairwise (fun a b => v ≤ distance sqrt a b) := by
  rw [List.pairwise_iff_getElem]
  constructor
  · intro h i j hi hj hij
    exact h i j _ _ hij (List.getElem?_eq_getElem hi) (List.getElem?_eq_getElem hj)
  · intro h i j a b hij ha hb
    obtain ⟨hi, rfl⟩ := List.getElem?_eq_some.mp ha
    obtain ⟨hj, rfl⟩ := List.getElem?_eq_some.mp hb
    exact h i j hi hj hij

theorem isPairDist_iff (sqrt : α → α) (p : List (α × α)) (v : α) :
    IsPairDist sqrt p v ↔ ¬ p.Pairwise (fun a b => v ≠ distance sqrt a b) := by
  rw [List.pairwise_iff_getElem]
  constructor
  · rintro ⟨i, j, a, b, hij, ha, hb, hv⟩ h
    obtain ⟨hi, rfl⟩ := List.getElem?_eq_some.mp ha
    obtain ⟨hj, rfl⟩ := List.getElem?_eq_some.mp hb
    exact h i j hi hj hij hv
  · intro h
    push_neg at h
    obtain ⟨i, j, hi, hj, hij, hv⟩ := h
    exact ⟨i, j, _, _, hij, List.getElem?_eq_getElem hi, List.getElem?_eq_getElem hj, hv⟩

theorem isPairDist_of_pair (sqrt : α → α) {l : List (α × α)} {a b : α × α}
    (h : List.Sublist [a, b] l) : IsPairDist sqrt l (distance sqrt a b) := by
  rw [isPairDist_iff]
  intro hp
  exact (List.pairwise_pair.mp (hp.sublist h)) rfl

theorem isPairDist_sublist {sqrt : α → α} {l₁ l₂ : List (α × α)} {v : α}
    (h : IsPairDist sqrt l₁ v) (hs : List.Sublist l₁ l₂) : IsPairDist sqrt l₂ v := by
  rw [isPairDist_iff] at h ⊢
  exact fun hp => h (hp.sublist hs)

theorem isPairDist_perm {sqrt : α → α} {l₁ l₂ : List (α × α)} {v : α}
    (h : IsPairDist sqrt l₁ v) (hp : l₁.Perm l₂) : IsPairDist sqrt l₂ v := by
  rw [isPairDist_iff] at h ⊢
  intro h2
  apply h
  refine (List.Perm.pairwise_iff ?_ hp).mpr h2
  intro x y hxy
  rwa [distance_comm]

theorem isLowerBound_perm {sqrt : α → α} {l₁ l₂ : List (α × α)} {v : α}
    (h : IsLowerBound sqrt l₁ v) (hp : l₁.Perm l₂) : IsLowerBound sqrt l₂ v := by
  rw [isLowerBound_iff] at h ⊢
  refine (List.Perm.pairwise_iff ?_ hp).mp h
  intro x y hxy
  rwa [distance_comm]

theorem isMinPairDist_perm {sqrt : α → α} {l₁ l₂ : List (α × α)} {v : α}
    (h : IsMinPairDist sqrt l₁ v) (hp : l₁.Perm l₂) : IsMinPairDist sqrt l₂ v :=
  ⟨isPairDist_perm h.1 hp, isLowerBound_perm h.2 hp⟩

/-- The minimum over the pairs is unique. -/
theorem isMinPairDist_unique {sqrt : α → α} {l : List (α × α)} {v w : α}
    (hv : IsMinPairDist sqrt l v) (hw : IsMinPairDist sqrt l w) : v = w := by
  obtain ⟨⟨i, j, a, b, hij, ha, hb, e⟩, hvl⟩ := hv
  obtain ⟨⟨i', j', a', b', hij', ha', hb', e'⟩, hwl⟩ := hw
  apply le_antisymm
  · rw [e']; exact hvl i' j' a' b' hij' ha' hb'
  · rw [e]; exact hwl i j a b hij ha hb

end MinDist

section Reals

/-! ## Exact real arithmetic -/

theorem distance_nonneg (a b : ℝ × ℝ) : 0 ≤ distance Real.sqrt a b :=
  Real.sqrt_nonneg _

theorem distance_eq_sqrt_sq_dist (a b : ℝ × ℝ) :
    distance Real.sqrt a b = Real.sqrt (sq_dist a b) := by
  simp only [distance, sq_dist]
  congr 1
  ring

theorem abs_fst_le_distance (a b : ℝ × ℝ) : |b.1 - a.1| ≤ distance Real.sqrt a b := by
  rw [distance_eq_sqrt_sq_dist]
  apply Real.abs_le_sqrt
  unfold sq_dist
  nlinarith [sq_nonneg (b.2 - a.2)]

theorem isPairDist_nonneg {l : List (ℝ × ℝ)} {v : ℝ} (h : IsPairDist Real.sqrt l v) : 0 ≤ v := by
  obtain ⟨i, j, a, b, _, _, _, e⟩ := h
  rw [e]
  exact distance_nonneg a b

/-- The merge step of `dc_close_pair_dist` is right: from the minima of the two halves of a
valid input it yields the minimum of the whole. -/
theorem merge_step_correct (p q : List (ℝ × ℝ)) (k : Nat) (pm : ℝ × ℝ) (dl dr : ℝ) (c : Nat)
    (hp : SortedBy SortFirst p) (hq : SortedBy SortSecond q) (hperm : q.Perm p)
    (hk : 0 < k) (hpm : p[k - 1]? = some pm)
    (hl : IsMinPairDist Real.sqrt (p.take k) dl)
    (hr : IsMinPairDist Real.sqrt (p.drop k) dr) :
    IsMinPairDist Real.sqrt p (merge_step Real.sqrt pm q dl dr c).1 := by
  have hdl0 : 0 ≤ dl := isPairDist_nonneg hl.1
  have hdr0 : 0 ≤ dr := isPairDist_nonneg hr.1
  have hd : std_min dl dr = min dl dr := std_min_eq dl dr
  have hd0 : 0 ≤ min dl dr := le_min hdl0 hdr0
  -- the strip and the result of its scan
  obtain ⟨s, hs⟩ : ∃ s, s = q.filter (fun point => decide (|point.1 - pm.1| < min dl dr)) :=
    ⟨_, rfl⟩
  obtain ⟨r, hr'⟩ : ∃ r, r = (scan_strip s (min dl dr * min dl dr) c).1 := ⟨_, rfl⟩
  have hval : (merge_step Real.sqrt pm q dl dr c).1 = Real.sqrt r := by
    simp only [merge_step, hd, hr', hs]
  have hr_le : r ≤ min dl dr * min dl dr := hr' ▸ scan_strip_le s _ c
  have hv_le : Real.sqrt r ≤ min dl dr := by
    calc Real.sqrt r ≤ Real.sqrt (min dl dr * min dl dr) := Real.sqrt_le_sqrt hr_le
      _ = min dl dr := Real.sqrt_mul_self hd0
  have hsq : List.Sublist s q := hs ▸ List.filter_sublist q
  have hsy : s.Pairwise (fun a b => a.2 ≤ b.2) := (sortedBy_snd_le hq).sublist hsq
  have hlow : s.Pairwise (fun a b => r ≤ sq_dist a b) := hr' ▸ scan_strip_lower s _ c hsy
  have htake : List.Sublist (p.take k) p := List.take_sublist k p
  have hdrop : List.Sublist (p.drop k) p := List.drop_sublist k p
  rw [hval]
  constructor
  · -- the value is the distance of a pair
    rcases (hr' ▸ scan_strip_attained s (min dl dr * min dl dr) c :
        r = min dl dr * min dl dr ∨ ∃ a b, List.Sublist [a, b] s ∧ r = sq_dist a b)
      with h | ⟨a, b, hab, h⟩
    · rw [h, Real.sqrt_mul_self hd0]
      rcases min_choice dl dr with h2 | h2
      · rw [h2]; exact isPairDist_sublist hl.1 htake
      · rw [h2]; exact isPairDist_sublist hr.1 hdrop
    · rw [h, ← distance_eq_sqrt_sq_dist]
      exact isPairDist_perm (isPairDist_of_pair Real.sqrt (hab.trans hsq)) hperm
  · -- the value is below the distance of every pair
    rw [isLowerBound_iff]
    have hxs : p.Pairwise (fun a b => a.1 ≤ b.1) := sortedBy_fst_le hp
    have hsplit : p.take k ++ p.drop k = p := List.take_append_drop k p
    have hpm_mem : pm ∈ p.take k := by
      rw [List.mem_take_iff_getElem]
      obtain ⟨hi, e⟩ := List.getElem?_eq_some.mp hpm
      exact ⟨k - 1, by rw [Nat.lt_min]; exact ⟨by omega, hi⟩, e⟩
    have hleft : ∀ a ∈ p.take k, a.1 ≤ pm.1 := by
      intro a ha
      have hk' : k = (k - 1) + 1 := by omega
      rw [hk', List.take_succ, hpm] at ha
      rcases List.mem_append.mp ha with h1 | h1
      · have hsub : List.Sublist (p.take (k - 1) ++ [pm]) p := by
          have := List.take_sublist ((k - 1) + 1) p
          rwa [List.take_succ, hpm] at this
        exact (List.pairwise_append.mp (hxs.sublist hsub)).2.2 a h1 pm (by simp)
      · simp at h1
        rw [h1]
    have hcross := (List.pairwise_append.mp (hsplit.symm ▸ hxs)).2.2
    rw [← hsplit]
    refine List.pairwise_append.mpr ⟨?_, ?_, ?_⟩
    · exact ((isLowerBound_iff _ _ _).mp hl.2).imp
        (fun h => (hv_le.trans (min_le_left _ _)).trans h)
    · exact ((isLowerBound_iff _ _ _).mp hr.2).imp
        (fun h => (hv_le.trans (min_le_right _ _)).trans h)
    · intro a ha b hb
      by_cases hdist : min dl dr ≤ distance Real.sqrt a b
      · exact hv_le.trans hdist
      · have hlt : distance Real.sqrt a b < min dl dr := not_le.mp hdist
        have hxa : a.1 ≤ pm.1 := hleft a ha
        have hxb : pm.1 ≤ b.1 := hcross pm hpm_mem b hb
        have habs : |b.1 - a.1| ≤ distance Real.sqrt a b := abs_fst_le_distance a b
        have hba : b.1 - a.1 ≤ distance Real.sqrt a b := (le_abs_self _).trans habs
        have hPa : |a.1 - pm.1| < min dl dr := by
          rw [abs_lt]; constructor <;> linarith
        have hPb : |b.1 - pm.1| < min dl dr := by
          rw [abs_lt]; constructor <;> linarith
        have hperm' : s.Perm
            ((p.take k).filter (fun point => decide (|point.1 - pm.1| < min dl dr))
              ++ (p.drop k).filter (fun point => decide (|point.1 - pm.1| < min dl dr))) := by
          rw [hs, ← List.filter_append, hsplit]
          exact hperm.filter _
        have hlow' := (List.Perm.pairwise_iff (R := fun a b : ℝ × ℝ => r ≤ sq_dist a b)
          (by intro x y hxy; rwa [sq_dist_comm]) hperm').mp hlow
        have hrab : r ≤ sq_dist a b :=
          (List.pairwise_append.mp hlow').2.2 a
            (List.mem_filter.mpr ⟨ha, by simpa using hPa⟩) b
            (List.mem_filter.mpr ⟨hb, by simpa using hPb⟩)
        rw [distance_eq_sqrt_sq_dist]
        exact Real.sqrt_le_sqrt hrab

end Reals

section Base

variable {α : Type} [LinearOrderedField α]

/-! ## The base cases of `dc_close_pair_dist` -/

theorem dc_small (sqrt : α → α) (fuel : Nat) (p q : List (α × α)) (c : Nat)
    (h : p.length < 2) : dc_close_pair_dist sqrt fuel p q c = .ok (0, c) := by
  cases fuel <;> simp [dc_close_pair_dist, h, pure, Except.pure]

theorem dc_two (sqrt : α → α) (fuel : Nat) (a b : α × α) (q : List (α × α)) (c : Nat) :
    dc_close_pair_dist sqrt fuel [a, b] q c = .ok (distance sqrt a b, c) := by
  cases fuel <;> simp [dc_close_pair_dist, vector_at, bind, Except.bind, pure, Except.pure]

theorem dc_three (sqrt : α → α) (fuel : Nat) (a b e : α × α) (q : List (α × α)) (c : Nat) :
    dc_close_pair_dist sqrt fuel [a, b, e] q c
      = .ok (min (min (distance sqrt a b) (distance sqrt a e)) (distance sqrt b e), c) := by
  have hmin : ∀ x y : α, (if x < y then x else y) = min x y := by
    intro x y
    split_ifs with h
    · exact (min_eq_left h.le).symm
    · exact (min_eq_right (not_lt.mp h)).symm
  rw [← hmin, ← hmin]
  cases fuel <;> rfl

theorem isMinPairDist_two (sqrt : α → α) (a b : α × α) :
    IsMinPairDist sqrt [a, b] (distance sqrt a b) := by
  refine ⟨⟨0, 1, a, b, by omega, rfl, rfl, rfl⟩, ?_⟩
  rw [isLowerBound_iff]
  simp

theorem isMinPairDist_three (sqrt : α → α) (a b e : α × α) :
    IsMinPairDist sqrt [a, b, e]
      (min (min (distance sqrt a b) (distance sqrt a e)) (distance sqrt b e)) := by
  constructor
  · rcases min_choice (min (distance sqrt a b) (distance sqrt a e)) (distance sqrt b e)
      with h | h
    · rcases min_choice (distance sqrt a b) (distance sqrt a e) with h' | h'
      · exact ⟨0, 1, a, b, by omega, rfl, rfl, by rw [h, h']⟩
      · exact ⟨0, 2, a, e, by omega, rfl, rfl, by rw [h, h']⟩
    · exact ⟨1, 2, b, e, by omega, rfl, rfl, h⟩
  · rw [isLowerBound_iff]
    simp only [List.pairwise_cons, List.mem_cons, List.mem_singleton, forall_eq_or_imp, forall_eq,
      List.not_mem_nil, false_implies, implies_true, List.Pairwise.nil, and_true]
    exact ⟨⟨(min_le_left _ _).trans (min_le_left _ _), (min_le_left _ _).trans (min_le_right _ _)⟩,
      min_le_right _ _⟩

end Base

section Correct

/-! ## Correctness of the divide and conquer -/

theorem validInput_left {p q : List (ℝ × ℝ)} (h : ValidInput p q) (k : Nat) :
    ValidInput (p.take k) (std_sort SortSecond (p.take k)) :=
  ⟨List.Pairwise.sublist (List.take_sublist k p) h.1, std_sort_SortSecond _, std_sort_perm _ _⟩

theorem validInput_right {p q : List (ℝ × ℝ)} (h : ValidInput p q) (k : Nat) :
    ValidInput (p.drop k) (std_sort SortSecond (p.drop k)) :=
  ⟨List.Pairwise.sublist (List.drop_sublist k p) h.1, std_sort_SortSecond _, std_sort_perm _ _⟩

theorem dc_correct_aux (n : Nat) : ∀ (p q : List (ℝ × ℝ)) (c fuel : Nat), ValidInput p q →
    2 ≤ p.length → p.length < UINT_MOD → p.length < fuel → p.length = n →
    ∃ v c', dc_close_pair_dist Real.sqrt fuel p q c = .ok (v, c')
      ∧ IsMinPairDist Real.sqrt p v := by
  induction n using Nat.strong_induction_on with
  | _ n ih =>
    intro p q c fuel hv h2 hM hf hn
    subst hn
    by_cases h2' : p.length = 2
    · obtain ⟨a, b, rfl⟩ := List.length_eq_two.mp h2'
      exact ⟨_, _, dc_two Real.sqrt fuel a b q c, isMinPairDist_two Real.sqrt a b⟩
    by_cases h3 : p.length = 3
    · obtain ⟨a, b, e, rfl⟩ := List.length_eq_three.mp h3
      exact ⟨_, _, dc_three Real.sqrt fuel a b e q c, isMinPairDist_three Real.sqrt a b e⟩
    have h4 : 4 ≤ p.length := by omega
    obtain ⟨f, rfl⟩ : ∃ f, fuel = f + 1 := ⟨fuel - 1, by omega⟩
    have hlt : p.length / 2 - 1 < p.length := by omega
    have hpm : p[p.length / 2 - 1]? = some p[p.length / 2 - 1] := List.getElem?_eq_getElem hlt
    have hlenl : (p.take (p.length / 2)).length = p.length / 2 := by
      rw [List.length_take]; omega
    have hlenr : (p.drop (p.length / 2)).length = p.length - p.length / 2 := List.length_drop _ _
    have hqlen : q.length = p.length := hv.2.2.length_eq
    obtain ⟨dl, c1, hl, hlmin⟩ := ih (p.length / 2) (by omega) (p.take (p.length / 2))
      (std_sort SortSecond (p.take (p.length / 2))) (incr^[p.length] c) f (validInput_left hv _)
      (by omega) (by omega) (by omega) hlenl
    obtain ⟨dr, c2, hr, hrmin⟩ := ih (p.length - p.length / 2) (by omega)
      (p.drop (p.length / 2)) (std_sort SortSecond (p.drop (p.length / 2))) c1 f (validInput_right hv _)
      (by omega) (by omega) (by omega) hlenr
    refine ⟨(merge_step Real.sqrt p[p.length / 2 - 1] q dl dr c2).1,
      (merge_step Real.sqrt p[p.length / 2 - 1] q dl dr c2).2, ?_,
      merge_step_correct p q (p.length / 2) p[p.length / 2 - 1] dl dr c2 hv.1
        hv.2.1 hv.2.2 (by omega) hpm hlmin hrmin⟩
    rw [dc_step Real.sqrt f p q c p[p.length / 2 - 1] h4 hM (by omega) (by omega) (by omega) hpm
      dl dr c1 c2 hl hr]

/-- On a valid input of `2 ≤ n < 2^32` points, `dc_close_pair_dist` returns, once `fuel`
exceeds `n`, the least distance between two of the points. -/
theorem dc_correct (p q : List (ℝ × ℝ)) (c fuel : Nat) (hv : ValidInput p q)
    (h2 : 2 ≤ p.length) (hM : p.length < UINT_MOD) (hf : p.length < fuel) :
    ∃ v c', dc_close_pair_dist Real.sqrt fuel p q c = .ok (v, c')
      ∧ IsMinPairDist Real.sqrt p v :=
  dc_correct_aux p.length p q c fuel hv h2 hM hf rfl

end Correct

/-! ## Vectors of `2^32` points or more -/

theorem UINT_MOD_pos : 0 < UINT_MOD := by
  simp [UINT_MOD]

/-- The second copying loop never ends on `2^32` points or more: its `uint` counter stays below
`2^32`, hence below `p.size()`. -/
theorem split_loop_diverges {α : Type} (p : List (α × α)) (hM : UINT_MOD ≤ p.length) :
    ∀ (fuel i : Nat) (px qx : List (α × α)) (c : Nat), i < UINT_MOD →
      while_loop (split_cond p.length) (split_body p) fuel ⟨i, px, qx, c⟩
        = .error .out_of_fuel := by
  intro fuel
  induction fuel with
  | zero => intro i px qx c _; rfl
  | succ f ih =>
    intro i px qx c hi
    have hlt : i < p.length := by omega
    have hc : split_cond p.length (⟨i, px, qx, c⟩ : Split α) = .ok true := by
      simp [split_cond, hlt, pure, Except.pure]
    rw [while_loop_step _ _ _ _ _ hc (split_body_lt p i px qx c hlt)]
    exact ih _ _ _ _ (Nat.mod_lt _ UINT_MOD_pos)

/-- A copying loop with a bound within `p` ends or is still running: it never faults. -/
theorem split_loop_no_fault {α : Type} (p : List (α × α)) (bound : Nat)
    (hb : bound ≤ p.length) :
    ∀ (fuel : Nat) (s : Split α),
      while_loop (split_cond bound) (split_body p) fuel s = .error .out_of_fuel
        ∨ ∃ s', while_loop (split_cond bound) (split_body p) fuel s = .ok s' := by
  intro fuel
  induction fuel with
  | zero => intro s; exact Or.inl rfl
  | succ f ih =>
    intro s
    obtain ⟨i, px, qx, c⟩ := s
    by_cases hi : i < bound
    · have hc : split_cond bound (⟨i, px, qx, c⟩ : Split α) = .ok true := by
        simp [split_cond, hi, pure, Except.pure]
      rw [while_loop_step _ _ _ _ _ hc (split_body_lt p i px qx c (by omega))]
      exact ih _
    · have hc : split_cond bound (⟨i, px, qx, c⟩ : Split α) = .ok false := by
        simp [split_cond, hi, pure, Except.pure]
      rw [while_loop_stop _ _ _ _ hc]
      exact Or.inr ⟨_, rfl⟩

section Big

variable {α : Type} [LinearOrderedField α]

/-- On `2^32` points or more `dc_close_pair_dist` does not return, whatever the fuel. -/
theorem dc_diverges (sqrt : α → α) (fuel : Nat) (p q : List (α × α)) (c : Nat)
    (hM : UINT_MOD ≤ p.length) :
    dc_close_pair_dist sqrt fuel p q c = .error .out_of_fuel := by
  have h4 : 4 ≤ UINT_MOD := by simp [UINT_MOD]
  cases fuel with
  | zero =>
    rw [dc_close_pair_dist, if_neg (by omega), if_neg (by omega), if_neg (by omega)]
  | succ f =>
    rw [dc_close_pair_dist, if_neg (by omega), if_neg (by omega), if_neg (by omega)]
    rcases split_loop_no_fault p (p.length / 2) (Nat.div_le_self _ _) f ⟨0, [], [], c⟩
      with h | ⟨s', h⟩
    · simp only [h, bind, Except.bind]
    · simp only [h, bind, Except.bind,
        split_loop_diverges p hM f _ [] [] s'.count_ops (Nat.mod_lt _ UINT_MOD_pos)]

/-! ## What `bf_close_pair_dist` returns -/

/-- With fewer than two points `bf_close_pair_dist` compares nothing. -/
theorem bf_small (sqrt : α → α) (fuel : Nat) (p q : List (α × α)) (c : Nat)
    (h : p.length < 2) (hf : UINT_MOD ≤ fuel) :
    bf_close_pair_dist sqrt fuel p q c = .ok (DBL_MAX, c) := by
  have h2 : 2 < UINT_MOD := by simp [UINT_MOD]
  have hmod : p.length % UINT_MOD = p.length := Nat.mod_eq_of_lt (by omega)
  rw [bf_close_pair_dist_eq sqrt fuel p q c (by rw [hmod]; split_ifs <;> omega), hmod,
    List.take_length]
  match p, h with
  | [], _ => rfl
  | [a], _ => rfl

end Big

section Facts

/-! ## Facts about the example inputs -/

theorem DBL_MAX_pos : (0 : ℝ) < DBL_MAX := by
  unfold DBL_MAX
  norm_num

theorem valid_replicate (n : Nat) (a : ℝ × ℝ) :
    ValidInput (List.replicate n a) (List.replicate n a) := by
  refine ⟨?_, ?_, List.Perm.refl _⟩
  · exact List.pairwise_replicate.mpr (Or.inr (by simp [SortFirst]))
  · exact List.pairwise_replicate.mpr (Or.inr (by simp [SortSecond]))

theorem valid_collinear : ValidInput (collinear : List (ℝ × ℝ)) collinear := by
  refine ⟨?_, ?_, List.Perm.refl _⟩
  · simp only [SortedBy, collinear, List.pairwise_cons, List.mem_cons, List.mem_singleton,
      forall_eq_or_imp, forall_eq, SortFirst_eq_false_iff, List.not_mem_nil, false_implies,
      implies_true, List.Pairwise.nil, and_true]
    norm_num
  · simp only [SortedBy, collinear, List.pairwise_cons, List.mem_cons, List.mem_singleton,
      forall_eq_or_imp, forall_eq, SortSecond_eq_false_iff, List.not_mem_nil, false_implies,
      implies_true, List.Pairwise.nil, and_true]
    norm_num

/-- When `p.size()` is a multiple of `2^32`, `size` is `0` and the loops compare nothing. -/
theorem bf_wrapped {α : Type} [LinearOrderedField α] (sqrt : α → α) (fuel : Nat)
    (p q : List (α × α)) (c : Nat) (h : p.length % UINT_MOD = 0) (hf : UINT_MOD ≤ fuel) :
    bf_close_pair_dist sqrt fuel p q c = .ok (DBL_MAX, c) := by
  rw [bf_close_pair_dist_eq sqrt fuel p q c (by rw [h, if_pos rfl]; exact hf), h, List.take_zero]
  rfl

theorem getElem?_origin_copies (i : Nat) (h : i < UINT_MOD) :
    (origin_copies : List (ℝ × ℝ))[i]? = some (0, 0) := by
  unfold origin_copies
  rw [List.getElem?_replicate, if_pos h]

theorem distance_self (a : ℝ × ℝ) : distance Real.sqrt a a = 0 := by
  simp [distance]

end Facts

section Driver

/-! ## The driver -/

theorem validInput_solve {α : Type} [LinearOrderedField α] (pts : List (α × α)) :
    ValidInput (std_sort SortFirst pts) (std_sort SortSecond pts) :=
  ⟨std_sort_SortFirst pts, std_sort_SortSecond pts,
    (std_sort_perm SortSecond pts).trans (std_sort_perm SortFirst pts).symm⟩

/-- The driver returns on fewer than `2^32` points: `0` on fewer than two, and else the least
distance between two of the points. -/
theorem solve_ok (pts : List (ℝ × ℝ)) (fuel : Nat) (hM : pts.length < UINT_MOD)
    (hf : pts.length < fuel) :
    ∃ v k, solve Real.sqrt fuel pts = .ok (v, k)
      ∧ (pts.length < 2 → v = 0) ∧ (2 ≤ pts.length → IsMinPairDist Real.sqrt pts v) := by
  have hlen : (std_sort SortFirst pts).length = pts.length := (std_sort_perm _ pts).length_eq
  by_cases h2 : pts.length < 2
  · exact ⟨0, 0, dc_small Real.sqrt fuel _ _ 0 (by omega), fun _ => rfl, fun h => by omega⟩
  · obtain ⟨v, k, hrun, hmin⟩ := dc_correct (std_sort SortFirst pts) (std_sort SortSecond pts) 0
      fuel (validInput_solve pts) (by omega) (by omega) (by omega)
    exact ⟨v, k, hrun, fun h => by omega,
      fun _ => isMinPairDist_perm hmin (std_sort_perm SortFirst pts)⟩

/-- The driver does not return on `2^32` points or more. -/
theorem solve_diverges {α : Type} [LinearOrderedField α] (sqrt : α → α) (pts : List (α × α))
    (fuel : Nat) (hM : UINT_MOD ≤ pts.length) : solve sqrt fuel pts = .error .out_of_fuel := by
  have hlen : (std_sort SortFirst pts).length = pts.length := (std_sort_perm _ pts).length_eq
  exact dc_diverges sqrt fuel _ _ 0 (by omega)

theorem isMinPairDist_map {α : Type} [LinearOrderedField α] (sqrt : α → α) (T : α × α → α × α)
    (hT : ∀ a b, distance sqrt (T a) (T b) = distance sqrt a b) (l : List (α × α)) (v : α) :
    IsMinPairDist sqrt (l.map T) v ↔ IsMinPairDist sqrt l v := by
  unfold IsMinPairDist
  rw [isPairDist_iff, isPairDist_iff, isLowerBound_iff, isLowerBound_iff, List.pairwise_map,
    List.pairwise_map]
  simp only [hT]

theorem distance_translate (t a b : ℝ × ℝ) :
    distance Real.sqrt (translate t a) (translate t b) = distance Real.sqrt a b := by
  simp only [distance, translate]
  congr 1
  ring

theorem distance_rotate (θ : ℝ) (a b : ℝ × ℝ) :
    distance Real.sqrt (rotate (Real.cos θ) (Real.sin θ) a) (rotate (Real.cos θ) (Real.sin θ) b)
      = distance Real.sqrt a b := by
  simp only [distance, rotate]
  congr 1
  have h := Real.cos_sq_add_sin_sq θ
  have e : (a.1 * Real.cos θ - a.2 * Real.sin θ - (b.1 * Real.cos θ - b.2 * Real.sin θ))
        * (a.1 * Real.cos θ - a.2 * Real.sin θ - (b.1 * Real.cos θ - b.2 * Real.sin θ))
      + (a.1 * Real.sin θ + a.2 * Real.cos θ - (b.1 * Real.sin θ + b.2 * Real.cos θ))
        * (a.1 * Real.sin θ + a.2 * Real.cos θ - (b.1 * Real.sin θ + b.2 * Real.cos θ))
      = ((a.1 - b.1) * (a.1 - b.1) + (a.2 - b.2) * (a.2 - b.2))
        * (Real.cos θ ^ 2 + Real.sin θ ^ 2) := by ring
  rw [e, h, mul_one]

/-- The driver returns the same distance on a point set and on its image under a map that
keeps distances. -/
theorem solve_isometry (T : ℝ × ℝ → ℝ × ℝ)
    (hT : ∀ a b, distance Real.sqrt (T a) (T b) = distance Real.sqrt a b)
    (pts : List (ℝ × ℝ)) (fuel : Nat) (hf : pts.length < fuel) :
    result_dist (solve Real.sqrt fuel (pts.map T)) = result_dist (solve Real.sqrt fuel pts) := by
  have hlen : (pts.map T).length = pts.length := List.length_map _ _
  by_cases hM : pts.length < UINT_MOD
  · obtain ⟨v, k, hrun, hsmall, hmin⟩ := solve_ok pts fuel hM hf
    obtain ⟨v', k', hrun', hsmall', hmin'⟩ := solve_ok (pts.map T) fuel (by omega) (by omega)
    have hv : v' = v := by
      by_cases h2 : pts.length < 2
      · rw [hsmall h2, hsmall' (by omega)]
      · exact isMinPairDist_unique
          ((isMinPairDist_map Real.sqrt T hT pts v').mp (hmin' (by omega))) (hmin (by omega))
    rw [hrun, hrun', hv]
    rfl
  · rw [solve_diverges Real.sqrt pts fuel (by omega),
      solve_diverges Real.sqrt (pts.map T) fuel (by omega)]

end Driver

section Claims

/-! ## The claims -/

/-- C3 (as amended): for every valid input of fewer than `2^32` points that has the same point
at two positions, `dc_close_pair_dist` returns exactly `0`, wherever the two positions fall in
the recursion. -/
theorem C3_duplicates_give_zero (p q : List (ℝ × ℝ)) (c fuel : Nat) (hv : ValidInput p q)
    (hdup : ∃ (i j : Nat) (a : ℝ × ℝ), i < j ∧ p[i]? = some a ∧ p[j]? = some a)
    (hM : p.length < UINT_MOD) (hf : p.length < fuel) :
    ∃ k, dc_close_pair_dist Real.sqrt fuel p q c = .ok (0, k) := by
  obtain ⟨i, j, a, hij, hi, hj⟩ := hdup
  have hjlt : j < p.length := (List.getElem?_eq_some.mp hj).1
  obtain ⟨v, k, hrun, hmin⟩ := dc_correct p q c fuel hv (by omega) hM hf
  have h0 : v ≤ 0 := by
    have := hmin.2 i j a a hij hi hj
    rwa [distance_self] at this
  have hv0 : v = 0 := le_antisymm h0 (isPairDist_nonneg hmin.1)
  exact ⟨k, hv0 ▸ hrun⟩

/-- C3, witness: `[(0,0),(0,0)]` gives `0`. -/
theorem C3_witness_duplicates :
    ValidInput [((0 : ℝ), (0 : ℝ)), (0, 0)] [(0, 0), (0, 0)]
      ∧ ∃ k, dc_close_pair_dist Real.sqrt 3 [((0 : ℝ), (0 : ℝ)), (0, 0)] [(0, 0), (0, 0)] 0
        = .ok (0, k) :=
  ⟨valid_replicate 2 (0, 0),
    C3_duplicates_give_zero [(0, 0), (0, 0)] [(0, 0), (0, 0)] 0 3 (valid_replicate 2 (0, 0))
      ⟨0, 1, (0, 0), by omega, rfl, rfl⟩ (by simp [UINT_MOD]) (by simp)⟩

/-- C3 fails as stated: `2^32` copies of the origin are a valid input with coincident points on
which `dc_close_pair_dist` never returns. -/
theorem C3_counterexample :
    ValidInput (origin_copies : List (ℝ × ℝ)) origin_copies
      ∧ (∃ (i j : Nat) (a : ℝ × ℝ), i < j ∧ (origin_copies : List (ℝ × ℝ))[i]? = some a
        ∧ (origin_copies : List (ℝ × ℝ))[j]? = some a)
      ∧ ∀ fuel c, dc_close_pair_dist Real.sqrt fuel origin_copies origin_copies c
        = .error .out_of_fuel := by
  have hlen : (origin_copies : List (ℝ × ℝ)).length = UINT_MOD := List.length_replicate _ _
  have h2 : 2 ≤ UINT_MOD := by simp [UINT_MOD]
  exact ⟨valid_replicate _ _,
    ⟨0, 1, (0, 0), by omega, getElem?_origin_copies 0 (by omega),
      getElem?_origin_copies 1 (by omega)⟩,
    fun fuel c => dc_diverges Real.sqrt fuel _ _ c (by rw [hlen])⟩

/-- C4: the driver's result does not depend on the order of the input: for every permutation
`pts'` of `pts`, `solve pts' = solve pts` (the same outcome for the same fuel), and the driver
returns on every input of fewer than `2^32` points once the fuel exceeds their number. -/
theorem C4_solve_permutation (pts pts' : List (ℝ × ℝ)) (fuel : Nat) (h : pts'.Perm pts) :
    solve Real.sqrt fuel pts' = solve Real.sqrt fuel pts
      ∧ (pts.length < UINT_MOD → pts.length < fuel →
        ∃ v k, solve Real.sqrt fuel pts = .ok (v, k)) := by
  have h1 : std_sort SortFirst pts' = std_sort SortFirst pts :=
    sortedBy_eq_of_perm_first
      (((std_sort_perm SortFirst pts').trans h).trans (std_sort_perm SortFirst pts).symm)
      (std_sort_SortFirst pts') (std_sort_SortFirst pts)
  have h2 : std_sort SortSecond pts' = std_sort SortSecond pts :=
    sortedBy_eq_of_perm_second
      (((std_sort_perm SortSecond pts').trans h).trans (std_sort_perm SortSecond pts).symm)
      (std_sort_SortSecond pts') (std_sort_SortSecond pts)
  refine ⟨by simp only [solve, h1, h2], fun hM hf => ?_⟩
  obtain ⟨v, k, hrun, _⟩ := solve_ok pts fuel hM hf
  exact ⟨v, k, hrun⟩

/-- C4, witness: `[(3,1),(0,0),(1,2)]` and `[(0,0),(1,2),(3,1)]`. -/
theorem C4_witness :
    List.Perm [((3 : ℝ), (1 : ℝ)), (0, 0), (1, 2)] [(0, 0), (1, 2), (3, 1)]
      ∧ solve Real.sqrt 4 [((3 : ℝ), (1 : ℝ)), (0, 0), (1, 2)]
        = solve Real.sqrt 4 [(0, 0), (1, 2), (3, 1)] :=
  ⟨@List.perm_append_comm (ℝ × ℝ) [(3, 1)] [(0, 0), (1, 2)],
    (C4_solve_permutation [(0, 0), (1, 2), (3, 1)] [(3, 1), (0, 0), (1, 2)] 4
      (@List.perm_append_comm (ℝ × ℝ) [(3, 1)] [(0, 0), (1, 2)])).1⟩

/-- C5: the driver's distance is the same for a point list, for the list moved by any vector `t`
and for the list turned about the origin by any angle `θ` (once the fuel exceeds the number of
points); and the driver returns on every input of fewer than `2^32` points. -/
theorem C5_solve_translation_rotation (pts : List (ℝ × ℝ)) (t : ℝ × ℝ) (θ : ℝ) (fuel : Nat)
    (hf : pts.length < fuel) :
    result_dist (solve Real.sqrt fuel (pts.map (translate t)))
        = result_dist (solve Real.sqrt fuel pts)
      ∧ result_dist (solve Real.sqrt fuel (pts.map (rotate (Real.cos θ) (Real.sin θ))))
        = result_dist (solve Real.sqrt fuel pts)
      ∧ (pts.length < UINT_MOD → ∃ v, result_dist (solve Real.sqrt fuel pts) = .ok v) := by
  refine ⟨solve_isometry _ (distance_translate t) pts fuel hf,
    solve_isometry _ (distance_rotate θ) pts fuel hf, fun hM => ?_⟩
  obtain ⟨v, k, hrun, _⟩ := solve_ok pts fuel hM hf
  exact ⟨v, by rw [hrun]; rfl⟩

/-- C5, witness: the points `(0,0)`, `(3,4)`, `(1,1)`, `(5,2)`, moved by `(1,-2)` and turned by a
quarter turn. -/
theorem C5_witness :
    ([((0 : ℝ), (0 : ℝ)), (3, 4), (1, 1), (5, 2)]).length < 5
      ∧ result_dist (solve Real.sqrt 5
          ([((0 : ℝ), (0 : ℝ)), (3, 4), (1, 1), (5, 2)].map (translate (1, -2))))
        = result_dist (solve Real.sqrt 5 [(0, 0), (3, 4), (1, 1), (5, 2)])
      ∧ result_dist (solve Real.sqrt 5
          ([((0 : ℝ), (0 : ℝ)), (3, 4), (1, 1), (5, 2)].map
            (rotate (Real.cos (Real.pi / 2)) (Real.sin (Real.pi / 2)))))
        = result_dist (solve Real.sqrt 5 [(0, 0), (3, 4), (1, 1), (5, 2)]) :=
  ⟨by simp,
    (C5_solve_translation_rotation [(0, 0), (3, 4), (1, 1), (5, 2)] (1, -2) (Real.pi / 2) 5
      (by simp)).1,
    (C5_solve_translation_rotation [(0, 0), (3, 4), (1, 1), (5, 2)] (1, -2) (Real.pi / 2) 5
      (by simp)).2.1⟩

/-- C6 (as amended): for every input of size 0 or 1 each solver returns its own sentinel,
`bf_close_pair_dist` the value `DBL_MAX` and `dc_close_pair_dist` the value `0`, and the two
sentinels differ. -/
theorem C6_sentinels (p q : List (ℝ × ℝ)) (c c' fuel : Nat) (h : p.length < 2)
    (hf : UINT_MOD ≤ fuel) :
    dc_close_pair_dist Real.sqrt fuel p q c = .ok (0, c)
      ∧ bf_close_pair_dist Real.sqrt fuel p q c' = .ok (DBL_MAX, c')
      ∧ (0 : ℝ) ≠ DBL_MAX :=
  ⟨dc_small Real.sqrt fuel p q c h, bf_small Real.sqrt fuel p q c' h hf, ne_of_lt DBL_MAX_pos⟩

/-- C6, witness: the one-point input `[(1,2)]`. -/
theorem C6_witness :
    ([((1 : ℝ), (2 : ℝ))]).length < 2 ∧ UINT_MOD ≤ 2 ^ 32
      ∧ dc_close_pair_dist Real.sqrt (2 ^ 32) [((1 : ℝ), (2 : ℝ))] [(1, 2)] 0 = .ok (0, 0)
      ∧ bf_close_pair_dist Real.sqrt (2 ^ 32) [((1 : ℝ), (2 : ℝ))] [(1, 2)] 0 = .ok (DBL_MAX, 0)
      ∧ (0 : ℝ) ≠ DBL_MAX :=
  ⟨by simp, le_refl _,
    C6_sentinels [(1, 2)] [(1, 2)] 0 0 (2 ^ 32) (by simp) (le_refl _)⟩

/-- C6 fails as stated: on the empty input the divide and conquer returns `0` and the brute
force returns `DBL_MAX`, which is not `0`. -/
theorem C6_counterexample :
    dc_close_pair_dist Real.sqrt (2 ^ 32) ([] : List (ℝ × ℝ)) [] 0 = .ok (0, 0)
      ∧ bf_close_pair_dist Real.sqrt (2 ^ 32) ([] : List (ℝ × ℝ)) [] 0 = .ok (DBL_MAX, 0)
      ∧ (0 : ℝ) ≠ DBL_MAX :=
  ⟨dc_small Real.sqrt _ [] [] 0 (by simp), bf_small Real.sqrt _ [] [] 0 (by simp) (le_refl _),
    ne_of_lt DBL_MAX_pos⟩

/-- C7: for every `p` with 0 or 1 points and every `q`, `dc_close_pair_dist` returns `0` and
leaves `count_ops` unchanged (with any fuel: no loop runs and no recursive call is made). -/
theorem C7_dc_undersized (p q : List (ℝ × ℝ)) (count_ops fuel : Nat) (h : p.length < 2) :
    dc_close_pair_dist Real.sqrt fuel p q count_ops = .ok (0, count_ops) :=
  dc_small Real.sqrt fuel p q count_ops h

/-- C7, witness: one point, a `q` that is unrelated, and 41 operations counted before. -/
theorem C7_witness :
    ([((1 : ℝ), (2 : ℝ))]).length < 2
      ∧ dc_close_pair_dist Real.sqrt 0 [((1 : ℝ), (2 : ℝ))] [(5, 5), (6, 6), (7, 7)] 41
        = .ok (0, 41) :=
  ⟨by simp, C7_dc_undersized [(1, 2)] [(5, 5), (6, 6), (7, 7)] 41 0 (by simp)⟩

/-- C8: for every `p` with fewer than 2 points, `bf_close_pair_dist` returns (once the fuel
covers the `2^32` condition checks of the outer loop) the initial value `DBL_MAX` of `dmin` and
leaves `count_ops` unchanged; on the empty input the bound `size - 1` of the outer loop is
`2^32 - 1`, and the inner loop ends at its first check in every pass. -/
theorem C8_bf_undersized (p q : List (ℝ × ℝ)) (count_ops fuel : Nat) (h : p.length < 2)
    (hf : UINT_MOD ≤ fuel) :
    bf_close_pair_dist Real.sqrt fuel p q count_ops = .ok (DBL_MAX, count_ops)
      ∧ (∀ (i : Nat) (d : ℝ) (k : Nat),
          bf_outer_cond (([] : List (ℝ × ℝ)).length % UINT_MOD) (⟨i, d, k⟩ : BfOuter ℝ)
            = .ok (decide (i < 2 ^ 32 - 1)))
      ∧ (∀ (i j g : Nat) (d : ℝ) (k : Nat),
          while_loop (bf_inner_cond (([] : List (ℝ × ℝ)).length % UINT_MOD))
              (bf_inner_body Real.sqrt [] i) (g + 1) ⟨j, d, k⟩ = .ok ⟨j, d, k⟩) := by
  refine ⟨bf_small Real.sqrt fuel p q count_ops h hf, ?_, ?_⟩
  · intro i d k
    rfl
  · intro i j g d k
    exact bf_inner_loop_skip Real.sqrt [] 0 i j g d k (Nat.zero_le _)

/-- C8, witness: the empty input, with 7 operations counted before. -/
theorem C8_witness :
    ([] : List (ℝ × ℝ)).length < 2 ∧ UINT_MOD ≤ 2 ^ 32
      ∧ bf_close_pair_dist Real.sqrt (2 ^ 32) ([] : List (ℝ × ℝ)) [] 7 = .ok (DBL_MAX, 7) :=
  ⟨by simp, le_refl _, (C8_bf_undersized [] [] 7 (2 ^ 32) (by simp) (le_refl _)).1⟩

/-- C9: for every `p` of exactly 2 points `p0`, `p1` and every `q`, `dc_close_pair_dist`
returns `distance(p0, p1) = sqrt((x0-x1)^2 + (y0-y1)^2)` and leaves `count_ops` unchanged, with
any fuel, fuel `0` included: no recursive call is made. -/
theorem C9_dc_two_points (p q : List (ℝ × ℝ)) (count_ops fuel : Nat) (p0 p1 : ℝ × ℝ)
    (h : p.length = 2) (h0 : p[0]? = some p0) (h1 : p[1]? = some p1) :
    dc_close_pair_dist Real.sqrt fuel p q count_ops = .ok (distance Real.sqrt p0 p1, count_ops)
      ∧ distance Real.sqrt p0 p1 = Real.sqrt ((p0.1 - p1.1) ^ 2 + (p0.2 - p1.2) ^ 2) := by
  obtain ⟨a, b, rfl⟩ := List.length_eq_two.mp h
  have ha : a = p0 := by simpa using h0
  have hb : b = p1 := by simpa using h1
  subst ha hb
  refine ⟨dc_two Real.sqrt fuel a b q count_ops, ?_⟩
  simp only [distance]
  congr 1
  ring

/-- C9, witness: `[(0,0),(3,4)]` gives `5`. -/
theorem C9_witness :
    ([((0 : ℝ), (0 : ℝ)), (3, 4)]).length = 2
      ∧ dc_close_pair_dist Real.sqrt 0 [((0 : ℝ), (0 : ℝ)), (3, 4)] [] 0 = .ok (5, 0) := by
  refine ⟨rfl, ?_⟩
  have h := C9_dc_two_points [(0, 0), (3, 4)] [] 0 0 (0, 0) (3, 4) rfl rfl rfl
  have h5 : Real.sqrt (((0 : ℝ) - 3) ^ 2 + (0 - 4) ^ 2) = 5 := by
    rw [show ((0 : ℝ) - 3) ^ 2 + (0 - 4) ^ 2 = 5 ^ 2 by norm_num]
    exact Real.sqrt_sq (by norm_num)
  rw [h.1, h.2, h5]

end Claims

section Parts

variable {α : Type} [LinearOrderedField α]

/-- The recursive case of `dc_close_pair_dist` is `dc_divide` followed by `dc_conquer`. -/
theorem dc_unfold (sqrt : α → α) (fuel : Nat) (p q : List (α × α)) (c : Nat)
    (h4 : 4 ≤ p.length) :
    dc_close_pair_dist sqrt (fuel + 1) p q c
      = (dc_divide sqrt fuel p c).bind
          (fun x => dc_conquer sqrt fuel p q x.dl x.dr x.count_ops) := by
  rw [dc_close_pair_dist, if_neg (by omega), if_neg (by omega), if_neg (by omega)]
  simp only [dc_divide, dc_conquer, bind, Except.bind, pure, Except.pure]
  cases while_loop (split_cond (p.length / 2)) (split_body p) fuel ⟨0, [], [], c⟩ with
  | error e => rfl
  | ok l =>
    simp only
    cases while_loop (split_cond p.length) (split_body p) fuel
      ⟨(p.length / 2) % UINT_MOD, [], [], l.count_ops⟩ with
    | error e => rfl
    | ok r =>
      simp only
      cases dc_close_pair_dist sqrt fuel l.px (std_sort SortSecond l.qx) r.count_ops with
      | error e => rfl
      | ok x =>
        simp only
        cases dc_close_pair_dist sqrt fuel r.px (std_sort SortSecond r.qx) x.2 with
        | error e => rfl
        | ok y => rfl
end Parts

/-! ## Loops in general: more fuel, invariants, faults -/

/-- A loop that has returned returns the same with more fuel, also when its body is replaced by
one that returns whatever the first one returns. -/
theorem while_loop_mono {σ : Type} (cond : σ → Except Fault Bool)
    (body body' : σ → Except Fault σ) (hb : ∀ s r, body s = .ok r → body' s = .ok r) :
    ∀ (f f' : Nat) (s r : σ), f ≤ f' → while_loop cond body f s = .ok r →
      while_loop cond body' f' s = .ok r := by
  intro f
  induction f with
  | zero => intro f' s r _ h; simp [while_loop] at h
  | succ f ih =>
    intro f' s r hle h
    obtain ⟨g, rfl⟩ : ∃ g, f' = g + 1 := ⟨f' - 1, by omega⟩
    rw [while_loop] at h ⊢
    cases hc : cond s with
    | error e => simp [hc] at h
    | ok b =>
      cases b with
      | false => simpa [hc] using h
      | true =>
        cases hbs : body s with
        | error e => simp [hc, hbs] at h
        | ok s' =>
          simp only [hc, hbs] at h
          simp only [hc, hb s s' hbs]
          exact ih g s' r (by omega) h

/-- An invariant of the body holds when the loop returns, and the condition is then false. -/
theorem while_loop_inv {σ : Type} (cond : σ → Except Fault Bool) (body : σ → Except Fault σ)
    (Inv : σ → Prop)
    (hstep : ∀ s s', Inv s → cond s = .ok true → body s = .ok s' → Inv s') :
    ∀ (f : Nat) (s r : σ), Inv s → while_loop cond body f s = .ok r →
      Inv r ∧ cond r = .ok false := by
  intro f
  induction f with
  | zero => intro s r _ h; simp [while_loop] at h
  | succ f ih =>
    intro s r hs h
    rw [while_loop] at h
    cases hc : cond s with
    | error e => simp [hc] at h
    | ok b =>
      cases b with
      | false =>
        simp only [hc, Except.ok.injEq] at h
        subst h
        exact ⟨hs, hc⟩
      | true =>
        cases hbs : body s with
        | error e => simp [hc, hbs] at h
        | ok s' =>
          simp only [hc, hbs] at h
          exact ih s' r (hstep s s' hs hc hbs) h

/-- A loop whose condition and body do not fault under an invariant does not fault. -/
theorem while_loop_safe {σ : Type} (cond : σ → Except Fault Bool) (body : σ → Except Fault σ)
    (Inv : σ → Prop)
    (hc : ∀ s, Inv s → cond s ≠ .error .out_of_range)
    (hb : ∀ s, Inv s → cond s = .ok true → body s ≠ .error .out_of_range)
    (hstep : ∀ s s', Inv s → cond s = .ok true → body s = .ok s' → Inv s') :
    ∀ (f : Nat) (s : σ), Inv s → while_loop cond body f s ≠ .error .out_of_range := by
  intro f
  induction f with
  | zero => intro s _ h; simp [while_loop] at h
  | succ f ih =>
    intro s hs h
    rw [while_loop] at h
    cases hcs : cond s with
    | error e =>
      simp only [hcs, Except.error.injEq] at h
      exact hc s hs (by rw [hcs, h])
    | ok b =>
      cases b with
      | false => simp [hcs] at h
      | true =>
        cases hbs : body s with
        | error e =>
          simp only [hcs, hbs, Except.error.injEq] at h
          exact hb s hs hcs (by rw [hbs, h])
        | ok s' =>
          simp only [hcs, hbs] at h
          exact ih s' (hstep s s' hs hcs hbs) h

/-- A loop whose condition stays true under an invariant of the body never returns. -/
theorem while_loop_diverges {σ : Type} (cond : σ → Except Fault Bool)
    (body : σ → Except Fault σ) (Inv : σ → Prop)
    (hc : ∀ s, Inv s → cond s = .ok true)
    (hb : ∀ s, Inv s → body s = .error .out_of_fuel ∨ ∃ s', body s = .ok s' ∧ Inv s') :
    ∀ (f : Nat) (s : σ), Inv s → while_loop cond body f s = .error .out_of_fuel := by
  intro f
  induction f with
  | zero => intro s _; rfl
  | succ f ih =>
    intro s hs
    rw [while_loop]
    rcases hb s hs with h | ⟨s', h, hs'⟩
    · simp only [hc s hs, h]
    · simp only [hc s hs, h]
      exact ih s' hs'

section Orders

variable {α : Type} [LinearOrderedField α]

/-! ## The comparators as orders -/

theorem SortFirst_eq_true_iff (a b : α × α) :
    SortFirst a b = true ↔ a.1 < b.1 ∨ (a.1 = b.1 ∧ a.2 < b.2) := by
  unfold SortFirst
  split_ifs with h
  · simp only [decide_eq_true_eq]
    constructor
    · intro h2; exact Or.inr ⟨h, h2⟩
    · rintro (h2 | ⟨_, h2⟩)
      · exact absurd h (ne_of_lt h2)
      · exact h2
  · simp only [decide_eq_true_eq]
    constructor
    · intro h2; exact Or.inl h2
    · rintro (h2 | ⟨h2, _⟩)
      · exact h2
      · exact absurd h2 h

theorem SortSecond_eq_true_iff (a b : α × α) :
    SortSecond a b = true ↔ a.2 < b.2 ∨ (a.2 = b.2 ∧ a.1 < b.1) := by
  unfold SortSecond
  split_ifs with h
  · simp only [decide_eq_true_eq]
    constructor
    · intro h2; exact Or.inr ⟨h, h2⟩
    · rintro (h2 | ⟨_, h2⟩)
      · exact absurd h (ne_of_lt h2)
      · exact h2
  · simp only [decide_eq_true_eq]
    constructor
    · intro h2; exact Or.inl h2
    · rintro (h2 | ⟨h2, _⟩)
      · exact h2
      · exact absurd h2 h

/-- A comparison by two keys, the second breaking ties of the first, is a strict total order on
pairs of keys. -/
theorem lex_strict_total (lt : α × α → α × α → Bool) (k1 k2 : α × α → α)
    (hext : ∀ a b, k1 a = k1 b → k2 a = k2 b → a = b)
    (hlt : ∀ a b, lt a b = true ↔ k1 a < k1 b ∨ (k1 a = k1 b ∧ k2 a < k2 b)) :
    (∀ a, lt a a = false)
      ∧ (∀ a b c, lt a b = true → lt b c = true → lt a c = true)
      ∧ (∀ a b, (lt a b = true ∧ a ≠ b ∧ lt b a = false)
          ∨ (lt a b = false ∧ a = b ∧ lt b a = false)
          ∨ (lt a b = false ∧ a ≠ b ∧ lt b a = true)) := by
  have hf : ∀ a b, lt a b = false ↔ ¬ (k1 a < k1 b ∨ (k1 a = k1 b ∧ k2 a < k2 b)) := by
    intro a b
    rw [← hlt, Bool.not_eq_true]
  refine ⟨?_, ?_, ?_⟩
  · intro a
    rw [hf]
    rintro (h | ⟨_, h⟩) <;> exact lt_irrefl _ h
  · intro a b c hab hbc
    rw [hlt] at hab hbc ⊢
    rcases hab with h1 | ⟨h1, h1'⟩ <;> rcases hbc with h2 | ⟨h2, h2'⟩
    · exact Or.inl (h1.trans h2)
    · exact Or.inl (h2 ▸ h1)
    · exact Or.inl (h1 ▸ h2)
    · exact Or.inr ⟨h1.trans h2, h1'.trans h2'⟩
  · intro a b
    rcases lt_trichotomy (k1 a) (k1 b) with h | h | h
    · refine Or.inl ⟨(hlt a b).mpr (Or.inl h), ?_, (hf b a).mpr ?_⟩
      · rintro rfl; exact lt_irrefl _ h
      · rintro (h2 | ⟨h2, _⟩)
        · exact lt_asymm h h2
        · exact ne_of_lt h h2.symm
    · rcases lt_trichotomy (k2 a) (k2 b) with h' | h' | h'
      · refine Or.inl ⟨(hlt a b).mpr (Or.inr ⟨h, h'⟩), ?_, (hf b a).mpr ?_⟩
        · rintro rfl; exact lt_irrefl _ h'
        · rintro (h2 | ⟨_, h2⟩)
          · exact ne_of_lt h2 h.symm
          · exact lt_asymm h' h2
      · refine Or.inr (Or.inl ⟨(hf a b).mpr ?_, hext a b h h', (hf b a).mpr ?_⟩)
        · rintro (h2 | ⟨_, h2⟩)
          · exact ne_of_lt h2 h
          · exact ne_of_lt h2 h'
        · rintro (h2 | ⟨_, h2⟩)
          · exact ne_of_lt h2 h.symm
          · exact ne_of_lt h2 h'.symm
      · refine Or.inr (Or.inr ⟨(hf a b).mpr ?_, ?_, (hlt b a).mpr (Or.inr ⟨h.symm, h'⟩)⟩)
        · rintro (h2 | ⟨_, h2⟩)
          · exact ne_of_lt h2 h
          · exact lt_asymm h' h2
        · rintro rfl; exact lt_irrefl _ h'
    · refine Or.inr (Or.inr ⟨(hf a b).mpr ?_, ?_, (hlt b a).mpr (Or.inl h)⟩)
      · rintro (h2 | ⟨h2, _⟩)
        · exact lt_asymm h h2
        · exact ne_of_lt h h2.symm
      · rintro rfl; exact lt_irrefl _ h

end Orders

section Claims11

/-- C13: `SortFirst` (x ascending, ties by y ascending) and `SortSecond` (y ascending, ties by x
ascending) are each a strict total order on points with real coordinates: irreflexive,
transitive, and for any two points `a`, `b` exactly one of `a < b`, `a = b`, `b < a` holds. -/
theorem C13_comparators_strict_total :
    ((∀ a b : ℝ × ℝ, SortFirst a b = true ↔ a.1 < b.1 ∨ (a.1 = b.1 ∧ a.2 < b.2))
      ∧ (∀ a : ℝ × ℝ, SortFirst a a = false)
      ∧ (∀ a b c : ℝ × ℝ, SortFirst a b = true → SortFirst b c = true → SortFirst a c = true)
      ∧ (∀ a b : ℝ × ℝ, (SortFirst a b = true ∧ a ≠ b ∧ SortFirst b a = false)
          ∨ (SortFirst a b = false ∧ a = b ∧ SortFirst b a = false)
          ∨ (SortFirst a b = false ∧ a ≠ b ∧ SortFirst b a = true)))
    ∧ ((∀ a b : ℝ × ℝ, SortSecond a b = true ↔ a.2 < b.2 ∨ (a.2 = b.2 ∧ a.1 < b.1))
      ∧ (∀ a : ℝ × ℝ, SortSecond a a = false)
      ∧ (∀ a b c : ℝ × ℝ, SortSecond a b = true → SortSecond b c = true → SortSecond a c = true)
      ∧ (∀ a b : ℝ × ℝ, (SortSecond a b = true ∧ a ≠ b ∧ SortSecond b a = false)
          ∨ (SortSecond a b = false ∧ a = b ∧ SortSecond b a = false)
          ∨ (SortSecond a b = false ∧ a ≠ b ∧ SortSecond b a = true))) :=
  ⟨⟨SortFirst_eq_true_iff,
      lex_strict_total SortFirst Prod.fst Prod.snd (fun _ _ h1 h2 => Prod.ext h1 h2)
        SortFirst_eq_true_iff⟩,
    ⟨SortSecond_eq_true_iff,
      lex_strict_total SortSecond Prod.snd Prod.fst (fun _ _ h1 h2 => Prod.ext h2 h1)
        SortSecond_eq_true_iff⟩⟩

/-- C13, witness: `(0,1) < (0,2) < (1,0)` by `SortFirst`, hence `(0,1) < (1,0)`; and
`(1,0) < (0,1) < (0,2)` by `SortSecond`, hence `(1,0) < (0,2)`. -/
theorem C13_witness :
    SortFirst ((0, 1) : ℝ × ℝ) (1, 0) = true ∧ SortSecond ((1, 0) : ℝ × ℝ) (0, 2) = true :=
  ⟨C13_comparators_strict_total.1.2.2.1 (0, 1) (0, 2) (1, 0)
      ((C13_comparators_strict_total.1.1 _ _).mpr (Or.inr ⟨rfl, by norm_num⟩))
      ((C13_comparators_strict_total.1.1 _ _).mpr (Or.inl (by norm_num))),
    C13_comparators_strict_total.2.2.2.1 (1, 0) (0, 1) (0, 2)
      ((C13_comparators_strict_total.2.1 _ _).mpr (Or.inl (by norm_num)))
      ((C13_comparators_strict_total.2.1 _ _).mpr (Or.inl (by norm_num)))⟩

end Claims11

section Claims14

theorem merge_step_eq (sqrt : ℝ → ℝ) (pm : ℝ × ℝ) (q : List (ℝ × ℝ)) (dl dr : ℝ) (c : Nat) :
    merge_step sqrt pm q dl dr c
      = (sqrt (scan_strip (strip pm q (std_min dl dr)) (std_min dl dr * std_min dl dr) c).1,
          (scan_strip (strip pm q (std_min dl dr)) (std_min dl dr * std_min dl dr) c).2) :=
  rfl

end Claims14

section Counting

/-! ## Operation counts -/

theorem incr_lt (c : Nat) : incr c < UINT_MOD := Nat.mod_lt _ UINT_MOD_pos

/-- On a `uint`, `k` increments add `k` modulo `2^32`. -/
theorem incr_iterate (k c : Nat) (hc : c < UINT_MOD) : incr^[k] c = (c + k) % UINT_MOD := by
  induction k generalizing c with
  | zero => simp [Nat.mod_eq_of_lt hc]
  | succ k ih =>
    rw [Function.iterate_succ_apply, ih (incr c) (incr_lt c)]
    unfold incr
    rw [Nat.mod_add_mod]
    congr 1
    omega

theorem incr_iterate_lt (k c : Nat) (hc : c < UINT_MOD) : incr^[k] c < UINT_MOD := by
  rw [incr_iterate k c hc]
  exact Nat.mod_lt _ UINT_MOD_pos

theorem triangle_succ (m : Nat) : (m + 1) * (m + 1 - 1) / 2 = m * (m - 1) / 2 + m := by
  cases m with
  | zero => rfl
  | succ k =>
    have h : (k + 1 + 1) * (k + 1 + 1 - 1) = (k + 1) * (k + 1 - 1) + 2 * (k + 1) := by
      simp only [Nat.add_sub_cancel]
      ring
    rw [h, Nat.add_mul_div_left _ _ (by norm_num : 0 < 2)]

/-- The brute-force loops count one operation per pair of the points they visit. -/
theorem bf_rows_count {α : Type} [LinearOrderedField α] (sqrt : α → α) (l : List (α × α))
    (d : α) (c : Nat) :
    (bf_rows sqrt l d c).2 = incr^[l.length * (l.length - 1) / 2] c := by
  induction l generalizing d c with
  | nil => simp [bf_rows]
  | cons a rest ih =>
    rw [bf_rows, ih, ← Function.iterate_add_apply, List.length_cons, triangle_succ]

end Counting

section Claims11b

/-- C11 (as amended): for every point list `p` of `1 ≤ n < 2^32` points, `bf_close_pair_dist`
increases the `uint` counter `count_ops` by exactly `n*(n-1)/2` modulo `2^32`, one increment per
pair `i < j` examined. -/
theorem C11_bf_count (p q : List (ℝ × ℝ)) (count_ops fuel : Nat) (h1 : 1 ≤ p.length)
    (hM : p.length < UINT_MOD) (hc : count_ops < UINT_MOD) (hf : p.length ≤ fuel) :
    ∃ r, bf_close_pair_dist Real.sqrt fuel p q count_ops
      = .ok (r, (count_ops + p.length * (p.length - 1) / 2) % UINT_MOD) := by
  have hmod : p.length % UINT_MOD = p.length := Nat.mod_eq_of_lt hM
  have hrun := bf_close_pair_dist_eq Real.sqrt fuel p q count_ops
    (by rw [hmod, if_neg (by omega)]; exact hf)
  rw [hmod, List.take_length] at hrun
  refine ⟨(bf_rows Real.sqrt p DBL_MAX count_ops).1, ?_⟩
  rw [hrun, ← incr_iterate _ _ hc, ← bf_rows_count Real.sqrt p DBL_MAX count_ops]

/-- C11, witness: on the four collinear points the count goes from `0` to `6`, and from
`2^32 - 1` to `5`. -/
theorem C11_witness :
    1 ≤ (collinear : List (ℝ × ℝ)).length ∧ (collinear : List (ℝ × ℝ)).length < UINT_MOD
      ∧ (∃ r, bf_close_pair_dist Real.sqrt 4 collinear collinear 0 = .ok (r, 6))
      ∧ (∃ r, bf_close_pair_dist Real.sqrt 4 collinear collinear (2 ^ 32 - 1) = .ok (r, 5)) := by
  have hlen : (collinear : List (ℝ × ℝ)).length = 4 := rfl
  have hM : (collinear : List (ℝ × ℝ)).length < UINT_MOD := by rw [hlen]; simp [UINT_MOD]
  refine ⟨by rw [hlen]; omega, hM, ?_, ?_⟩
  · obtain ⟨r, h⟩ := C11_bf_count collinear collinear 0 4 (by rw [hlen]; omega) hM UINT_MOD_pos
      (by rw [hlen])
    exact ⟨r, h⟩
  · obtain ⟨r, h⟩ := C11_bf_count collinear collinear (2 ^ 32 - 1) 4 (by rw [hlen]; omega) hM
      (by simp [UINT_MOD]) (by rw [hlen])
    exact ⟨r, h⟩

/-- C11 fails as stated: on `2^32` copies of the origin `size` is `0`, no pair is examined and
`count_ops` stays `0`, while `n*(n-1)/2` is `2^31` modulo `2^32`. -/
theorem C11_counterexample :
    1 ≤ (origin_copies : List (ℝ × ℝ)).length
      ∧ bf_close_pair_dist Real.sqrt (2 ^ 32) (origin_copies : List (ℝ × ℝ)) origin_copies 0
        = .ok (DBL_MAX, 0)
      ∧ (0 + (origin_copies : List (ℝ × ℝ)).length
          * ((origin_copies : List (ℝ × ℝ)).length - 1) / 2) % UINT_MOD = 2 ^ 31 := by
  have hlen : (origin_copies : List (ℝ × ℝ)).length = UINT_MOD := List.length_replicate _ _
  refine ⟨by rw [hlen]; exact UINT_MOD_pos, ?_, ?_⟩
  · exact bf_wrapped Real.sqrt _ _ _ 0 (by rw [hlen, Nat.mod_self]) (le_refl _)
  · rw [hlen]
    decide

end Claims11b

/-! ## Runs of `dc_close_pair_dist`: return, faults, more fuel -/

theorem bind_eq_ok {ε β γ : Type} {x : Except ε β} {f : β → Except ε γ} {r : γ}
    (h : x.bind f = .ok r) : ∃ a, x = .ok a ∧ f a = .ok r := by
  cases x with
  | error e => simp [Except.bind] at h
  | ok a => exact ⟨a, rfl, h⟩

theorem bind_ne_error {ε β γ : Type} {x : Except ε β} {f : β → Except ε γ} {e : ε}
    (hx : x ≠ .error e) (hf : ∀ a, f a ≠ .error e) : x.bind f ≠ .error e := by
  cases x with
  | error e' =>
    intro h
    simp only [Except.bind, Except.error.injEq] at h
    exact hx (by rw [h])
  | ok a => exact hf a

section Runs

variable {α : Type} [LinearOrderedField α]

theorem dc_zero (sqrt : α → α) (p q : List (α × α)) (c : Nat) (h4 : 4 ≤ p.length) :
    dc_close_pair_dist sqrt 0 p q c = .error .out_of_fuel := by
  rw [dc_close_pair_dist, if_neg (by omega), if_neg (by omega), if_neg (by omega)]

/-- With fewer than four points the result does not depend on the fuel. -/
theorem dc_base_indep (sqrt : α → α) (f f' : Nat) (p q : List (α × α)) (c : Nat)
    (h : p.length < 4) :
    dc_close_pair_dist sqrt f p q c = dc_close_pair_dist sqrt f' p q c := by
  by_cases h2 : p.length < 2
  · rw [dc_small sqrt f p q c h2, dc_small sqrt f' p q c h2]
  by_cases h2' : p.length = 2
  · obtain ⟨a, b, rfl⟩ := List.length_eq_two.mp h2'
    rw [dc_two, dc_two]
  · obtain ⟨a, b, e, rfl⟩ := List.length_eq_three.mp (by omega : p.length = 3)
    rw [dc_three, dc_three]

theorem dc_base_ok (sqrt : α → α) (f : Nat) (p q : List (α × α)) (c : Nat)
    (h : p.length < 4) : ∃ v, dc_close_pair_dist sqrt f p q c = .ok (v, c) := by
  by_cases h2 : p.length < 2
  · exact ⟨_, dc_small sqrt f p q c h2⟩
  by_cases h2' : p.length = 2
  · obtain ⟨a, b, rfl⟩ := List.length_eq_two.mp h2'
    exact ⟨_, dc_two sqrt f a b q c⟩
  · obtain ⟨a, b, e, rfl⟩ := List.length_eq_three.mp (by omega : p.length = 3)
    exact ⟨_, dc_three sqrt f a b e q c⟩

theorem dc_total_aux (sqrt : α → α) (n : Nat) : ∀ (p q : List (α × α)) (c fuel : Nat),
    p.length = n → p.length < UINT_MOD → q.length < UINT_MOD → p.length < fuel →
    q.length < fuel → ∃ v c', dc_close_pair_dist sqrt fuel p q c = .ok (v, c') := by
  induction n using Nat.strong_induction_on with
  | _ n ih =>
    intro p q c fuel hn hM hqM hf hfq
    subst hn
    by_cases h4 : p.length < 4
    · obtain ⟨v, h⟩ := dc_base_ok sqrt fuel p q c h4
      exact ⟨v, c, h⟩
    obtain ⟨f, rfl⟩ : ∃ f, fuel = f + 1 := ⟨fuel - 1, by omega⟩
    have hlt : p.length / 2 - 1 < p.length := by omega
    have hpm : p[p.length / 2 - 1]? = some p[p.length / 2 - 1] := List.getElem?_eq_getElem hlt
    have hlenl : (p.take (p.length / 2)).length = p.length / 2 := by
      rw [List.length_take]; omega
    have hlenr : (p.drop (p.length / 2)).length = p.length - p.length / 2 := List.length_drop _ _
    have hsl : (std_sort SortSecond (p.take (p.length / 2))).length = p.length / 2 := by
      rw [(std_sort_perm _ _).length_eq, hlenl]
    have hsr : (std_sort SortSecond (p.drop (p.length / 2))).length
        = p.length - p.length / 2 := by
      rw [(std_sort_perm _ _).length_eq, hlenr]
    obtain ⟨dl, c1, hl⟩ := ih (p.length / 2) (by omega) (p.take (p.length / 2))
      (std_sort SortSecond (p.take (p.length / 2))) (incr^[p.length] c) f hlenl
      (by omega) (by omega) (by omega) (by omega)
    obtain ⟨dr, c2, hr⟩ := ih (p.length - p.length / 2) (by omega)
      (p.drop (p.length / 2)) (std_sort SortSecond (p.drop (p.length / 2))) c1 f hlenr
      (by omega) (by omega) (by omega) (by omega)
    exact ⟨_, _, dc_step sqrt f p q c p[p.length / 2 - 1] (by omega) hM hqM (by omega)
      (by omega) hpm dl dr c1 c2 hl hr⟩

/-- `dc_close_pair_dist` returns on every `p` and `q` of fewer than `2^32` points, once the
fuel exceeds both sizes. -/
theorem dc_total (sqrt : α → α) (p q : List (α × α)) (c fuel : Nat)
    (hM : p.length < UINT_MOD) (hqM : q.length < UINT_MOD) (hf : p.length < fuel)
    (hfq : q.length < fuel) : ∃ v c', dc_close_pair_dist sqrt fuel p q c = .ok (v, c') :=
  dc_total_aux sqrt p.length p q c fuel rfl hM hqM hf hfq

end Runs

section Safety

variable {α : Type} [LinearOrderedField α]

/-! ## No access is out of range -/

theorem vector_at_ne_error {β : Type} (v : List β) (i : Nat) (h : i < v.length) :
    vector_at v i ≠ .error .out_of_range := by
  rw [vector_at_lt v i h]
  exact fun h => nomatch h

theorem scan_inner_cond_true (s : List (α × α)) (i : Nat) (t : ScanInner α)
    (h : scan_inner_cond s i t = .ok true) : t.k < s.length := by
  by_contra hk
  simp [scan_inner_cond, hk, pure, Except.pure] at h

/-- The inner `while` of the strip scan does not fault: `s.at(k)` is guarded by
`k < s.size()`, whatever the values of `k` and of `s.size()`. -/
theorem scan_inner_safe (s : List (α × α)) (i : Nat) (hi : i < s.length) (f : Nat)
    (t : ScanInner α) :
    while_loop (scan_inner_cond s i) (scan_inner_body s i) f t ≠ .error .out_of_range := by
  refine while_loop_safe _ _ (fun _ => True) ?_ ?_ (fun _ _ _ _ _ => trivial) f t trivial
  · intro t _
    obtain ⟨k, d, c⟩ := t
    by_cases hk : k < s.length
    · rw [scan_inner_cond_lt s i k d c hi hk]
      exact fun h => nomatch h
    · rw [scan_inner_cond_ge s i k d c (by omega)]
      exact fun h => nomatch h
  · intro t _ hc
    have hk := scan_inner_cond_true s i t hc
    obtain ⟨k, d, c⟩ := t
    rw [scan_inner_body_lt s i k d c hi hk]
    exact fun h => nomatch h

theorem scan_outer_cond_true {α : Type} (s : List (α × α)) (t : ScanOuter α)
    (h : scan_outer_cond s t = .ok true) : t.i < s.length - 1 := by
  by_contra hk
  simp [scan_outer_cond, hk, pure, Except.pure] at h

/-- The outer `for` of the strip scan does not fault: `s.at(i)` is reached with
`i < s.size() - 1`. -/
theorem scan_outer_safe (s : List (α × α)) (fi f : Nat) (t : ScanOuter α) :
    while_loop (scan_outer_cond s) (scan_outer_body s fi) f t ≠ .error .out_of_range := by
  refine while_loop_safe _ _ (fun _ => True) ?_ ?_ (fun _ _ _ _ _ => trivial) f t trivial
  · intro t _
    exact fun h => nomatch h
  · intro t _ hc
    have hi := scan_outer_cond_true s t hc
    unfold scan_outer_body
    exact bind_ne_error (scan_inner_safe s t.i (by omega) fi _) (fun _ h => nomatch h)

theorem dc_conquer_safe (sqrt : α → α) (f : Nat) (p q : List (α × α)) (dl dr : α) (c : Nat)
    (h4 : 4 ≤ p.length) : dc_conquer sqrt f p q dl dr c ≠ .error .out_of_range := by
  unfold dc_conquer
  simp only [bind, pure, Except.pure]
  refine bind_ne_error (vector_at_ne_error p _ (by omega)) (fun pm => ?_)
  split_ifs with hs
  · exact fun h => nomatch h
  · exact bind_ne_error (scan_outer_safe _ f f _) (fun _ h => nomatch h)

theorem split_loop_safe {α : Type} (p : List (α × α)) (bound : Nat) (hb : bound ≤ p.length) (f : Nat)
    (s : Split α) :
    while_loop (split_cond bound) (split_body p) f s ≠ .error .out_of_range := by
  rcases split_loop_no_fault p bound hb f s with h | ⟨s', h⟩
  · rw [h]; exact fun h => nomatch h
  · rw [h]; exact fun h => nomatch h

/-- No `at` of `dc_close_pair_dist` is out of range, for any `p`, `q` and fuel. -/
theorem dc_safe (sqrt : α → α) (f : Nat) : ∀ (p q : List (α × α)) (c : Nat),
    dc_close_pair_dist sqrt f p q c ≠ .error .out_of_range := by
  induction f with
  | zero =>
    intro p q c
    by_cases h4 : p.length < 4
    · obtain ⟨v, h⟩ := dc_base_ok sqrt 0 p q c h4
      rw [h]; exact fun h => nomatch h
    · rw [dc_zero sqrt p q c (by omega)]; exact fun h => nomatch h
  | succ f ih =>
    intro p q c
    by_cases h4 : p.length < 4
    · obtain ⟨v, h⟩ := dc_base_ok sqrt (f + 1) p q c h4
      rw [h]; exact fun h => nomatch h
    rw [dc_unfold sqrt f p q c (by omega)]
    refine bind_ne_error ?_ (fun x => dc_conquer_safe sqrt f p q _ _ _ (by omega))
    unfold dc_divide
    simp only [bind, pure, Except.pure]
    refine bind_ne_error (split_loop_safe p _ (Nat.div_le_self _ _) f _) (fun l => ?_)
    refine bind_ne_error (split_loop_safe p _ (le_refl _) f _) (fun r => ?_)
    refine bind_ne_error (ih _ _ _) (fun x => ?_)
    exact bind_ne_error (ih _ _ _) (fun y h => nomatch h)

theorem bf_inner_cond_true {α : Type} (size : Nat) (t : BfInner α)
    (h : bf_inner_cond size t = .ok true) : t.j < size := by
  by_contra hk
  simp [bf_inner_cond, hk, pure, Except.pure] at h

theorem bf_outer_cond_true {α : Type} (size : Nat) (t : BfOuter α)
    (h : bf_outer_cond size t = .ok true) : t.i < (size + UINT_MOD - 1) % UINT_MOD := by
  by_contra hk
  simp [bf_outer_cond, hk, pure, Except.pure] at h

/-- The inner loop of the brute force does not fault when `i < size - 1` in `uint` and
`size ≤ p.size()`: its body runs only with `j < size`, and then `size` is not `0` and
`i < size - 1`. -/
theorem bf_inner_safe (sqrt : α → α) (p : List (α × α)) (size i : Nat) (hs : size ≤ p.length)
    (hi : i < (size + UINT_MOD - 1) % UINT_MOD) (f : Nat) (t : BfInner α) :
    while_loop (bf_inner_cond size) (bf_inner_body sqrt p i) f t ≠ .error .out_of_range := by
  refine while_loop_safe _ _ (fun _ => True) ?_ ?_ (fun _ _ _ _ _ => trivial) f t trivial
  · intro t _
    exact fun h => nomatch h
  · intro t _ hc
    have hj := bf_inner_cond_true size t hc
    have hB : (size + UINT_MOD - 1) % UINT_MOD ≤ size - 1 := by
      have : size + UINT_MOD - 1 = (size - 1) + UINT_MOD := by omega
      rw [this, Nat.add_mod_right]
      exact Nat.mod_le _ _
    obtain ⟨j, d, c⟩ := t
    rw [bf_inner_body_lt sqrt p i j d c (by omega) (by simp only at hj; omega)]
    exact fun h => nomatch h

/-- No `at` of `bf_close_pair_dist` is out of range, for any `p` and fuel. -/
theorem bf_safe (sqrt : α → α) (f : Nat) (p q : List (α × α)) (c : Nat) :
    bf_close_pair_dist sqrt f p q c ≠ .error .out_of_range := by
  unfold bf_close_pair_dist
  simp only [bind, pure, Except.pure]
  refine bind_ne_error ?_ (fun _ h => nomatch h)
  refine while_loop_safe _ _ (fun _ => True) ?_ ?_ (fun _ _ _ _ _ => trivial) f _ trivial
  · intro t _
    exact fun h => nomatch h
  · intro t _ hc
    have hi := bf_outer_cond_true _ t hc
    unfold bf_outer_body
    exact bind_ne_error
      (bf_inner_safe sqrt p _ t.i (Nat.mod_le _ _) hi f _) (fun _ h => nomatch h)

end Safety

section MoreFuel

variable {α : Type} [LinearOrderedField α]

/-! ## A run that has returned returns the same with more fuel -/

theorem scan_outer_body_mono (s : List (α × α)) (fi fi' : Nat) (h : fi ≤ fi')
    (t r : ScanOuter α) (hr : scan_outer_body s fi t = .ok r) :
    scan_outer_body s fi' t = .ok r := by
  unfold scan_outer_body at hr ⊢
  simp only [bind, pure, Except.pure] at hr ⊢
  obtain ⟨x, hx, hx'⟩ := bind_eq_ok hr
  rw [while_loop_mono _ _ _ (fun _ _ h => h) fi fi' _ x h hx]
  exact hx'

theorem dc_conquer_mono (sqrt : α → α) (f f' : Nat) (h : f ≤ f') (p q : List (α × α))
    (dl dr : α) (c : Nat) (r : α × Nat) (hr : dc_conquer sqrt f p q dl dr c = .ok r) :
    dc_conquer sqrt f' p q dl dr c = .ok r := by
  unfold dc_conquer at hr ⊢
  simp only [bind, pure, Except.pure] at hr ⊢
  obtain ⟨pm, hpm, hr⟩ := bind_eq_ok hr
  rw [hpm]
  simp only [Except.bind]
  split_ifs at hr ⊢ with hs
  · exact hr
  · obtain ⟨t, ht, hr⟩ := bind_eq_ok hr
    rw [while_loop_mono _ _ _ (scan_outer_body_mono _ f f' h) f f' _ t h ht]
    exact hr

/-- `dc_close_pair_dist` returns the same with more fuel. -/
theorem dc_mono (sqrt : α → α) (f : Nat) : ∀ (f' : Nat) (p q : List (α × α)) (c : Nat)
    (r : α × Nat), f ≤ f' → dc_close_pair_dist sqrt f p q c = .ok r →
    dc_close_pair_dist sqrt f' p q c = .ok r := by
  induction f with
  | zero =>
    intro f' p q c r _ hr
    by_cases h4 : p.length < 4
    · rw [dc_base_indep sqrt f' 0 p q c h4]; exact hr
    · rw [dc_zero sqrt p q c (by omega)] at hr
      exact nomatch hr
  | succ f ih =>
    intro f' p q c r hle hr
    by_cases h4 : p.length < 4
    · rw [dc_base_indep sqrt f' (f + 1) p q c h4]; exact hr
    obtain ⟨g, rfl⟩ : ∃ g, f' = g + 1 := ⟨f' - 1, by omega⟩
    have hfg : f ≤ g := by omega
    rw [dc_unfold sqrt f p q c (by omega)] at hr
    rw [dc_unfold sqrt g p q c (by omega)]
    obtain ⟨x, hx, hr⟩ := bind_eq_ok hr
    have hx' : dc_divide sqrt g p c = .ok x := by
      unfold dc_divide at hx ⊢
      simp only [bind, pure, Except.pure] at hx ⊢
      obtain ⟨l, hl, hx⟩ := bind_eq_ok hx
      obtain ⟨r2, hr2, hx⟩ := bind_eq_ok hx
      obtain ⟨y, hy, hx⟩ := bind_eq_ok hx
      obtain ⟨z, hz, hx⟩ := bind_eq_ok hx
      rw [while_loop_mono _ _ _ (fun _ _ h => h) f g _ l hfg hl]
      simp only [Except.bind]
      rw [while_loop_mono _ _ _ (fun _ _ h => h) f g _ r2 hfg hr2]
      simp only [Except.bind]
      rw [ih g _ _ _ y hfg hy]
      simp only [Except.bind]
      rw [ih g _ _ _ z hfg hz]
      exact hx
    rw [hx']
    exact dc_conquer_mono sqrt f g hfg p q _ _ _ r hr

end MoreFuel

section Canonical

variable {α : Type} [LinearOrderedField α]

/-! ## What the two parts of the recursive case return -/

/-- When `dc_divide` returns, `p` has fewer than `2^32` points, `pl` and `pr` are the first
`p.size()/2` points of `p` and the rest, `ql` and `qr` are their sorted copies, `p.size()`
operations have been counted and the two recursive calls have returned `dl` and `dr`. -/
theorem dc_divide_inv (sqrt : α → α) (f : Nat) (p : List (α × α)) (c : Nat) (x : Divided α)
    (h : dc_divide sqrt f p c = .ok x) :
    p.length < UINT_MOD
      ∧ x.pl = p.take (p.length / 2) ∧ x.ql = std_sort SortSecond (p.take (p.length / 2))
      ∧ x.pr = p.drop (p.length / 2) ∧ x.qr = std_sort SortSecond (p.drop (p.length / 2))
      ∧ ∃ c1, dc_close_pair_dist sqrt f (p.take (p.length / 2))
            (std_sort SortSecond (p.take (p.length / 2))) (incr^[p.length] c) = .ok (x.dl, c1)
          ∧ dc_close_pair_dist sqrt f (p.drop (p.length / 2))
            (std_sort SortSecond (p.drop (p.length / 2))) c1 = .ok (x.dr, x.count_ops) := by
  unfold dc_divide at h
  simp only [bind, pure, Except.pure] at h
  obtain ⟨l, hl, h⟩ := bind_eq_ok h
  obtain ⟨r, hr, h⟩ := bind_eq_ok h
  obtain ⟨y, hy, h⟩ := bind_eq_ok h
  obtain ⟨z, hz, h⟩ := bind_eq_ok h
  have hM : p.length < UINT_MOD := by
    by_contra hge
    rw [split_loop_diverges p (by omega) f _ [] [] l.count_ops (Nat.mod_lt _ UINT_MOD_pos)] at hr
    exact nomatch hr
  have hmod : (p.length / 2) % UINT_MOD = p.length / 2 := Nat.mod_eq_of_lt (by omega)
  have hl' := while_loop_mono _ _ _ (fun _ _ h => h) f (max f (p.length + 1)) _ l
    (le_max_left _ _) hl
  rw [split_loop p (p.length / 2) (Nat.div_le_self _ _) (by omega) (p.length / 2) 0 _
    [] [] c (by omega) (by have := le_max_right f (p.length + 1); omega)] at hl'
  have hl'' : l = ⟨p.length / 2, p.take (p.length / 2), p.take (p.length / 2),
      incr^[p.length / 2] c⟩ := by
    simpa using hl'.symm
  subst hl''
  have hr' := while_loop_mono _ _ _ (fun _ _ h => h) f (max f (p.length + 1)) _ r
    (le_max_left _ _) hr
  rw [hmod, split_loop p p.length (le_refl _) hM (p.length - p.length / 2) (p.length / 2) _
    [] [] _ (by omega) (by have := le_max_right f (p.length + 1); omega)] at hr'
  have htake : List.take (p.length - p.length / 2) (List.drop (p.length / 2) p)
      = List.drop (p.length / 2) p := by
    apply List.take_of_length_le
    rw [List.length_drop]
  have hcount : incr^[p.length - p.length / 2] (incr^[p.length / 2] c) = incr^[p.length] c := by
    rw [← Function.iterate_add_apply]
    congr 1
    omega
  have hr'' : r = ⟨p.length, p.drop (p.length / 2), p.drop (p.length / 2),
      incr^[p.length] c⟩ := by
    simpa [htake, hcount] using hr'.symm
  subst hr''
  simp only [Except.ok.injEq] at h
  subst h
  exact ⟨hM, rfl, rfl, rfl, rfl, y.2, hy, hz⟩

/-- `dc_divide` returns when `p` has fewer than `2^32` points and the fuel covers the loops and
the two recursive calls. -/
theorem dc_divide_eq (sqrt : α → α) (f : Nat) (p : List (α × α)) (c : Nat)
    (hM : p.length < UINT_MOD) (hf : p.length ≤ f) (h2 : 2 ≤ p.length) (dl dr : α) (c1 c2 : Nat)
    (hl : dc_close_pair_dist sqrt f (p.take (p.length / 2))
      (std_sort SortSecond (p.take (p.length / 2))) (incr^[p.length] c) = .ok (dl, c1))
    (hr : dc_close_pair_dist sqrt f (p.drop (p.length / 2))
      (std_sort SortSecond (p.drop (p.length / 2))) c1 = .ok (dr, c2)) :
    dc_divide sqrt f p c
      = .ok ⟨p.take (p.length / 2), std_sort SortSecond (p.take (p.length / 2)),
          p.drop (p.length / 2), std_sort SortSecond (p.drop (p.length / 2)), dl, dr, c2⟩ := by
  have hloop1 := split_loop p (p.length / 2) (Nat.div_le_self _ _) (by omega) (p.length / 2) 0 f
    [] [] c (by omega) (by omega)
  have hloop2 := split_loop p p.length (le_refl _) hM (p.length - p.length / 2) (p.length / 2) f
    [] [] (incr^[p.length / 2] c) (by omega) (by omega)
  have hmod : (p.length / 2) % UINT_MOD = p.length / 2 := Nat.mod_eq_of_lt (by omega)
  have htake : List.take (p.length - p.length / 2) (List.drop (p.length / 2) p)
      = List.drop (p.length / 2) p := by
    apply List.take_of_length_le
    rw [List.length_drop]
  have hcount : incr^[p.length - p.length / 2] (incr^[p.length / 2] c) = incr^[p.length] c := by
    rw [← Function.iterate_add_apply]
    congr 1
    omega
  rw [List.drop_zero, List.nil_append] at hloop1
  rw [List.nil_append, htake, hcount] at hloop2
  unfold dc_divide
  simp only [hloop1, hmod, hloop2, bind, Except.bind, hl, hr, pure, Except.pure]

/-- `dc_conquer` returns the merge step when the strip has fewer than `2^32` points and the
fuel covers it. -/
theorem dc_conquer_eq (sqrt : α → α) (f : Nat) (p q : List (α × α)) (dl dr : α) (c : Nat)
    (pm : α × α) (hpm : p[p.length / 2 - 1]? = some pm)
    (hs : (strip pm q (std_min dl dr)).length < UINT_MOD)
    (hf : (strip pm q (std_min dl dr)).length ≤ f) :
    dc_conquer sqrt f p q dl dr c = .ok (merge_step sqrt pm q dl dr c) := by
  have hat : vector_at p (p.length / 2 - 1) = .ok pm := by
    simp [vector_at, hpm]
  unfold strip at hs hf
  unfold dc_conquer
  simp only [bind, Except.bind, hat, pure, Except.pure]
  split_ifs with h0
  · have hs' : q.filter (fun point => decide (|point.1 - pm.1| < std_min dl dr)) = [] :=
      List.length_eq_zero.mp h0
    simp [merge_step, hs', scan_strip]
  · rw [scan_outer_loop _ f hs hf
      ((q.filter (fun point => decide (|point.1 - pm.1| < std_min dl dr))).length - 1) 0 f _ _
      (by omega) (by omega)]
    simp [merge_step]

/-- When `dc_conquer` returns on a strip of fewer than `2^32` points, it returns the merge
step. -/
theorem dc_conquer_inv (sqrt : α → α) (f : Nat) (p q : List (α × α)) (dl dr : α) (c : Nat)
    (pm : α × α) (hpm : p[p.length / 2 - 1]? = some pm)
    (hs : (strip pm q (std_min dl dr)).length < UINT_MOD) (r : α × Nat)
    (h : dc_conquer sqrt f p q dl dr c = .ok r) : r = merge_step sqrt pm q dl dr c := by
  have h' := dc_conquer_mono sqrt f (max f (strip pm q (std_min dl dr)).length) (le_max_left _ _)
    p q dl dr c r h
  rw [dc_conquer_eq sqrt _ p q dl dr c pm hpm hs (le_max_right _ _)] at h'
  simpa using h'.symm

end Canonical

section Diverge

/-! ## A strip of more than `2^32` points -/

/-- The outer loop of the strip scan never ends on a strip of more than `2^32` points: its
`uint` counter stays below `s.size() - 1`. -/
theorem scan_outer_diverges {α : Type} [LinearOrderedField α] (s : List (α × α))
    (hs : UINT_MOD < s.length) (fi f : Nat) (t : ScanOuter α) (ht : t.i < UINT_MOD) :
    while_loop (scan_outer_cond s) (scan_outer_body s fi) f t = .error .out_of_fuel := by
  refine while_loop_diverges _ _ (fun t => t.i < UINT_MOD) ?_ ?_ f t ht
  · intro t ht
    have : t.i < s.length - 1 := by omega
    simp [scan_outer_cond, this, pure, Except.pure]
  · intro t ht
    unfold scan_outer_body
    simp only [bind, pure, Except.pure]
    cases hx : while_loop (scan_inner_cond s t.i) (scan_inner_body s t.i) fi
        ⟨(t.i + 1) % UINT_MOD, t.dminsq, t.count_ops⟩ with
    | error e =>
      cases e with
      | out_of_range => exact absurd hx (scan_inner_safe s t.i (by omega) fi _)
      | out_of_fuel => exact Or.inl rfl
    | ok r => exact Or.inr ⟨_, rfl, Nat.mod_lt _ UINT_MOD_pos⟩

theorem distance_line (x y : ℝ) (h : x ≤ y) : distance Real.sqrt (x, 0) (y, 0) = y - x := by
  have e : (x - y) * (x - y) + ((0 : ℝ) - 0) * (0 - 0) = (y - x) * (y - x) := by ring
  simp only [distance]
  rw [e, Real.sqrt_mul_self (by linarith)]

end Diverge

section Claims19

theorem dc_divide_safe {α : Type} [LinearOrderedField α] (sqrt : α → α) (f : Nat)
    (p : List (α × α)) (c : Nat) : dc_divide sqrt f p c ≠ .error .out_of_range := by
  unfold dc_divide
  simp only [bind, pure, Except.pure]
  refine bind_ne_error (split_loop_safe p _ (Nat.div_le_self _ _) f _) (fun l => ?_)
  refine bind_ne_error (split_loop_safe p _ (le_refl _) f _) (fun r => ?_)
  refine bind_ne_error (dc_safe sqrt f _ _ _) (fun x => ?_)
  exact bind_ne_error (dc_safe sqrt f _ _ _) (fun y h => nomatch h)

/-- On the four points of `line4` and a `q` of `2^32 + 1` copies of `(1,0)`, all of which lie
in the strip, `dc_close_pair_dist` does not return. -/
theorem dc_many_copies (fuel c : Nat) :
    dc_close_pair_dist Real.sqrt fuel (line4 : List (ℝ × ℝ)) many_copies c
      = .error .out_of_fuel := by
  have hlen : (line4 : List (ℝ × ℝ)).length = 4 := rfl
  cases fuel with
  | zero => exact dc_zero Real.sqrt _ _ c (by rw [hlen])
  | succ f =>
    rw [dc_unfold Real.sqrt f _ _ c (by rw [hlen])]
    cases hx : dc_divide Real.sqrt f (line4 : List (ℝ × ℝ)) c with
    | error e =>
      cases e with
      | out_of_range => exact absurd hx (dc_divide_safe Real.sqrt f _ c)
      | out_of_fuel => rfl
    | ok x =>
      obtain ⟨_, _, _, _, _, c1, hl, hr⟩ := dc_divide_inv Real.sqrt f _ c x hx
      have htake : (line4 : List (ℝ × ℝ)).take ((line4 : List (ℝ × ℝ)).length / 2)
          = [(0, 0), (1, 0)] := rfl
      have hdrop : (line4 : List (ℝ × ℝ)).drop ((line4 : List (ℝ × ℝ)).length / 2)
          = [(2, 0), (3, 0)] := rfl
      rw [htake, dc_two, distance_line 0 1 (by norm_num)] at hl
      rw [hdrop, dc_two, distance_line 2 3 (by norm_num)] at hr
      simp only [Except.ok.injEq, Prod.mk.injEq] at hl hr
      have hdl : x.dl = 1 := by rw [← hl.1]; norm_num
      have hdr : x.dr = 1 := by rw [← hr.1]; norm_num
      have hmin : std_min (1 : ℝ) 1 = 1 := by simp [std_min]
      have hat : vector_at (line4 : List (ℝ × ℝ)) ((line4 : List (ℝ × ℝ)).length / 2 - 1)
          = .ok (1, 0) := rfl
      have hs : (many_copies : List (ℝ × ℝ)).filter
          (fun point => decide (|point.1 - ((1, 0) : ℝ × ℝ).1| < 1)) = many_copies := by
        rw [List.filter_eq_self]
        intro a ha
        have : a = (1, 0) := List.eq_of_mem_replicate ha
        subst this
        simp
      have hslen : (many_copies : List (ℝ × ℝ)).length = UINT_MOD + 1 :=
        List.length_replicate _ _
      simp only [Except.bind]
      unfold dc_conquer
      simp only [bind, pure, Except.pure, hdl, hdr, hmin, hat, Except.bind, hs, hslen]
      rw [if_neg (by omega),
        scan_outer_diverges many_copies (by rw [hslen]; omega) f f _ UINT_MOD_pos]

/-- C19 (as amended): `dc_close_pair_dist` terminates for every `p` and `q` of fewer than
`2^32` points each, with no sortedness or multiset precondition; when `p.size() = n ≥ 4` the two
recursive calls are made on vectors of sizes `n/2` and `n - n/2`, both at least 2 and strictly
smaller than `n`, so the recursion is well-founded on `p.size()`. -/
theorem C19_dc_terminates (p q : List (ℝ × ℝ)) (c fuel : Nat) (hM : p.length < UINT_MOD)
    (hqM : q.length < UINT_MOD) (hf : p.length < fuel) (hfq : q.length < fuel) :
    (∃ v c', dc_close_pair_dist Real.sqrt fuel p q c = .ok (v, c'))
      ∧ (4 ≤ p.length →
          (p.take (p.length / 2)).length = p.length / 2
          ∧ (p.drop (p.length / 2)).length = p.length - p.length / 2
          ∧ 2 ≤ p.length / 2 ∧ p.length / 2 < p.length
          ∧ 2 ≤ p.length - p.length / 2 ∧ p.length - p.length / 2 < p.length
          ∧ ∀ x, dc_divide Real.sqrt (fuel - 1) p c = .ok x →
              x.pl = p.take (p.length / 2) ∧ x.pr = p.drop (p.length / 2)) := by
  refine ⟨dc_total Real.sqrt p q c fuel hM hqM hf hfq, fun h4 => ?_⟩
  refine ⟨by rw [List.length_take]; omega, List.length_drop _ _, by omega, by omega, by omega,
    by omega, fun x hx => ?_⟩
  obtain ⟨_, h1, _, h2, _⟩ := dc_divide_inv Real.sqrt _ p c x hx
  exact ⟨h1, h2⟩

/-- C19, witness: the four collinear points with a `q` that is not related to them. -/
theorem C19_witness :
    (collinear : List (ℝ × ℝ)).length < UINT_MOD ∧ (line4 : List (ℝ × ℝ)).length < UINT_MOD
      ∧ ∃ v c', dc_close_pair_dist Real.sqrt 5 (collinear : List (ℝ × ℝ)) line4 0
        = .ok (v, c') := by
  have hlen : (collinear : List (ℝ × ℝ)).length = 4 := rfl
  have hlen' : (line4 : List (ℝ × ℝ)).length = 4 := rfl
  have h4 : 4 < UINT_MOD := by simp [UINT_MOD]
  exact ⟨by rw [hlen]; exact h4, by rw [hlen']; exact h4,
    (C19_dc_terminates collinear line4 0 5 (by rw [hlen]; exact h4) (by rw [hlen']; exact h4)
      (by rw [hlen]; omega) (by rw [hlen']; omega)).1⟩

/-- C19 fails as stated: `dc_close_pair_dist` returns with no amount of fuel on `2^32` copies
of the origin (the second copying loop never ends), nor on the four points of `line4` with a `q`
of `2^32 + 1` copies of `(1,0)` (the outer loop of the strip scan never ends). -/
theorem C19_counterexample :
    (∀ fuel c, dc_close_pair_dist Real.sqrt fuel (origin_copies : List (ℝ × ℝ)) origin_copies c
        = .error .out_of_fuel)
      ∧ (∀ fuel c, dc_close_pair_dist Real.sqrt fuel (line4 : List (ℝ × ℝ)) many_copies c
        = .error .out_of_fuel) := by
  have hlen : (origin_copies : List (ℝ × ℝ)).length = UINT_MOD := List.length_replicate _ _
  exact ⟨fun fuel c => dc_diverges Real.sqrt fuel _ _ c (by rw [hlen]), dc_many_copies⟩

/-- C20: for every `p` and `q`, with no precondition relating them, and for every fuel, neither
`dc_close_pair_dist` nor `bf_close_pair_dist` ends in an access `p.at(.)` or `s.at(.)` out of
range: a run returns or is still running when the fuel is used up.  The dividing-line index
`p.size()/2 - 1` is valid when `p.size() ≥ 4`, the body of the inner `while` of the strip scan
runs only with `k < s.size()`, the body of the outer `for` only with `i < s.size() - 1`, and the
body of the inner loop of the brute force only with `j < size`. -/
theorem C20_no_out_of_range (p q : List (ℝ × ℝ)) (count_ops fuel : Nat) :
    dc_close_pair_dist Real.sqrt fuel p q count_ops ≠ .error .out_of_range
      ∧ bf_close_pair_dist Real.sqrt fuel p q count_ops ≠ .error .out_of_range
      ∧ (4 ≤ p.length → ∃ pm, vector_at p (p.length / 2 - 1) = .ok pm)
      ∧ (∀ (s : List (ℝ × ℝ)) (i : Nat) (t : ScanInner ℝ),
          scan_inner_cond s i t = .ok true → t.k < s.length)
      ∧ (∀ (s : List (ℝ × ℝ)) (t : ScanOuter ℝ),
          scan_outer_cond s t = .ok true → t.i < s.length - 1)
      ∧ (∀ (size : Nat) (t : BfInner ℝ), bf_inner_cond size t = .ok true → t.j < size) :=
  ⟨dc_safe Real.sqrt fuel p q count_ops, bf_safe Real.sqrt fuel p q count_ops,
    fun h4 => ⟨_, vector_at_lt p _ (by omega)⟩, scan_inner_cond_true, scan_outer_cond_true,
    bf_inner_cond_true⟩

/-- C20, witness: four collinear points with a `q` of other points, and the empty input. -/
theorem C20_witness :
    dc_close_pair_dist Real.sqrt 5 (collinear : List (ℝ × ℝ)) line4 0 ≠ .error .out_of_range
      ∧ bf_close_pair_dist Real.sqrt 5 ([] : List (ℝ × ℝ)) [] 0 ≠ .error .out_of_range :=
  ⟨(C20_no_out_of_range collinear line4 0 5).1, (C20_no_out_of_range [] [] 0 5).2.1⟩

end Claims19

section Claims15

/-- In a vector sorted by `SortFirst`, the points of the first `k` positions are not right of
the point at position `k - 1`, and the others are not left of it. -/
theorem sorted_split (p : List (ℝ × ℝ)) (k : Nat) (pm : ℝ × ℝ) (hp : SortedBy SortFirst p)
    (hk : 0 < k) (hpm : p[k - 1]? = some pm) :
    pm ∈ p.take k ∧ (∀ a ∈ p.take k, a.1 ≤ pm.1) ∧ (∀ b ∈ p.drop k, pm.1 ≤ b.1) := by
  have hxs : p.Pairwise (fun a b => a.1 ≤ b.1) := sortedBy_fst_le hp
  have hsplit : p.take k ++ p.drop k = p := List.take_append_drop k p
  have hpm_mem : pm ∈ p.take k := by
    rw [List.mem_take_iff_getElem]
    obtain ⟨hi, e⟩ := List.getElem?_eq_some.mp hpm
    exact ⟨k - 1, by rw [Nat.lt_min]; exact ⟨by omega, hi⟩, e⟩
  refine ⟨hpm_mem, ?_, ?_⟩
  · intro a ha
    have hk' : k = (k - 1) + 1 := by omega
    rw [hk', List.take_succ, hpm] at ha
    rcases List.mem_append.mp ha with h1 | h1
    · have hsub : List.Sublist (p.take (k - 1) ++ [pm]) p := by
        have := List.take_sublist ((k - 1) + 1) p
        rwa [List.take_succ, hpm] at this
      exact (List.pairwise_append.mp (hxs.sublist hsub)).2.2 a h1 pm (by simp)
    · simp at h1
      rw [h1]
  · intro b hb
    exact (List.pairwise_append.mp (hsplit.symm ▸ hxs)).2.2 pm hpm_mem b hb

/-- C15: in the recursive case (`n ≥ 4`) on a valid input, when the run reaches the merge step
both recursive calls have received valid inputs: `pl` is the first `n/2` points of `p` and `pr`
the remaining `n - n/2`, each sorted by `SortFirst`; `ql` is sorted by `SortSecond` and holds
the points of `pl`, `qr` is sorted by `SortSecond` and holds the points of `pr`; and `pl`
followed by `pr` is `p`.  The run reaches that step whenever `n < 2^32` and the fuel covers the
loops. -/
theorem C15_recursive_calls_valid (p q : List (ℝ × ℝ)) (c f : Nat) (hv : ValidInput p q)
    (h4 : 4 ≤ p.length) :
    (∀ x, dc_divide Real.sqrt f p c = .ok x →
        x.pl = p.take (p.length / 2) ∧ x.pl.length = p.length / 2
        ∧ x.pr = p.drop (p.length / 2) ∧ x.pr.length = p.length - p.length / 2
        ∧ ValidInput x.pl x.ql ∧ ValidInput x.pr x.qr ∧ x.pl ++ x.pr = p
        ∧ ∃ c0 c1, dc_close_pair_dist Real.sqrt f x.pl x.ql c0 = .ok (x.dl, c1)
          ∧ dc_close_pair_dist Real.sqrt f x.pr x.qr c1 = .ok (x.dr, x.count_ops))
      ∧ (p.length < UINT_MOD → p.length ≤ f → ∃ x, dc_divide Real.sqrt f p c = .ok x) := by
  constructor
  · intro x hx
    obtain ⟨_, h1, h2, h3, h4', c1, hl, hr⟩ := dc_divide_inv Real.sqrt f p c x hx
    rw [h1, h2, h3, h4']
    refine ⟨rfl, by rw [List.length_take]; omega, rfl, List.length_drop _ _,
      validInput_left hv _, validInput_right hv _, List.take_append_drop _ _, _, c1, hl, hr⟩
  · intro hM hf
    have hlenl : (p.take (p.length / 2)).length = p.length / 2 := by
      rw [List.length_take]; omega
    have hlenr : (p.drop (p.length / 2)).length = p.length - p.length / 2 := List.length_drop _ _
    have hsl : (std_sort SortSecond (p.take (p.length / 2))).length = p.length / 2 := by
      rw [(std_sort_perm _ _).length_eq, hlenl]
    have hsr : (std_sort SortSecond (p.drop (p.length / 2))).length
        = p.length - p.length / 2 := by
      rw [(std_sort_perm _ _).length_eq, hlenr]
    obtain ⟨dl, c1, hl⟩ := dc_total Real.sqrt (p.take (p.length / 2))
      (std_sort SortSecond (p.take (p.length / 2))) (incr^[p.length] c) f (by omega) (by omega)
      (by omega) (by omega)
    obtain ⟨dr, c2, hr⟩ := dc_total Real.sqrt (p.drop (p.length / 2))
      (std_sort SortSecond (p.drop (p.length / 2))) c1 f (by omega) (by omega)
      (by omega) (by omega)
    exact ⟨_, dc_divide_eq Real.sqrt f p c hM hf (by omega) dl dr c1 c2 hl hr⟩

/-- C15, witness: on the four collinear points the first part of the recursive case returns
with `pl = [(0,0),(1,1)]`, `pr = [(2,2),(3,3)]` and valid inputs for both calls. -/
theorem C15_witness :
    ValidInput (collinear : List (ℝ × ℝ)) collinear ∧ 4 ≤ (collinear : List (ℝ × ℝ)).length
      ∧ ∃ x, dc_divide Real.sqrt 4 (collinear : List (ℝ × ℝ)) 0 = .ok x
        ∧ x.pl = [(0, 0), (1, 1)] ∧ x.pr = [(2, 2), (3, 3)]
        ∧ ValidInput x.pl x.ql ∧ ValidInput x.pr x.qr := by
  have hlen : (collinear : List (ℝ × ℝ)).length = 4 := rfl
  have h := C15_recursive_calls_valid collinear collinear 0 4 valid_collinear (by rw [hlen])
  obtain ⟨x, hx⟩ := h.2 (by rw [hlen]; simp [UINT_MOD]) (by rw [hlen])
  obtain ⟨h1, _, h2, _, h3, h4, _⟩ := h.1 x hx
  exact ⟨valid_collinear, by rw [hlen], x, hx, h1, h2, h3, h4⟩

/-- C16: in the recursive case on a valid input, with `d = min(dl, dr)` and `m` the
x-coordinate of the last point `p[n/2 - 1]` of the left half, the strip is the order-preserving
sub-sequence of `q` of exactly the points with `|x - m| < d`, so it is sorted by `y`, and every
pair of points taken one from each half whose distance is less than `d` has both of its points
in the strip. -/
theorem C16_strip (p q : List (ℝ × ℝ)) (dl dr : ℝ) (pm : ℝ × ℝ) (hv : ValidInput p q)
    (h4 : 4 ≤ p.length) (hpm : p[p.length / 2 - 1]? = some pm) :
    List.Sublist (strip pm q (std_min dl dr)) q
      ∧ (∀ pt, pt ∈ strip pm q (std_min dl dr) ↔ pt ∈ q ∧ |pt.1 - pm.1| < min dl dr)
      ∧ (strip pm q (std_min dl dr)).length
          = q.countP (fun pt => decide (|pt.1 - pm.1| < min dl dr))
      ∧ SortedBy SortSecond (strip pm q (std_min dl dr))
      ∧ (strip pm q (std_min dl dr)).Perm
          (strip pm (p.take (p.length / 2)) (std_min dl dr)
            ++ strip pm (p.drop (p.length / 2)) (std_min dl dr))
      ∧ (∀ a ∈ p.take (p.length / 2), ∀ b ∈ p.drop (p.length / 2),
          distance Real.sqrt a b < min dl dr →
            a ∈ strip pm (p.take (p.length / 2)) (std_min dl dr)
            ∧ b ∈ strip pm (p.drop (p.length / 2)) (std_min dl dr)
            ∧ a ∈ strip pm q (std_min dl dr) ∧ b ∈ strip pm q (std_min dl dr)) := by
  have hd : std_min dl dr = min dl dr := std_min_eq dl dr
  have hsub : List.Sublist (strip pm q (std_min dl dr)) q := List.filter_sublist q
  have hmem : ∀ (l : List (ℝ × ℝ)) (pt : ℝ × ℝ),
      pt ∈ strip pm l (std_min dl dr) ↔ pt ∈ l ∧ |pt.1 - pm.1| < min dl dr := by
    intro l pt
    simp [strip, hd]
  have hperm : (strip pm q (std_min dl dr)).Perm
      (strip pm (p.take (p.length / 2)) (std_min dl dr)
        ++ strip pm (p.drop (p.length / 2)) (std_min dl dr)) := by
    unfold strip
    rw [← List.filter_append, List.take_append_drop]
    exact hv.2.2.filter _
  refine ⟨hsub, hmem q, ?_, List.Pairwise.sublist hsub hv.2.1, hperm, ?_⟩
  · unfold strip
    rw [hd, List.countP_eq_length_filter]
  · intro a ha b hb hlt
    obtain ⟨_, hleft, hright⟩ := sorted_split p (p.length / 2) pm hv.1 (by omega) hpm
    have hxa : a.1 ≤ pm.1 := hleft a ha
    have hxb : pm.1 ≤ b.1 := hright b hb
    have habs : |b.1 - a.1| ≤ distance Real.sqrt a b := abs_fst_le_distance a b
    have hba : b.1 - a.1 ≤ distance Real.sqrt a b := (le_abs_self _).trans habs
    have hPa : |a.1 - pm.1| < min dl dr := by
      rw [abs_lt]; constructor <;> linarith
    have hPb : |b.1 - pm.1| < min dl dr := by
      rw [abs_lt]; constructor <;> linarith
    have h1 := (hmem _ a).mpr ⟨ha, hPa⟩
    have h2 := (hmem _ b).mpr ⟨hb, hPb⟩
    exact ⟨h1, h2, hperm.symm.subset (List.mem_append_left _ h1),
      hperm.symm.subset (List.mem_append_right _ h2)⟩

/-- C16, witness: on the four collinear points with `dl = dr = 3/2` the strip about `x = 1`
holds `(1,1)` and `(2,2)`, which are less than `3/2` apart and on different sides. -/
theorem C16_witness :
    ValidInput (collinear : List (ℝ × ℝ)) collinear
      ∧ ((1, 1) : ℝ × ℝ) ∈ strip (1, 1) (collinear : List (ℝ × ℝ)) (std_min (3 / 2) (3 / 2))
      ∧ ((2, 2) : ℝ × ℝ) ∈ strip (1, 1) (collinear : List (ℝ × ℝ)) (std_min (3 / 2) (3 / 2)) := by
  have hlen : (collinear : List (ℝ × ℝ)).length = 4 := rfl
  have h := (C16_strip collinear collinear (3 / 2) (3 / 2) (1, 1) valid_collinear (by rw [hlen])
    rfl).2.2.2.2.2 (1, 1) (by simp [collinear]) (2, 2) (by simp [collinear]) (by
      have e : distance Real.sqrt ((1, 1) : ℝ × ℝ) (2, 2) = Real.sqrt 2 := by
        simp only [distance]; norm_num
      rw [e, min_self, Real.sqrt_lt' (by norm_num)]
      norm_num)
  exact ⟨valid_collinear, h.2.2.1, h.2.2.2⟩

end Claims15

section Descent

/-! ## The strip scan only lowers `dminsq` -/

theorem std_min_le_right {α : Type} [LinearOrderedField α] (a b : α) : std_min a b ≤ b := by
  rw [std_min_eq]; exact min_le_right _ _

theorem scan_inner_body_le {α : Type} [LinearOrderedField α] (s : List (α × α)) (i : Nat)
    (u u' : ScanInner α) (h : scan_inner_body s i u = .ok u') : u'.dminsq ≤ u.dminsq := by
  unfold scan_inner_body at h
  simp only [bind, pure, Except.pure] at h
  obtain ⟨a, _, h⟩ := bind_eq_ok h
  obtain ⟨b, _, h⟩ := bind_eq_ok h
  obtain ⟨a', _, h⟩ := bind_eq_ok h
  obtain ⟨b', _, h⟩ := bind_eq_ok h
  simp only [Except.ok.injEq] at h
  subst h
  exact std_min_le_right _ _

theorem scan_inner_le {α : Type} [LinearOrderedField α] (s : List (α × α)) (i f : Nat)
    (u r : ScanInner α)
    (h : while_loop (scan_inner_cond s i) (scan_inner_body s i) f u = .ok r) :
    r.dminsq ≤ u.dminsq :=
  (while_loop_inv _ _ (fun t => t.dminsq ≤ u.dminsq)
    (fun t t' ht _ hb => (scan_inner_body_le s i t t' hb).trans ht) f u r (le_refl _) h).1

theorem scan_outer_body_le {α : Type} [LinearOrderedField α] (s : List (α × α)) (fi : Nat)
    (t t' : ScanOuter α) (h : scan_outer_body s fi t = .ok t') : t'.dminsq ≤ t.dminsq := by
  unfold scan_outer_body at h
  simp only [bind, pure, Except.pure] at h
  obtain ⟨r, hr, h⟩ := bind_eq_ok h
  simp only [Except.ok.injEq] at h
  subst h
  exact scan_inner_le s t.i fi _ r hr

/-- Whatever the strip, the scan returns a `dminsq` that is at most the one it started with. -/
theorem scan_outer_le {α : Type} [LinearOrderedField α] (s : List (α × α)) (fi f : Nat)
    (t r : ScanOuter α)
    (h : while_loop (scan_outer_cond s) (scan_outer_body s fi) f t = .ok r) :
    r.dminsq ≤ t.dminsq :=
  (while_loop_inv _ _ (fun u => u.dminsq ≤ t.dminsq)
    (fun u u' hu _ hb => (scan_outer_body_le s fi u u' hb).trans hu) f t r (le_refl _) h).1

/-- How `dc_conquer` returns: through line 125 on an empty strip, or through line 141 with the
`dminsq` left by the scan. -/
theorem dc_conquer_cases {α : Type} [LinearOrderedField α] (sqrt : α → α) (f : Nat)
    (p q : List (α × α)) (dl dr : α) (c : Nat) (v : α) (c' : Nat)
    (h : dc_conquer sqrt f p q dl dr c = .ok (v, c')) :
    ∃ pm, p[p.length / 2 - 1]? = some pm
      ∧ ((strip pm q (std_min dl dr) = [] ∧ v = sqrt (std_min dl dr * std_min dl dr) ∧ c' = c)
        ∨ (strip pm q (std_min dl dr) ≠ []
          ∧ ∃ t, while_loop (scan_outer_cond (strip pm q (std_min dl dr)))
                (scan_outer_body (strip pm q (std_min dl dr)) f) f
                ⟨0, std_min dl dr * std_min dl dr, c⟩ = .ok t
            ∧ v = sqrt t.dminsq ∧ c' = t.count_ops)) := by
  unfold dc_conquer at h
  simp only [bind, pure, Except.pure] at h
  obtain ⟨pm, hpm, h⟩ := bind_eq_ok h
  have hpm' : p[p.length / 2 - 1]? = some pm := by
    unfold vector_at at hpm
    cases hg : p[p.length / 2 - 1]? with
    | none => simp [hg] at hpm
    | some y => simpa [hg] using hpm
  refine ⟨pm, hpm', ?_⟩
  split_ifs at h with hs
  · simp only [Except.ok.injEq, Prod.mk.injEq] at h
    exact Or.inl ⟨List.length_eq_zero.mp hs, h.1.symm, h.2.symm⟩
  · obtain ⟨t, ht, h⟩ := bind_eq_ok h
    simp only [Except.ok.injEq, Prod.mk.injEq] at h
    exact Or.inr ⟨fun e => hs (by unfold strip at e; rw [e]; rfl), t, ht, h.1.symm, h.2.symm⟩

/-- A distance returned by `dc_close_pair_dist` is not negative. -/
theorem dc_nonneg (f : Nat) (p q : List (ℝ × ℝ)) (c : Nat) (v : ℝ) (c' : Nat)
    (h : dc_close_pair_dist Real.sqrt f p q c = .ok (v, c')) : 0 ≤ v := by
  by_cases h2 : p.length < 2
  · rw [dc_small Real.sqrt f p q c h2] at h
    simp only [Except.ok.injEq, Prod.mk.injEq] at h
    rw [← h.1]
  by_cases h2' : p.length = 2
  · obtain ⟨a, b, rfl⟩ := List.length_eq_two.mp h2'
    rw [dc_two] at h
    simp only [Except.ok.injEq, Prod.mk.injEq] at h
    rw [← h.1]; exact distance_nonneg a b
  by_cases h3 : p.length = 3
  · obtain ⟨a, b, e, rfl⟩ := List.length_eq_three.mp h3
    rw [dc_three] at h
    simp only [Except.ok.injEq, Prod.mk.injEq] at h
    rw [← h.1]
    exact le_min (le_min (distance_nonneg _ _) (distance_nonneg _ _)) (distance_nonneg _ _)
  cases f with
  | zero =>
    rw [dc_zero Real.sqrt p q c (by omega)] at h
    exact nomatch h
  | succ g =>
    rw [dc_unfold Real.sqrt g p q c (by omega)] at h
    obtain ⟨x, _, h⟩ := bind_eq_ok h
    obtain ⟨pm, _, h | ⟨_, t, _, h, _⟩⟩ := dc_conquer_cases Real.sqrt g p q _ _ _ v c' h
    · rw [h.2.1]; exact Real.sqrt_nonneg _
    · rw [h]; exact Real.sqrt_nonneg _

end Descent

section Claims17

/-- C17: in the recursive case (`n ≥ 4`), whenever `dc_close_pair_dist` returns a value `v`,
with `dl` and `dr` the results of its two recursive calls and `d = min(dl, dr)`: `d ≥ 0`; `v` is
`sqrt(dminsq)` for the `dminsq` that the strip scan leaves, which is at most `d*d`, so `v` is
never greater than `d`; and `v` equals `d` exactly when the strip is empty, when the scan
leaves `dminsq = d*d`, and (for a strip of fewer than `2^32` points) when no two points of the
strip have a squared distance below `d*d`.  The run returns whenever `p` and `q` have fewer
than `2^32` points and the fuel covers them. -/
theorem C17_merge_result (p q : List (ℝ × ℝ)) (c fuel : Nat) (h4 : 4 ≤ p.length) :
    (∀ v c', dc_close_pair_dist Real.sqrt (fuel + 1) p q c = .ok (v, c') →
      ∃ x pm, dc_divide Real.sqrt fuel p c = .ok x ∧ p[p.length / 2 - 1]? = some pm
        ∧ 0 ≤ min x.dl x.dr
        ∧ v ≤ min x.dl x.dr
        ∧ (strip pm q (std_min x.dl x.dr) = [] → v = min x.dl x.dr)
        ∧ (∃ m, m ≤ min x.dl x.dr * min x.dl x.dr ∧ v = Real.sqrt m
            ∧ (m = min x.dl x.dr * min x.dl x.dr → v = min x.dl x.dr)
            ∧ (strip pm q (std_min x.dl x.dr) = [] → m = min x.dl x.dr * min x.dl x.dr)
            ∧ (strip pm q (std_min x.dl x.dr) ≠ [] →
                ∃ t, while_loop (scan_outer_cond (strip pm q (std_min x.dl x.dr)))
                    (scan_outer_body (strip pm q (std_min x.dl x.dr)) fuel) fuel
                    ⟨0, std_min x.dl x.dr * std_min x.dl x.dr, x.count_ops⟩ = .ok t
                  ∧ t.dminsq = m))
        ∧ ((strip pm q (std_min x.dl x.dr)).length < UINT_MOD →
            (∀ a b, List.Sublist [a, b] (strip pm q (std_min x.dl x.dr)) →
              min x.dl x.dr * min x.dl x.dr ≤ sq_dist a b) →
            v = min x.dl x.dr))
      ∧ (p.length < UINT_MOD → q.length < UINT_MOD → p.length ≤ fuel → q.length ≤ fuel →
          ∃ v c', dc_close_pair_dist Real.sqrt (fuel + 1) p q c = .ok (v, c')) := by
  constructor
  · intro v c' h
    rw [dc_unfold Real.sqrt fuel p q c h4] at h
    obtain ⟨x, hx, h⟩ := bind_eq_ok h
    obtain ⟨_, _, _, _, _, c1, hl, hr⟩ := dc_divide_inv Real.sqrt fuel p c x hx
    have hdl : 0 ≤ x.dl := dc_nonneg _ _ _ _ _ _ hl
    have hdr : 0 ≤ x.dr := dc_nonneg _ _ _ _ _ _ hr
    have hd : std_min x.dl x.dr = min x.dl x.dr := std_min_eq _ _
    have hd0 : 0 ≤ min x.dl x.dr := le_min hdl hdr
    obtain ⟨pm, hpm, hcase⟩ := dc_conquer_cases Real.sqrt fuel p q _ _ _ v c' h
    rw [hd] at hcase
    -- the `dminsq` that is left, in both ways of returning
    have hm : ∃ m, m ≤ min x.dl x.dr * min x.dl x.dr ∧ v = Real.sqrt m
        ∧ (strip pm q (std_min x.dl x.dr) = [] → m = min x.dl x.dr * min x.dl x.dr)
        ∧ (strip pm q (std_min x.dl x.dr) ≠ [] →
            ∃ t, while_loop (scan_outer_cond (strip pm q (std_min x.dl x.dr)))
                (scan_outer_body (strip pm q (std_min x.dl x.dr)) fuel) fuel
                ⟨0, std_min x.dl x.dr * std_min x.dl x.dr, x.count_ops⟩ = .ok t
              ∧ t.dminsq = m) := by
      rw [hd]
      rcases hcase with ⟨hs, hv, _⟩ | ⟨hs, t, ht, hv, _⟩
      · exact ⟨_, le_refl _, hv, fun _ => rfl, fun hne => absurd hs hne⟩
      · exact ⟨t.dminsq, scan_outer_le _ _ _ _ t ht, hv, fun he => absurd he hs,
          fun _ => ⟨t, ht, rfl⟩⟩
    obtain ⟨m, hmle, hvm, hm1, hm2⟩ := hm
    have hvle : v ≤ min x.dl x.dr := by
      rw [hvm]
      calc Real.sqrt m ≤ Real.sqrt (min x.dl x.dr * min x.dl x.dr) := Real.sqrt_le_sqrt hmle
        _ = min x.dl x.dr := Real.sqrt_mul_self hd0
    have hmeq : m = min x.dl x.dr * min x.dl x.dr → v = min x.dl x.dr := by
      intro e
      rw [hvm, e, Real.sqrt_mul_self hd0]
    refine ⟨x, pm, hx, hpm, hd0, hvle, fun hs => hmeq (hm1 hs),
      ⟨m, hmle, hvm, hmeq, hm1, hm2⟩, ?_⟩
    intro hlen hpairs
    have hms := dc_conquer_inv Real.sqrt fuel p q x.dl x.dr x.count_ops pm hpm hlen _ h
    have hv' : v = Real.sqrt (scan_strip (strip pm q (std_min x.dl x.dr))
        (std_min x.dl x.dr * std_min x.dl x.dr) x.count_ops).1 := by
      rw [merge_step_eq] at hms
      exact (Prod.mk.inj hms).1
    rcases scan_strip_attained (strip pm q (std_min x.dl x.dr))
        (std_min x.dl x.dr * std_min x.dl x.dr) x.count_ops with e | ⟨a, b, hab, e⟩
    · rw [hv', e, hd, Real.sqrt_mul_self hd0]
    · have h1 := hpairs a b hab
      have h2 := scan_strip_le (strip pm q (std_min x.dl x.dr))
        (std_min x.dl x.dr * std_min x.dl x.dr) x.count_ops
      rw [e, hd] at h2
      rw [hv', e, le_antisymm h2 h1, Real.sqrt_mul_self hd0]
  · intro hM hqM hf hfq
    exact dc_total Real.sqrt p q c (fuel + 1) hM hqM (by omega) (by omega)

/-- C17, witness: on the four collinear points the value returned is at most the lesser of the
results of the two recursive calls. -/
theorem C17_witness :
    4 ≤ (collinear : List (ℝ × ℝ)).length
      ∧ ∃ v c' x, dc_close_pair_dist Real.sqrt 5 (collinear : List (ℝ × ℝ)) collinear 0
          = .ok (v, c')
        ∧ dc_divide Real.sqrt 4 (collinear : List (ℝ × ℝ)) 0 = .ok x
        ∧ v ≤ min x.dl x.dr := by
  have hlen : (collinear : List (ℝ × ℝ)).length = 4 := rfl
  have hM : (collinear : List (ℝ × ℝ)).length < UINT_MOD := by rw [hlen]; simp [UINT_MOD]
  have h := C17_merge_result collinear collinear 0 4 (by rw [hlen])
  obtain ⟨v, c', hrun⟩ := h.2 hM hM (by rw [hlen]) (by rw [hlen])
  obtain ⟨x, pm, hx, _, _, hle, _⟩ := h.1 v c' hrun
  exact ⟨by rw [hlen], v, c', x, hrun, hx, hle⟩

end Claims17

section Tallies

variable {α : Type} [LinearOrderedField α]

/-! ## The counter of `dc_close_pair_dist` -/

theorem scan_row_fst (a : α × α) (rest : List (α × α)) (d : α) (c c' : Nat) :
    (scan_row a rest d c).1 = (scan_row a rest d c').1 := by
  induction rest generalizing d c c' with
  | nil => rfl
  | cons b rest ih =>
    rw [scan_row, scan_row]
    split_ifs with h
    · exact ih _ _ _
    · rfl

theorem scan_row_snd (a : α × α) (rest : List (α × α)) (d : α) (c : Nat) :
    (scan_row a rest d c).2 = incr^[row_comparisons a rest d] c := by
  induction rest generalizing d c with
  | nil => rfl
  | cons b rest ih =>
    rw [scan_row, row_comparisons]
    split_ifs with h
    · rw [ih, Nat.add_comm 1, Function.iterate_succ_apply]
    · rfl

theorem scan_strip_fst (s : List (α × α)) (d : α) (c c' : Nat) :
    (scan_strip s d c).1 = (scan_strip s d c').1 := by
  induction s generalizing d c c' with
  | nil => rfl
  | cons a rest ih =>
    rw [scan_strip, scan_strip, scan_row_fst a rest d c c']
    exact ih _ _ _

/-- The strip scan counts one operation per run of the body of its inner `while`. -/
theorem scan_strip_snd (s : List (α × α)) (d : α) (c : Nat) :
    (scan_strip s d c).2 = incr^[strip_comparisons s d] c := by
  induction s generalizing d c with
  | nil => rfl
  | cons a rest ih =>
    rw [scan_strip, strip_comparisons, ih, scan_row_snd, scan_row_fst a rest d c 0,
      Nat.add_comm, Function.iterate_add_apply]

theorem dc_base_eq (sqrt : α → α) (f : Nat) (p q : List (α × α)) (c : Nat)
    (h : p.length < 4) :
    dc_close_pair_dist sqrt f p q c = .ok (dc_base_value sqrt p, c) := by
  by_cases h2 : p.length < 2
  · rw [dc_small sqrt f p q c h2]
    match p, h2 with
    | [], _ => rfl
    | [_], _ => rfl
  by_cases h2' : p.length = 2
  · obtain ⟨a, b, rfl⟩ := List.length_eq_two.mp h2'
    rw [dc_two]; rfl
  · obtain ⟨a, b, e, rfl⟩ := List.length_eq_three.mp (by omega : p.length = 3)
    cases f <;> rfl

theorem dc_tally_small (sqrt : α → α) (f : Nat) (p q : List (α × α)) (h : p.length < 4) :
    dc_tally sqrt f p q = ⟨dc_base_value sqrt p, 0, 0⟩ := by
  cases f with
  | zero => rfl
  | succ g => rw [dc_tally, if_pos h]

theorem merge_step_strip (sqrt : α → α) (pm : α × α) (q : List (α × α)) (dl dr : α) (c : Nat) :
    merge_step sqrt pm q dl dr c
      = (sqrt (scan_strip (strip pm q (std_min dl dr)) (std_min dl dr * std_min dl dr) c).1,
          (scan_strip (strip pm q (std_min dl dr)) (std_min dl dr * std_min dl dr) c).2) :=
  rfl

theorem mod_chain (c n a a' b b' k : Nat) :
    ((((c + n) % UINT_MOD + a + a') % UINT_MOD + b + b') % UINT_MOD + k) % UINT_MOD
      = (c + (n + a + b) + (a' + b' + k)) % UINT_MOD := by
  simp only [UINT_MOD]
  omega

theorem dc_eq_tally_aux (sqrt : α → α) (n : Nat) : ∀ (p q : List (α × α)) (c fuel : Nat),
    p.length = n → p.length < UINT_MOD → q.length < UINT_MOD → p.length < fuel →
    q.length < fuel → c < UINT_MOD →
    dc_close_pair_dist sqrt fuel p q c
      = .ok ((dc_tally sqrt fuel p q).dist,
          (c + (dc_tally sqrt fuel p q).copies + (dc_tally sqrt fuel p q).comparisons)
            % UINT_MOD) := by
  induction n using Nat.strong_induction_on with
  | _ n ih =>
    intro p q c fuel hn hM hqM hf hfq hc
    subst hn
    by_cases h4 : p.length < 4
    · rw [dc_base_eq sqrt fuel p q c h4, dc_tally_small sqrt fuel p q h4]
      simp [Nat.mod_eq_of_lt hc]
    obtain ⟨f, rfl⟩ : ∃ f, fuel = f + 1 := ⟨fuel - 1, by omega⟩
    have hlt : p.length / 2 - 1 < p.length := by omega
    have hpm : p[p.length / 2 - 1]? = some p[p.length / 2 - 1] := List.getElem?_eq_getElem hlt
    have hlenl : (p.take (p.length / 2)).length = p.length / 2 := by
      rw [List.length_take]; omega
    have hlenr : (p.drop (p.length / 2)).length = p.length - p.length / 2 := List.length_drop _ _
    have hsl : (std_sort SortSecond (p.take (p.length / 2))).length = p.length / 2 := by
      rw [(std_sort_perm _ _).length_eq, hlenl]
    have hsr : (std_sort SortSecond (p.drop (p.length / 2))).length
        = p.length - p.length / 2 := by
      rw [(std_sort_perm _ _).length_eq, hlenr]
    have hl := ih (p.length / 2) (by omega) (p.take (p.length / 2))
      (std_sort SortSecond (p.take (p.length / 2))) (incr^[p.length] c) f hlenl
      (by omega) (by omega) (by omega) (by omega) (incr_iterate_lt _ _ hc)
    have hr := ih (p.length - p.length / 2) (by omega)
      (p.drop (p.length / 2)) (std_sort SortSecond (p.drop (p.length / 2)))
      ((incr^[p.length] c + (dc_tally sqrt f (p.take (p.length / 2))
          (std_sort SortSecond (p.take (p.length / 2)))).copies
        + (dc_tally sqrt f (p.take (p.length / 2))
          (std_sort SortSecond (p.take (p.length / 2)))).comparisons) % UINT_MOD) f hlenr
      (by omega) (by omega) (by omega) (by omega) (Nat.mod_lt _ UINT_MOD_pos)
    rw [dc_step sqrt f p q c p[p.length / 2 - 1] (by omega) hM hqM (by omega) (by omega) hpm
      _ _ _ _ hl hr, merge_step_strip, dc_tally, if_neg h4]
    simp only [hpm]
    rw [scan_strip_fst _ _ _ 0, scan_strip_snd, incr_iterate _ _ (Nat.mod_lt _ UINT_MOD_pos),
      incr_iterate _ _ hc]
    congr 2
    exact mod_chain _ _ _ _ _ _ _
end Tallies

section TalliesLoops

variable {α : Type} [LinearOrderedField α]

theorem while_count_stop {σ : Type} (cond : σ → Except Fault Bool) (body : σ → Except Fault σ)
    (fuel : Nat) (s : σ) (h : cond s = .ok false) : while_count cond body (fuel + 1) s = 0 := by
  simp [while_count, h]

theorem while_count_step {σ : Type} (cond : σ → Except Fault Bool) (body : σ → Except Fault σ)
    (fuel : Nat) (s s' : σ) (h : cond s = .ok true) (hb : body s = .ok s') :
    while_count cond body (fuel + 1) s = 1 + while_count cond body fuel s' := by
  simp [while_count, h, hb]

/-- The inner `while` of the strip scan runs its body `row_comparisons` times (and never more,
whatever the fuel). -/
theorem scan_inner_count (s : List (α × α)) (i : Nat) (hi : i < s.length)
    (hM : s.length < UINT_MOD) :
    ∀ (fuel k : Nat) (d : α) (c : Nat), k ≤ s.length →
      while_count (scan_inner_cond s i) (scan_inner_body s i) fuel ⟨k, d, c⟩
          ≤ row_comparisons s[i] (s.drop k) d
        ∧ (s.length - k < fuel →
          while_count (scan_inner_cond s i) (scan_inner_body s i) fuel ⟨k, d, c⟩
            = row_comparisons s[i] (s.drop k) d) := by
  intro fuel
  induction fuel with
  | zero =>
    intro k d c _
    exact ⟨Nat.zero_le _, fun h => absurd h (Nat.not_lt_zero _)⟩
  | succ f ih =>
    intro k d c hk
    rcases Nat.lt_or_ge k s.length with hlt | hge
    · have hdrop : s.drop k = s[k] :: s.drop (k + 1) := List.drop_eq_getElem_cons hlt
      rw [hdrop, row_comparisons]
      by_cases hcmp : (s[k].2 - s[i].2) ^ 2 < d
      · have hc : scan_inner_cond s i (⟨k, d, c⟩ : ScanInner α) = .ok true := by
          rw [scan_inner_cond_lt s i k d c hi hlt]; simp [hcmp]
        have hb := scan_inner_body_lt s i k d c hi hlt
        rw [Nat.mod_eq_of_lt (by omega : k + 1 < UINT_MOD)] at hb
        rw [while_count_step _ _ _ _ _ hc hb, if_pos hcmp]
        obtain ⟨h1, h2⟩ := ih (k + 1) (std_min (sq_dist s[i] s[k]) d) (incr c) (by omega)
        exact ⟨by omega, fun hf => by rw [h2 (by omega)]⟩
      · have hc : scan_inner_cond s i (⟨k, d, c⟩ : ScanInner α) = .ok false := by
          rw [scan_inner_cond_lt s i k d c hi hlt]; simp [hcmp]
        rw [while_count_stop _ _ _ _ hc, if_neg hcmp]
        exact ⟨le_refl _, fun _ => rfl⟩
    · rw [while_count_stop _ _ _ _ (scan_inner_cond_ge s i k d c hge),
        List.drop_of_length_le hge]
      exact ⟨Nat.zero_le _, fun _ => rfl⟩

theorem dc_tally_copies (sqrt : α → α) (fuel : Nat) (p q : List (α × α)) (h4 : 4 ≤ p.length) :
    p.length ≤ (dc_tally sqrt (fuel + 1) p q).copies := by
  have hlt : p.length / 2 - 1 < p.length := by omega
  rw [dc_tally, if_neg (by omega)]
  simp only [List.getElem?_eq_getElem hlt]
  omega

theorem dc_tally_dup4 :
    dc_tally Real.sqrt 5 (dup4 : List (ℝ × ℝ)) dup4 = ⟨0, 4, 0⟩ := by
  have h5 : (5 : Nat) = 4 + 1 := rfl
  have hlen : (dup4 : List (ℝ × ℝ)).length = 4 := rfl
  have htake : (dup4 : List (ℝ × ℝ)).take 2 = [(0, 0), (0, 0)] := rfl
  have hdrop : (dup4 : List (ℝ × ℝ)).drop 2 = [(1, 0), (1, 0)] := rfl
  have hpm : (dup4 : List (ℝ × ℝ))[1]? = some (0, 0) := rfl
  rw [h5, dc_tally, if_neg (by simp [hlen]), hlen]
  simp only [Nat.reduceDiv, Nat.add_one_sub_one, htake, hdrop, hpm]
  rw [dc_tally_small _ _ _ _ (by simp), dc_tally_small _ _ _ _ (by simp)]
  have hs : strip (0 : ℝ × ℝ) dup4 (0 : ℝ) = [] := by
    simp [strip, dup4]
  simp [dc_base_value, distance, hs, strip_comparisons, scan_strip, std_min]

end TalliesLoops

section Claims12

/-- C12, amended: for `p` and `q` of fewer than `2^32` points each, `dc_close_pair_dist` returns
and increases `count_ops` (modulo `2^32`) by the number of points copied by the copying loops,
`p.size()` in every call that reaches the recursive case, plus the number of strip-scan
comparisons over the whole recursion; nothing is counted when `n < 4`, at least `n` is counted
when `n >= 4`, and the comparisons of a row of a strip are the runs of the body of the inner
`while`. -/
theorem C12_dc_count (p q : List (ℝ × ℝ)) (c fuel : Nat) (hp : p.length < UINT_MOD)
    (hq : q.length < UINT_MOD) (hf : p.length < fuel) (hfq : q.length < fuel)
    (hc : c < UINT_MOD) :
    dc_close_pair_dist Real.sqrt fuel p q c
        = .ok ((dc_tally Real.sqrt fuel p q).dist,
            (c + (dc_tally Real.sqrt fuel p q).copies
              + (dc_tally Real.sqrt fuel p q).comparisons) % UINT_MOD)
      ∧ (p.length < 4 → (dc_tally Real.sqrt fuel p q).copies = 0
          ∧ (dc_tally Real.sqrt fuel p q).comparisons = 0)
      ∧ (4 ≤ p.length → p.length ≤ (dc_tally Real.sqrt fuel p q).copies)
      ∧ ∀ (s : List (ℝ × ℝ)) (i : Nat) (hi : i < s.length) (dminsq : ℝ) (k f : Nat),
          s.length < UINT_MOD → s.length < f →
          while_count (scan_inner_cond s i) (scan_inner_body s i) f
              ⟨(i + 1) % UINT_MOD, dminsq, k⟩
            = row_comparisons s[i] (s.drop (i + 1)) dminsq := by
  refine ⟨dc_eq_tally_aux Real.sqrt p.length p q c fuel rfl hp hq hf hfq hc, ?_, ?_, ?_⟩
  · intro h4
    rw [dc_tally_small Real.sqrt fuel p q h4]
    exact ⟨rfl, rfl⟩
  · intro h4
    obtain ⟨g, rfl⟩ : ∃ g, fuel = g + 1 := ⟨fuel - 1, by omega⟩
    exact dc_tally_copies Real.sqrt g p q h4
  · intro s i hi dminsq k f hs hsf
    rw [Nat.mod_eq_of_lt (by omega : i + 1 < UINT_MOD)]
    exact (scan_inner_count s i hi hs f (i + 1) dminsq k (by omega)).2 (by omega)

/-- The amended C12 on the four points of `collinear`. -/
theorem C12_witness :
    (collinear : List (ℝ × ℝ)).length < UINT_MOD ∧ (collinear : List (ℝ × ℝ)).length < 5
      ∧ dc_close_pair_dist Real.sqrt 5 (collinear : List (ℝ × ℝ)) collinear 0
        = .ok ((dc_tally Real.sqrt 5 (collinear : List (ℝ × ℝ)) collinear).dist,
            (0 + (dc_tally Real.sqrt 5 (collinear : List (ℝ × ℝ)) collinear).copies
              + (dc_tally Real.sqrt 5 (collinear : List (ℝ × ℝ)) collinear).comparisons)
                % UINT_MOD) :=
  have hlen : (collinear : List (ℝ × ℝ)).length = 4 := rfl
  have hM : (collinear : List (ℝ × ℝ)).length < UINT_MOD := by
    rw [hlen]; simp [UINT_MOD]
  ⟨hM, by rw [hlen]; decide,
    (C12_dc_count collinear collinear 0 5 hM hM (by rw [hlen]; decide) (by rw [hlen]; decide)
      UINT_MOD_pos).1⟩

/-- C12 as stated fails on the four points `(0,0), (0,0), (1,0), (1,0)`: `dl = dr = 0`, so the
strip is empty and the inner `while` never runs, the two recursive calls are base cases, and
yet `count_ops` rises from 0 to 4, by the four increments of the copying loops. -/
theorem C12_counterexample :
    dc_close_pair_dist Real.sqrt 5 (dup4 : List (ℝ × ℝ)) dup4 0 = .ok (0, 4)
      ∧ (∃ x, dc_divide Real.sqrt 4 (dup4 : List (ℝ × ℝ)) 0 = .ok x
          ∧ x.pl.length = 2 ∧ x.pr.length = 2 ∧ x.count_ops = 4
          ∧ strip ((0, 0) : ℝ × ℝ) dup4 (std_min x.dl x.dr) = [])
      ∧ (dup4 : List (ℝ × ℝ))[(dup4 : List (ℝ × ℝ)).length / 2 - 1]? = some (0, 0)
      ∧ (dc_tally Real.sqrt 5 (dup4 : List (ℝ × ℝ)) dup4).comparisons = 0 := by
  have hlen : (dup4 : List (ℝ × ℝ)).length = 4 := rfl
  have hM : (dup4 : List (ℝ × ℝ)).length < UINT_MOD := by
    rw [hlen]; simp [UINT_MOD]
  have htake : (dup4 : List (ℝ × ℝ)).take ((dup4 : List (ℝ × ℝ)).length / 2)
      = [(0, 0), (0, 0)] := rfl
  have hdrop : (dup4 : List (ℝ × ℝ)).drop ((dup4 : List (ℝ × ℝ)).length / 2)
      = [(1, 0), (1, 0)] := rfl
  have hd0 : distance Real.sqrt ((0, 0) : ℝ × ℝ) (0, 0) = 0 := by simp [distance]
  have hd1 : distance Real.sqrt ((1, 0) : ℝ × ℝ) (1, 0) = 0 := by simp [distance]
  have hi4 : incr^[4] 0 = 4 := by
    rw [incr_iterate 4 0 UINT_MOD_pos]; simp [UINT_MOD]
  have hdiv := dc_divide_eq Real.sqrt 4 (dup4 : List (ℝ × ℝ)) 0 hM (by rw [hlen])
    (by rw [hlen]; decide) 0 0 4 4
    (by rw [htake, hlen, hi4, dc_two, hd0])
    (by rw [hdrop, dc_two, hd1])
  have hs : strip ((0, 0) : ℝ × ℝ) dup4 (std_min (0 : ℝ) 0) = [] := by
    simp [strip, dup4, std_min]
  refine ⟨?_, ⟨_, hdiv, ?_, ?_, rfl, hs⟩, rfl, ?_⟩
  · have h := dc_eq_tally_aux Real.sqrt 4 (dup4 : List (ℝ × ℝ)) dup4 0 5 hlen hM hM
      (by rw [hlen]; decide) (by rw [hlen]; decide) UINT_MOD_pos
    rw [dc_tally_dup4] at h
    rw [h]
    simp [UINT_MOD]
  · rw [htake]; rfl
  · rw [hdrop]; rfl
  · rw [dc_tally_dup4]

end Claims12

section Packing

/-! ## At most seven comparisons in a row of the strip -/

theorem row_comparisons_window {α : Type} [LinearOrderedField α] (a : α × α) :
    ∀ (rest : List (α × α)) (dm : α) (n : Nat), n ≤ row_comparisons a rest dm →
      n ≤ rest.length ∧ ∀ b ∈ rest.take n, (b.2 - a.2) ^ 2 < dm := by
  intro rest
  induction rest with
  | nil =>
    intro dm n hn
    rw [row_comparisons] at hn
    have h0 : n = 0 := by omega
    subst h0
    exact ⟨le_refl _, by simp⟩
  | cons b r ih =>
    intro dm n hn
    rw [row_comparisons] at hn
    cases n with
    | zero => exact ⟨Nat.zero_le _, by simp⟩
    | succ m =>
      by_cases hcmp : (b.2 - a.2) ^ 2 < dm
      · rw [if_pos hcmp] at hn
        obtain ⟨h1, h2⟩ := ih (std_min (sq_dist a b) dm) m (by omega)
        refine ⟨by simp only [List.length_cons]; omega, ?_⟩
        intro e he
        rw [List.take_succ_cons, List.mem_cons] at he
        rcases he with rfl | he
        · exact hcmp
        · exact lt_of_lt_of_le (h2 e he) (std_min_le_right _ _)
      · rw [if_neg hcmp] at hn
        omega

/-- A list whose members have pairwise different keys is no longer than the number of keys. -/
theorem length_le_card_keys {β K : Type} [Fintype K] [DecidableEq K] (key : β → K)
    (l : List β) (h : l.Pairwise (fun a b => key a ≠ key b)) : l.length ≤ Fintype.card K := by
  have hn : (l.map key).Nodup := by
    rw [List.Nodup, List.pairwise_map]
    exact h
  simpa using hn.length_le_card

/-- Two points of the same quarter of a box of side `d` are less than `d` apart. -/
theorem distance_lt_of_cell (a b : ℝ × ℝ) (d : ℝ) (hd : 0 < d)
    (hx : |b.1 - a.1| ≤ d / 2) (hy : |b.2 - a.2| ≤ d / 2) : distance Real.sqrt a b < d := by
  rw [distance_eq_sqrt_sq_dist, Real.sqrt_lt' hd]
  unfold sq_dist
  have h1 : (b.1 - a.1) ^ 2 ≤ (d / 2) ^ 2 := sq_le_sq' (by linarith [(abs_le.mp hx).1])
    (abs_le.mp hx).2
  have h2 : (b.2 - a.2) ^ 2 ≤ (d / 2) ^ 2 := sq_le_sq' (by linarith [(abs_le.mp hy).1])
    (abs_le.mp hy).2
  nlinarith [mul_pos hd hd]

/-- At most four points that are `d` or more apart from one another fit in a box of side `d`. -/
theorem box_le_four (l : List (ℝ × ℝ)) (x0 y0 d : ℝ) (hd : 0 < d)
    (hl : l.Pairwise (fun a b => d ≤ distance Real.sqrt a b))
    (hbox : ∀ a ∈ l, x0 ≤ a.1 ∧ a.1 ≤ x0 + d ∧ y0 ≤ a.2 ∧ a.2 ≤ y0 + d) : l.length ≤ 4 := by
  have hcard : Fintype.card (Bool × Bool) = 4 := by simp
  rw [← hcard]
  apply length_le_card_keys
    (fun a : ℝ × ℝ => (decide (a.1 < x0 + d / 2), decide (a.2 < y0 + d / 2)))
  refine List.Pairwise.imp_of_mem ?_ hl
  intro a b ha hb hab hkey
  simp only [Prod.mk.injEq, decide_eq_decide] at hkey
  obtain ⟨hkx, hky⟩ := hkey
  obtain ⟨a1, a2, a3, a4⟩ := hbox a ha
  obtain ⟨b1, b2, b3, b4⟩ := hbox b hb
  apply absurd hab
  rw [not_le]
  apply distance_lt_of_cell a b d hd
  · rw [abs_le]
    by_cases hc : a.1 < x0 + d / 2
    · have := hkx.mp hc
      constructor <;> linarith
    · have hb' : ¬ b.1 < x0 + d / 2 := fun h => hc (hkx.mpr h)
      rw [not_lt] at hc hb'
      constructor <;> linarith
  · rw [abs_le]
    by_cases hc : a.2 < y0 + d / 2
    · have := hky.mp hc
      constructor <;> linarith
    · have hb' : ¬ b.2 < y0 + d / 2 := fun h => hc (hky.mpr h)
      rw [not_lt] at hc hb'
      constructor <;> linarith

theorem isLowerBound_mono {l : List (ℝ × ℝ)} {v d : ℝ} (h : IsLowerBound Real.sqrt l v)
    (hd : d ≤ v) : l.Pairwise (fun a b => d ≤ distance Real.sqrt a b) :=
  List.Pairwise.imp (fun hab => hd.trans hab) ((isLowerBound_iff Real.sqrt l v).mp h)

/-- On a valid input whose halves have no two points nearer than `d`, a point of the strip is
followed by at most seven points of the strip whose `y` is less than `d` above its own. -/
theorem row_comparisons_le_seven (p q : List (ℝ × ℝ)) (k : Nat) (pm : ℝ × ℝ) (d : ℝ)
    (hv : ValidInput p q) (hk : 0 < k) (hpm : p[k - 1]? = some pm)
    (hL : (p.take k).Pairwise (fun a b => d ≤ distance Real.sqrt a b))
    (hR : (p.drop k).Pairwise (fun a b => d ≤ distance Real.sqrt a b))
    (i : Nat) (hi : i < (strip pm q d).length) (dm : ℝ) (hdm : dm ≤ d * d) :
    row_comparisons (strip pm q d)[i] ((strip pm q d).drop (i + 1)) dm ≤ 7 := by
  by_contra hcon
  obtain ⟨hlen8, hwin⟩ := row_comparisons_window (strip pm q d)[i]
    ((strip pm q d).drop (i + 1)) dm 8 (by omega)
  obtain ⟨hp, hq, hperm⟩ := hv
  obtain ⟨_, hleft, hright⟩ := sorted_split p k pm hp hk hpm
  have hmem : ∀ a ∈ strip pm q d, |a.1 - pm.1| < d := by
    intro a ha
    simpa using (List.mem_filter.mp ha).2
  have hd : 0 < d := lt_of_le_of_lt (abs_nonneg _) (hmem _ (List.getElem_mem hi))
  have hsorted : (strip pm q d).Pairwise (fun a b => a.2 ≤ b.2) :=
    sortedBy_snd_le (List.Pairwise.sublist (List.filter_sublist _) hq)
  have hdrop : (strip pm q d).drop i = (strip pm q d)[i] :: (strip pm q d).drop (i + 1) :=
    List.drop_eq_getElem_cons hi
  have hsorted' := List.Pairwise.sublist (List.drop_sublist i _) hsorted
  rw [hdrop, List.pairwise_cons] at hsorted'
  have hVsub : List.Sublist ((strip pm q d)[i] :: ((strip pm q d).drop (i + 1)).take 8)
      (strip pm q d) := by
    refine List.Sublist.trans ?_ (List.drop_sublist i _)
    rw [hdrop]
    exact List.Sublist.cons₂ _ (List.take_sublist _ _)
  have hVlen : ((strip pm q d)[i] :: ((strip pm q d).drop (i + 1)).take 8).length = 9 := by
    rw [List.length_cons, List.length_take, Nat.min_eq_left hlen8]
  have hVy : ∀ v ∈ (strip pm q d)[i] :: ((strip pm q d).drop (i + 1)).take 8,
      (strip pm q d)[i].2 ≤ v.2 ∧ v.2 ≤ (strip pm q d)[i].2 + d := by
    intro v hv
    rcases List.mem_cons.mp hv with rfl | hv
    · exact ⟨le_refl _, by linarith⟩
    · have h1 := hsorted'.1 v (List.mem_of_mem_take hv)
      have h2 := lt_of_lt_of_le (hwin v hv) hdm
      refine ⟨h1, ?_⟩
      by_contra hgt
      rw [not_le] at hgt
      nlinarith
  have hsplit : (strip pm q d).Perm (strip pm (p.take k) d ++ strip pm (p.drop k) d) := by
    unfold strip
    rw [← List.filter_append, List.take_append_drop]
    exact List.Perm.filter _ hperm
  obtain ⟨l', hl'perm, hl'sub⟩ := (hsplit.subperm_left).mp hVsub.subperm
  obtain ⟨V1, V2, rfl, hV1, hV2⟩ := List.sublist_append_iff.mp hl'sub
  have hV1len : V1.length ≤ 4 := by
    apply box_le_four V1 (pm.1 - d) (strip pm q d)[i].2 d hd
    · exact List.Pairwise.sublist (hV1.trans (List.filter_sublist _)) hL
    · intro a ha
      have haV := hVy a (hl'perm.subset (List.mem_append_left _ ha))
      have haL := hV1.subset ha
      have hx1 := hleft a (List.mem_of_mem_filter haL)
      have hx2 : |a.1 - pm.1| < d := by simpa using (List.mem_filter.mp haL).2
      rw [abs_lt] at hx2
      exact ⟨by linarith [hx2.1], by linarith, haV.1, haV.2⟩
  have hV2len : V2.length ≤ 4 := by
    apply box_le_four V2 pm.1 (strip pm q d)[i].2 d hd
    · exact List.Pairwise.sublist (hV2.trans (List.filter_sublist _)) hR
    · intro a ha
      have haV := hVy a (hl'perm.subset (List.mem_append_right _ ha))
      have haR := hV2.subset ha
      have hx1 := hright a (List.mem_of_mem_filter haR)
      have hx2 : |a.1 - pm.1| < d := by simpa using (List.mem_filter.mp haR).2
      rw [abs_lt] at hx2
      exact ⟨hx1, by linarith [hx2.2], haV.1, haV.2⟩
  have := hl'perm.length_eq
  rw [List.length_append, hVlen] at this
  omega

end Packing

section Claims18

/-- C18: in the recursive case on a valid input, whenever the run reaches the strip scan (the
copying loops and the two recursive calls have returned `dl` and `dr`), the points of each half
are `d = min(dl, dr)` or more apart, and from every state of the outer loop with `i` in the
strip and `dminsq <= d^2` the inner `while` runs its body at most 7 times and leaves
`dminsq <= d^2` for the next row; the scan starts with `dminsq = d^2`.  The run does reach the
scan when `p` has fewer than `2^32` points and the fuel is at least `p.size()`. -/
theorem C18_seven_comparisons (p q : List (ℝ × ℝ)) (c fuel : Nat) (hv : ValidInput p q)
    (h4 : 4 ≤ p.length) :
    (∀ x pm, dc_divide Real.sqrt fuel p c = .ok x → p[p.length / 2 - 1]? = some pm →
        (p.take (p.length / 2)).Pairwise
            (fun a b => std_min x.dl x.dr ≤ distance Real.sqrt a b)
          ∧ (p.drop (p.length / 2)).Pairwise
            (fun a b => std_min x.dl x.dr ≤ distance Real.sqrt a b)
          ∧ ∀ (t : ScanOuter ℝ) (f : Nat), t.i < (strip pm q (std_min x.dl x.dr)).length →
            t.dminsq ≤ std_min x.dl x.dr * std_min x.dl x.dr →
            while_count (scan_inner_cond (strip pm q (std_min x.dl x.dr)) t.i)
                (scan_inner_body (strip pm q (std_min x.dl x.dr)) t.i) f
                ⟨(t.i + 1) % UINT_MOD, t.dminsq, t.count_ops⟩ ≤ 7
              ∧ ∀ t', scan_outer_body (strip pm q (std_min x.dl x.dr)) f t = .ok t' →
                  t'.dminsq ≤ std_min x.dl x.dr * std_min x.dl x.dr)
      ∧ (p.length < UINT_MOD → p.length ≤ fuel →
          ∃ x, dc_divide Real.sqrt fuel p c = .ok x) := by
  have hlenl : (p.take (p.length / 2)).length = p.length / 2 := by
    rw [List.length_take]; omega
  have hlenr : (p.drop (p.length / 2)).length = p.length - p.length / 2 := List.length_drop _ _
  constructor
  · intro x pm hx hpm
    obtain ⟨hM, _, _, _, _, c1, hl, hr⟩ := dc_divide_inv Real.sqrt fuel p c x hx
    have hl' := dc_mono Real.sqrt fuel (max fuel (p.length + 1)) _ _ _ _ (le_max_left _ _) hl
    have hr' := dc_mono Real.sqrt fuel (max fuel (p.length + 1)) _ _ _ _ (le_max_left _ _) hr
    have hF : p.length + 1 ≤ max fuel (p.length + 1) := le_max_right _ _
    obtain ⟨vl, cl, hvl, hminl⟩ := dc_correct (p.take (p.length / 2))
      (std_sort SortSecond (p.take (p.length / 2))) (incr^[p.length] c)
      (max fuel (p.length + 1)) (validInput_left hv _) (by omega) (by omega) (by omega)
    obtain ⟨vr, cr, hvr, hminr⟩ := dc_correct (p.drop (p.length / 2))
      (std_sort SortSecond (p.drop (p.length / 2))) c1
      (max fuel (p.length + 1)) (validInput_right hv _) (by omega) (by omega) (by omega)
    rw [hl'] at hvl
    rw [hr'] at hvr
    simp only [Except.ok.injEq, Prod.mk.injEq] at hvl hvr
    obtain ⟨rfl, _⟩ := hvl
    obtain ⟨rfl, _⟩ := hvr
    have hL := isLowerBound_mono hminl.2 (std_min_eq x.dl x.dr ▸ min_le_left x.dl x.dr)
    have hR := isLowerBound_mono hminr.2 (std_min_eq x.dl x.dr ▸ min_le_right x.dl x.dr)
    refine ⟨hL, hR, ?_⟩
    intro t f hi hdm
    have hsq : (strip pm q (std_min x.dl x.dr)).length ≤ q.length :=
      List.length_filter_le _ _
    have hqlen : q.length = p.length := hv.2.2.length_eq
    have hsM : (strip pm q (std_min x.dl x.dr)).length < UINT_MOD := by omega
    constructor
    · rw [Nat.mod_eq_of_lt (by omega : t.i + 1 < UINT_MOD)]
      exact le_trans
        (scan_inner_count _ t.i hi hsM f (t.i + 1) t.dminsq t.count_ops (by omega)).1
        (row_comparisons_le_seven p q (p.length / 2) pm _ hv (by omega) hpm hL hR t.i hi
          t.dminsq hdm)
    · intro t' ht'
      exact (scan_outer_body_le _ f t t' ht').trans hdm
  · intro hM hf
    obtain ⟨dl, c1, hl⟩ := dc_total Real.sqrt (p.take (p.length / 2))
      (std_sort SortSecond (p.take (p.length / 2))) (incr^[p.length] c) fuel (by omega)
      (by rw [(std_sort_perm _ _).length_eq]; omega) (by omega)
      (by rw [(std_sort_perm _ _).length_eq]; omega)
    obtain ⟨dr, c2, hr⟩ := dc_total Real.sqrt (p.drop (p.length / 2))
      (std_sort SortSecond (p.drop (p.length / 2))) c1 fuel (by omega)
      (by rw [(std_sort_perm _ _).length_eq]; omega) (by omega)
      (by rw [(std_sort_perm _ _).length_eq]; omega)
    exact ⟨_, dc_divide_eq Real.sqrt fuel p c hM hf (by omega) dl dr c1 c2 hl hr⟩

/-- C18 on the four points of `collinear`. -/
theorem C18_witness :
    ValidInput (collinear : List (ℝ × ℝ)) collinear ∧ 4 ≤ (collinear : List (ℝ × ℝ)).length
      ∧ ∃ x, dc_divide Real.sqrt 4 (collinear : List (ℝ × ℝ)) 0 = .ok x
        ∧ ∀ (t : ScanOuter ℝ) (f : Nat),
          t.i < (strip (1, 1) (collinear : List (ℝ × ℝ)) (std_min x.dl x.dr)).length →
          t.dminsq ≤ std_min x.dl x.dr * std_min x.dl x.dr →
          while_count
            (scan_inner_cond (strip (1, 1) (collinear : List (ℝ × ℝ)) (std_min x.dl x.dr)) t.i)
            (scan_inner_body (strip (1, 1) (collinear : List (ℝ × ℝ)) (std_min x.dl x.dr)) t.i)
            f ⟨(t.i + 1) % UINT_MOD, t.dminsq, t.count_ops⟩ ≤ 7 := by
  have hlen : (collinear : List (ℝ × ℝ)).length = 4 := rfl
  have h := C18_seven_comparisons collinear collinear 0 4 valid_collinear (by rw [hlen])
  obtain ⟨x, hx⟩ := h.2 (by rw [hlen]; simp [UINT_MOD]) (by rw [hlen])
  exact ⟨valid_collinear, by rw [hlen], x, hx,
    fun t f hi hdm => ((h.1 x (1, 1) hx rfl).2.2 t f hi hdm).1⟩

end Claims18

section Rounded

/-! ## Square roots that round -/

end Rounded

section Claims14b

end Claims14b

end ClosestPair
